import Mathlib

/-!
# Chord ring (node.h / node.cpp): shallow embedding

Nodes live in an arena (`Ring`, a list of node records); a `Node*` of the C++
code is an index into the arena and a null pointer is `none`.  Dereferencing a
null or dangling pointer is a `Fault.nullDeref`; loops whose termination the
code does not bound take a `fuel` argument and end in `Fault.outOfFuel` when it
is used up.
-/

namespace Chord

/-- BITLENGTH of node.h: identifiers have 8 bits. -/
abbrev BITLENGTH : Nat := 8

/-- NONE_VALUE of node.h: the value 0 stands for "None". -/
abbrev NONE_VALUE : Nat := 0

/-- Ways in which a run of the embedded code fails to produce a result. -/
inductive Fault where
  | nullDeref
  | outOfFuel
deriving DecidableEq, Repr

deriving instance DecidableEq for Except

/-- Members of class Node; `fingerTable_` is the vector of FingerTable
(BITLENGTH + 1 slots, slot 0 unused), `localKeys_` the std::map in key order.
`id_` is set once from the uint8_t given to the constructor, so it is below
2^BITLENGTH in every state the code reaches (`IdsBounded`); getId() and the
narrowing of `id_` to a uint8_t argument are the identity on such a value. -/
structure Node where
  id_ : Nat
  fingerTable_ : List (Option Nat)
  localKeys_ : List (Nat × Nat)
  predecessor_ : Option Nat
  next_finger_ : Nat
deriving DecidableEq, Repr

/-- The arena of all nodes created so far; a node pointer is an index. -/
abbrev Ring := List Node

/-- Node::Node(uint8_t id). -/
def Node.new (id : Nat) : Node :=
  { id_ := id % 2 ^ BITLENGTH
    fingerTable_ := List.replicate (BITLENGTH + 1) none
    localKeys_ := []
    predecessor_ := none
    next_finger_ := 1 }

/-- Dereference of a node pointer. -/
def getNode (r : Ring) (p : Nat) : Except Fault Node :=
  match r[p]? with
  | some n => .ok n
  | none => .error .nullDeref

/-- Dereference of a possibly null node pointer. -/
def deref (r : Ring) (p : Option Nat) : Except Fault Node :=
  match p with
  | some q => getNode r q
  | none => .error .nullDeref

/-- A possibly null pointer used where the code needs a node. -/
def nonNull (p : Option Nat) : Except Fault Nat :=
  match p with
  | some q => .ok q
  | none => .error .nullDeref

/-- FingerTable::getNodePtr. -/
def Node.getNodePtr (n : Node) (index : Nat) : Option Nat :=
  (n.fingerTable_[index]?).join

/-- FingerTable::set. -/
def Node.setFinger (n : Node) (index : Nat) (successor : Option Nat) : Node :=
  { n with fingerTable_ := n.fingerTable_.set index successor }

/-- FingerTable::get: the identifier of entry `index`, 0 when the entry is null. -/
def fingerGet (r : Ring) (n : Node) (index : Nat) : Except Fault Nat :=
  match n.getNodePtr index with
  | none => .ok 0
  | some p => do
      let f ← getNode r p
      .ok (f.id_ % 2 ^ BITLENGTH)

/-- Store a changed node record back at its place in the arena. -/
def putNode (r : Ring) (p : Nat) (n : Node) : Ring := r.set p n

/-! ### std::map<uint8_t, uint8_t> as a list of pairs in key order -/

/-- The lookup `m.find(key)`. -/
def mapFind : List (Nat × Nat) → Nat → Option Nat
  | [], _ => none
  | (k, v) :: m, key => if k = key then some v else mapFind m key

/-- The assignment `m[key] = value`. -/
def mapSet : List (Nat × Nat) → Nat → Nat → List (Nat × Nat)
  | [], key, value => [(key, value)]
  | (k, v) :: m, key, value =>
      if k = key then (key, value) :: m
      else if key < k then (key, value) :: (k, v) :: m
      else (k, v) :: mapSet m key value

/-- The removal `m.erase(key)`. -/
def mapErase : List (Nat × Nat) → Nat → List (Nat × Nat)
  | [], _ => []
  | (k, v) :: m, key => if k = key then m else (k, v) :: mapErase m key

/-! ### Interval test and routing -/

/-- Node::inRange: is `id` in the arc (start, end] walked clockwise. -/
def inRange (id start stop : Nat) : Bool :=
  if start = stop then true
  else if start < stop then decide (id > start ∧ id ≤ stop)
  else decide (id > start ∨ id ≤ stop)

/-- The loop of Node::closestPrecedingFinger from index `i` down to 1. -/
def closestPrecedingFingerFrom (r : Ring) (this : Nat) (id : Nat) : Nat → Except Fault Nat
  | 0 => .ok this
  | i + 1 => do
      let me ← getNode r this
      let f ← nonNull (me.getNodePtr (i + 1))
      let fn ← getNode r f
      if inRange fn.id_ me.id_ id then .ok f
      else closestPrecedingFingerFrom r this id i

/-- Node::closestPrecedingFinger. -/
def closestPrecedingFinger (r : Ring) (this : Nat) (id : Nat) : Except Fault Nat :=
  closestPrecedingFingerFrom r this id BITLENGTH

/-- The while loop of Node::findPredecessor, at current node `n`. -/
def findPredecessorLoop (r : Ring) (this : Nat) (id : Nat) : Nat → Nat → Except Fault Nat
  | 0, _ => .error .outOfFuel
  | fuel + 1, n => do
      let nn ← getNode r n
      let s ← deref r (nn.getNodePtr 1)
      if inRange id nn.id_ s.id_ then .ok n
      else do
        let n' ← closestPrecedingFinger r n id
        if n' = this then .ok n'
        else findPredecessorLoop r this id fuel n'

/-- Node::findPredecessor. -/
def findPredecessor (fuel : Nat) (r : Ring) (this : Nat) (id : Nat) : Except Fault Nat :=
  findPredecessorLoop r this id fuel this

/-- Node::findSuccessor. -/
def findSuccessor (fuel : Nat) (r : Ring) (this : Nat) (id : Nat) : Except Fault Nat := do
  let me ← getNode r this
  if me.getNodePtr 1 = some this then .ok this
  else do
    let s ← nonNull (me.getNodePtr 1)
    let sn ← getNode r s
    if inRange id me.id_ sn.id_ then .ok s
    else do
      let predecessor ← findPredecessor fuel r this id
      let pn ← getNode r predecessor
      nonNull (pn.getNodePtr 1)

/-! ### Ring maintenance -/

/-- Node::notify. -/
def notify (r : Ring) (this : Nat) (n : Nat) : Except Fault Ring := do
  let me ← getNode r this
  match me.predecessor_ with
  | none => .ok (putNode r this { me with predecessor_ := some n })
  | some p => do
      let nn ← getNode r n
      let pn ← getNode r p
      if inRange nn.id_ pn.id_ me.id_ then
        .ok (putNode r this { me with predecessor_ := some n })
      else .ok r

/-- Node::stabilize. -/
def stabilize (r : Ring) (this : Nat) : Except Fault Ring := do
  let me ← getNode r this
  let successor ← nonNull (me.getNodePtr 1)
  let sn ← getNode r successor
  match sn.predecessor_ with
  | none => notify r successor this
  | some x => do
      let xn ← getNode r x
      if inRange xn.id_ me.id_ sn.id_ then
        notify (putNode r this (me.setFinger 1 (some x))) x this
      else notify r successor this

/-- Node::fixFingers. -/
def fixFingers (fuel : Nat) (r : Ring) (this : Nat) : Except Fault Ring := do
  let me ← getNode r this
  let next := if me.next_finger_ + 1 > BITLENGTH then 1 else me.next_finger_ + 1
  let r1 := putNode r this { me with next_finger_ := next }
  let start := (me.id_ + 2 ^ (next - 1)) % 2 ^ BITLENGTH
  let nextSuccessor ← findSuccessor fuel r1 this start
  let me1 ← getNode r1 this
  if me1.getNodePtr next ≠ some nextSuccessor then
    .ok (putNode r1 this (me1.setFinger next (some nextSuccessor)))
  else .ok r1

/-! ### Key ownership and migration -/

/-- Node::isResponsibleForKey. -/
def isResponsibleForKey (r : Ring) (this : Nat) (key : Nat) : Except Fault Bool := do
  let me ← getNode r this
  if me.predecessor_ = some this then .ok true
  else do
    let pn ← deref r me.predecessor_
    .ok (inRange key pn.id_ me.id_)

/-- Node::transferKey. -/
def transferKey (r : Ring) (this : Nat) (key : Nat) (toNode : Nat) : Except Fault Ring := do
  let me ← getNode r this
  match mapFind me.localKeys_ key with
  | none => .ok r
  | some value => do
      let tn ← getNode r toNode
      let r1 := putNode r toNode { tn with localKeys_ := mapSet tn.localKeys_ key value }
      let me1 ← getNode r1 this
      .ok (putNode r1 this { me1 with localKeys_ := mapErase me1.localKeys_ key })

/-- The first loop of Node::moveKeys and of the body of checkAllNodesForKeys:
the keys of `keys` this node is responsible for, in map order. -/
def keysToMove (r : Ring) (this : Nat) : List (Nat × Nat) → Except Fault (List Nat)
  | [] => .ok []
  | (key, _) :: m => do
      let b ← isResponsibleForKey r this key
      let rest ← keysToMove r this m
      .ok (if b then key :: rest else rest)

/-- The second loop of Node::moveKeys: `from` hands each listed key to `this`. -/
def transferKeys (this : Nat) (src : Nat) : Ring → List Nat → Except Fault Ring
  | r, [] => .ok r
  | r, key :: ks => do
      let r1 ← transferKey r src key this
      transferKeys this src r1 ks

/-- Node::moveKeys. -/
def moveKeys (r : Ring) (this : Nat) (successor : Nat) : Except Fault Ring := do
  let sn ← getNode r successor
  let ks ← keysToMove r this sn.localKeys_
  transferKeys this successor r ks

/-- The while loop of Node::checkAllNodesForKeys. -/
def checkAllNodesLoop (this : Nat) : Nat → Ring → Option Nat → List (Option Nat) →
    Except Fault Ring
  | 0, _, _, _ => .error .outOfFuel
  | fuel + 1, r, current, visited =>
      if current ≠ some this ∧ current ∉ visited then do
        let c ← nonNull current
        let cn ← getNode r c
        let ks ← keysToMove r this cn.localKeys_
        let r1 ← transferKeys this c r ks
        let cn1 ← getNode r1 c
        checkAllNodesLoop this fuel r1 (cn1.getNodePtr 1) (current :: visited)
      else .ok r

/-- Node::checkAllNodesForKeys. -/
def checkAllNodesForKeys (fuel : Nat) (r : Ring) (this : Nat) : Except Fault Ring := do
  let me ← getNode r this
  if me.predecessor_ = none then .ok r
  else checkAllNodesLoop this fuel r (me.getNodePtr 1) [some this]

/-! ### Finger propagation -/

/-- The identifier `(id_ - (1 << (i - 1)) + (1 << BITLENGTH)) % (1 << BITLENGTH)`
of updateOthers and leave, computed in 64-bit unsigned arithmetic as the code
does (`id_` is a uint64_t) and then narrowed to uint8_t. -/
def backId (id : Nat) (i : Nat) : Nat :=
  ((id + 2 ^ 64 - 2 ^ (i - 1)) % 2 ^ 64 + 2 ^ BITLENGTH) % 2 ^ 64 % 2 ^ BITLENGTH

/-- Node::updateFingerTable, called on node `this` with candidate `s` and index `i`. -/
def updateFingerTable (s : Nat) (i : Nat) : Nat → Ring → Nat → Except Fault Ring
  | 0, _, _ => .error .outOfFuel
  | fuel + 1, r, this => do
      let me ← getNode r this
      let take ← (match me.getNodePtr i with
        | none => (.ok true : Except Fault Bool)
        | some f => do
            let sn ← getNode r s
            let fn ← getNode r f
            .ok (inRange sn.id_ me.id_ fn.id_))
      if take then
        let r1 := putNode r this (me.setFinger i (some s))
        match me.predecessor_ with
        | none => .ok r1
        | some p =>
            if p ≠ this ∧ p ≠ s then updateFingerTable s i fuel r1 p
            else .ok r1
      else .ok r

/-- One round of the loop of Node::updateOthers. -/
def updateOthersStep (fuel : Nat) (this : Nat) (r : Ring) (i : Nat) : Except Fault Ring := do
  let me ← getNode r this
  let p ← findPredecessor fuel r this (backId me.id_ i)
  if p ≠ this then updateFingerTable this i fuel r p
  else .ok r

/-- Node::updateOthers. -/
def updateOthers (fuel : Nat) (r : Ring) (this : Nat) : Except Fault Ring :=
  (List.range' 1 BITLENGTH).foldlM (updateOthersStep fuel this) r

/-- FingerTable::prettyPrint reads the identifier of every entry; only the
dereferences are kept, the text written to the console is not modelled. -/
def prettyPrint (r : Ring) (n : Node) : Except Fault Unit :=
  (1 :: List.range' 1 BITLENGTH).forM (fun i => do
    let _ ← deref r (n.getNodePtr i)
    .ok ())

/-! ### Membership -/

/-- One round of the finger initialisation loop of Node::join (`i` from 1 to BITLENGTH - 1). -/
def joinInitStep (fuel : Nat) (this : Nat) (node : Nat) (r : Ring) (i : Nat) :
    Except Fault Ring := do
  let me ← getNode r this
  let start := (me.id_ + 2 ^ i) % 2 ^ BITLENGTH
  let fi ← deref r (me.getNodePtr i)
  if inRange start me.id_ fi.id_ then
    .ok (putNode r this (me.setFinger (i + 1) (me.getNodePtr i)))
  else do
    let f ← findSuccessor fuel r node start
    .ok (putNode r this (me.setFinger (i + 1) (some f)))

/-- The part of Node::join (non-null argument) before updateOthers: finger
initialisation and insertion into the predecessor chain. -/
def joinInit (fuel : Nat) (r : Ring) (this : Nat) (node : Nat) : Except Fault Ring := do
  let me ← getNode r this
  let s ← findSuccessor fuel r node me.id_
  let r1 := putNode r this (me.setFinger 1 (some s))
  let r2 ← (List.range' 1 (BITLENGTH - 1)).foldlM (joinInitStep fuel this node) r1
  let me2 ← getNode r2 this
  let succ ← nonNull (me2.getNodePtr 1)
  let sn ← getNode r2 succ
  let r3 := putNode r2 this { me2 with predecessor_ := sn.predecessor_ }
  let sn3 ← getNode r3 succ
  .ok (putNode r3 succ { sn3 with predecessor_ := some this })

/-- Node::join. -/
def join (fuel : Nat) (r : Ring) (this : Nat) (node : Option Nat) : Except Fault Ring := do
  let me ← getNode r this
  match node with
  | none =>
      let me1 := (List.range' 1 BITLENGTH).foldl (fun n i => n.setFinger i (some this)) me
      .ok (putNode r this { me1 with predecessor_ := some this })
  | some node => do
      let r1 ← joinInit fuel r this node
      let r2 ← updateOthers fuel r1 this
      let me2 ← getNode r2 this
      let succ ← nonNull (me2.getNodePtr 1)
      let r3 ← moveKeys r2 this succ
      let r4 ← checkAllNodesForKeys fuel r3 this
      let me4 ← getNode r4 this
      prettyPrint r4 me4
      .ok r4

/-- The key migration loop of Node::leave: every pair of `keys` is written
into the store of `successor`. -/
def leaveMoveKeys (successor : Nat) : Ring → List (Nat × Nat) → Except Fault Ring
  | r, [] => .ok r
  | r, (key, value) :: m => do
      let sn ← getNode r successor
      leaveMoveKeys successor
        (putNode r successor { sn with localKeys_ := mapSet sn.localKeys_ key value }) m

/-- One round of the finger repair loop of Node::leave. -/
def leaveFixStep (fuel : Nat) (this : Nat) (successor : Nat) (r : Ring) (i : Nat) :
    Except Fault Ring := do
  let me ← getNode r this
  let p ← findPredecessor fuel r this (backId me.id_ i)
  let pn ← getNode r p
  if p ≠ this ∧ pn.getNodePtr i = some this then
    .ok (putNode r p (pn.setFinger i (some successor)))
  else .ok r

/-- Node::leave. -/
def leave (fuel : Nat) (r : Ring) (this : Nat) : Except Fault Ring := do
  let me ← getNode r this
  if me.predecessor_ = some this ∧ me.getNodePtr 1 = some this then .ok r
  else do
    let successor ← nonNull (me.getNodePtr 1)
    let r1 ← leaveMoveKeys successor r me.localKeys_
    let me1 ← getNode r1 this
    let r2 := putNode r1 this { me1 with localKeys_ := [] }
    let sn ← getNode r2 successor
    let r3 := putNode r2 successor { sn with predecessor_ := me.predecessor_ }
    let r4 ← (List.range' 1 BITLENGTH).foldlM (leaveFixStep fuel this successor) r3
    let r6 ← (if me.predecessor_ ≠ some this then do
        let p ← nonNull me.predecessor_
        let pn ← getNode r4 p
        let r5 := putNode r4 p (pn.setFinger 1 (some successor))
        fixFingers fuel r5 p
      else .ok r4)
    if me.predecessor_ ≠ some this then do
      let pn ← deref r6 me.predecessor_
      let _ ← deref r6 pn.predecessor_
      prettyPrint r6 pn
    let sn6 ← getNode r6 successor
    let _ ← deref r6 sn6.predecessor_
    prettyPrint r6 sn6
    .ok r6

/-! ### Data operations -/

/-- The routing loop of Node::find; the result is the responsible node (null
when the loop was left by the loop check) and the path of visited identifiers. -/
def findLoop (r : Ring) (key : Nat) : Nat → Nat → List Nat →
    Except Fault (Option Nat × List Nat)
  | 0, _, _ => .error .outOfFuel
  | fuel + 1, current, path => do
      let next ← closestPrecedingFinger r current key
      if next = current then do
        let cn ← getNode r current
        let rn ← deref r (cn.getNodePtr 1)
        .ok (cn.getNodePtr 1, path ++ [rn.id_ % 2 ^ BITLENGTH])
      else do
        let nn ← getNode r next
        let rn ← deref r (nn.getNodePtr 1)
        if inRange key nn.id_ rn.id_ then
          .ok (nn.getNodePtr 1, path ++ [nn.id_ % 2 ^ BITLENGTH, rn.id_ % 2 ^ BITLENGTH])
        else
          let path1 := path ++ [nn.id_ % 2 ^ BITLENGTH]
          if path1.length > 2 ^ BITLENGTH then .ok (none, path1)
          else findLoop r key fuel next path1

/-- Node::find: the returned value together with the printed path. -/
def find (r : Ring) (this : Nat) (key : Nat) : Except Fault (Nat × List Nat) := do
  let me ← getNode r this
  match mapFind me.localKeys_ key with
  | some value => .ok (value, [me.id_ % 2 ^ BITLENGTH])
  | none => do
      let (responsibleNode, path) ← findLoop r key (2 ^ BITLENGTH + 1) this [me.id_ % 2 ^ BITLENGTH]
      match responsibleNode with
      | none => .ok (NONE_VALUE, path)
      | some p => do
          let rn ← getNode r p
          match mapFind rn.localKeys_ key with
          | some value => .ok (value, path)
          | none => .ok (NONE_VALUE, path)

/-- Node::insert(key, value). -/
def insert (fuel : Nat) (r : Ring) (this : Nat) (key value : Nat) : Except Fault Ring := do
  let responsibleNode ← findSuccessor fuel r this key
  let rn ← getNode r responsibleNode
  .ok (putNode r responsibleNode { rn with localKeys_ := mapSet rn.localKeys_ key value })

/-- Node::insert(key): the value is NONE_VALUE. -/
def insertKey (fuel : Nat) (r : Ring) (this : Nat) (key : Nat) : Except Fault Ring :=
  insert fuel r this key NONE_VALUE

/-- Node::remove. -/
def remove (fuel : Nat) (r : Ring) (this : Nat) (key : Nat) : Except Fault Ring := do
  let responsibleNode ← findSuccessor fuel r this key
  let rn ← getNode r responsibleNode
  match mapFind rn.localKeys_ key with
  | some _ => .ok (putNode r responsibleNode { rn with localKeys_ := mapErase rn.localKeys_ key })
  | none => .ok r

/-! ### Ring shape used in the statements -/



/-- Clockwise distance from identifier `a` to identifier `b` on the ring. -/
def cwDist (a b : Nat) : Nat := (b + 2 ^ BITLENGTH - a) % 2 ^ BITLENGTH

/-- Identifier of the node at `p` (0 for a dangling pointer). -/
def idOf (r : Ring) (p : Nat) : Nat := (r[p]?.map (·.id_)).getD 0

/-- Predecessor pointer of the node at `p`. -/
def predOf (r : Ring) (p : Nat) : Option Nat := r[p]?.bind (·.predecessor_)

/-- Finger entry `i` of the node at `p`. -/
def fingerOf (r : Ring) (p : Nat) (i : Nat) : Option Nat := r[p]?.bind (·.getNodePtr i)

/-- Key store of the node at `p`. -/
def keysOf (r : Ring) (p : Nat) : List (Nat × Nat) := (r[p]?.map (·.localKeys_)).getD []

/-- Every identifier is a uint8_t. -/
def IdsBounded (r : Ring) : Prop := ∀ p, p < r.length → idOf r p < 2 ^ BITLENGTH

/-- No two nodes share an identifier. -/
def DistinctIds (r : Ring) : Prop :=
  ∀ p, p < r.length → ∀ q, q < r.length → idOf r p = idOf r q → p = q

/-- Every node's predecessor is the nearest other node counter-clockwise (the
node itself in a one-node ring). -/
def PredNearest (r : Ring) : Prop :=
  ∀ p, p < r.length → ∃ q, q < r.length ∧ predOf r p = some q ∧
    if r.length = 1 then q = p
    else q ≠ p ∧ ∀ t, t < r.length → t ≠ p →
      cwDist (idOf r q) (idOf r p) ≤ cwDist (idOf r t) (idOf r p)

instance (r : Ring) : Decidable (IdsBounded r) := by unfold IdsBounded; infer_instance
instance (r : Ring) : Decidable (DistinctIds r) := by unfold DistinctIds; infer_instance
instance (r : Ring) : Decidable (PredNearest r) := by unfold PredNearest; infer_instance

/-- Every finger entry i (1..BITLENGTH) of every node is the first node
clockwise at or after (id + 2^(i-1)) mod 2^BITLENGTH. -/
def FingersStabilized (r : Ring) : Prop :=
  ∀ p, p < r.length → ∀ i ∈ List.range' 1 BITLENGTH, ∃ q, q < r.length ∧
    fingerOf r p i = some q ∧
    ∀ t, t < r.length →
      cwDist ((idOf r p + 2 ^ (i - 1)) % 2 ^ BITLENGTH) (idOf r q) ≤
        cwDist ((idOf r p + 2 ^ (i - 1)) % 2 ^ BITLENGTH) (idOf r t)

instance (r : Ring) : Decidable (FingersStabilized r) := by
  unfold FingersStabilized; infer_instance

/-- A stabilized ring: every node of the arena is a member, identifiers are
distinct 8-bit numbers, predecessors and all finger entries are exact. -/
def Stabilized (r : Ring) : Prop :=
  1 ≤ r.length ∧ IdsBounded r ∧ DistinctIds r ∧ PredNearest r ∧ FingersStabilized r

instance (r : Ring) : Decidable (Stabilized r) := by unfold Stabilized; infer_instance

/-- A node record with the given identifier, finger entries 1..BITLENGTH,
predecessor and key store. -/
def mkNode (id : Nat) (fingers : List Nat) (pred : Nat) (keys : List (Nat × Nat)) : Node :=
  { id_ := id
    fingerTable_ := none :: fingers.map some
    localKeys_ := keys
    predecessor_ := some pred
    next_finger_ := 1 }

/-- The stabilized two-node ring with identifiers 0 (at index 0) and 30 (at index 1). -/
def ring0_30 : Ring :=
  [ mkNode 0 [1, 1, 1, 1, 1, 0, 0, 0] 1 [],
    mkNode 30 [0, 0, 0, 0, 0, 0, 0, 0] 0 [] ]

/-- The joins of main(): the first node starts the ring with join(nullptr),
node i + 1 joins through node i; `k` is the index of the last node to join. -/
def joinAll (fuel : Nat) (r : Ring) : Nat → Except Fault Ring
  | 0 => join fuel r 0 none
  | k + 1 => do
      let r1 ← joinAll fuel r k
      join fuel r1 (k + 1) (some k)

/-- One stabilization round of main(): stabilize() on every node in turn. -/
def stabilizeRound (r : Ring) : Except Fault Ring :=
  (List.range r.length).foldlM stabilize r

/-- The stabilization loop of main(): `n` rounds. -/
def stabilizeRounds : Nat → Ring → Except Fault Ring
  | 0, r => .ok r
  | n + 1, r => do
      let r1 ← stabilizeRound r
      stabilizeRounds n r1

/-- Following finger entry 1 for `n` hops from node `p`: the nodes reached. -/
def successorWalk (r : Ring) : Nat → Nat → List (Option Nat)
  | 0, _ => []
  | n + 1, p => fingerOf r p 1 :: (match fingerOf r p 1 with
      | some q => successorWalk r n q
      | none => [])

/-- The finger-1 chain from every node returns to it after exactly N hops and
visits every node exactly once. -/
def ClosedRing (r : Ring) : Prop :=
  ∀ p, p < r.length →
    (successorWalk r r.length p).length = r.length ∧
    (successorWalk r r.length p).getLast? = some (some p) ∧
    (successorWalk r r.length p).Nodup ∧
    ∀ q, q < r.length → some q ∈ successorWalk r r.length p

instance (r : Ring) : Decidable (ClosedRing r) := by unfold ClosedRing; infer_instance

/-- Three freshly created nodes with identifiers 0, 2 and 1, to join in that order. -/
def nodes_0_2_1 : Ring := [Node.new 0, Node.new 2, Node.new 1]

/-- The ring of `nodes_0_2_1` after 0 and 2 have joined; node 1 is still detached. -/
def ring_0_2_joined : Ring :=
  [ mkNode 0 [1, 0, 0, 0, 0, 0, 0, 0] 1 [],
    mkNode 2 [0, 0, 0, 0, 0, 0, 0, 0] 0 [],
    Node.new 1 ]

/-- The ring of `nodes_0_2_1` after 0 and 2 have joined and node 1 has run the
part of join before updateOthers. -/
def ring_0_2_1_linked : Ring :=
  [ mkNode 0 [1, 0, 0, 0, 0, 0, 0, 0] 1 [],
    mkNode 2 [0, 0, 0, 0, 0, 0, 0, 0] 2 [],
    mkNode 1 [1, 0, 0, 0, 0, 0, 0, 0] 0 [] ]

/-- The node objects of main(), identifiers 0, 30, 65, 110, 160, 230. -/
def mainNodes : Ring :=
  [Node.new 0, Node.new 30, Node.new 65, Node.new 110, Node.new 160, Node.new 230]

/-- The ring of main() after node 100 has joined (the arena order is the order
of creation: 0, 30, 65, 110, 160, 230, 100), with every finger entry exact and
the key stores of that moment. -/
def ring7 : Ring :=
  [ mkNode 0 [1, 1, 1, 1, 1, 2, 2, 4] 5 [(240, 8), (250, 10)],
    mkNode 30 [2, 2, 2, 2, 2, 2, 6, 4] 0 [(3, 3)],
    mkNode 65 [6, 6, 6, 6, 6, 6, 4, 5] 1 [(45, 3), (50, 8), (60, 10)],
    mkNode 110 [4, 4, 4, 4, 4, 4, 5, 0] 6 [(101, 4), (102, 6)],
    mkNode 160 [5, 5, 5, 5, 5, 5, 5, 2] 3 [(123, 0)],
    mkNode 230 [0, 0, 0, 0, 0, 1, 2, 3] 4 [(200, 0)],
    mkNode 100 [3, 3, 3, 3, 4, 4, 5, 5] 2 [(99, 0), (100, 5)] ]

/-- The state of `ring7` after node 65 has left. -/
def ring7_left : Ring :=
  [ mkNode 0 [1, 1, 1, 1, 1, 2, 6, 4] 5 [(240, 8), (250, 10)],
    { mkNode 30 [6, 6, 6, 6, 6, 6, 6, 4] 0 [(3, 3)] with next_finger_ := 2 },
    mkNode 65 [6, 6, 6, 6, 6, 6, 4, 5] 1 [],
    mkNode 110 [4, 4, 4, 4, 4, 4, 5, 0] 6 [(101, 4), (102, 6)],
    mkNode 160 [5, 5, 5, 5, 5, 5, 5, 6] 3 [(123, 0)],
    mkNode 230 [0, 0, 0, 0, 0, 1, 2, 3] 4 [(200, 0)],
    mkNode 100 [3, 3, 3, 3, 4, 4, 5, 5] 1 [(45, 3), (50, 8), (60, 10), (99, 0), (100, 5)] ]

/-- Two nodes 0 and 1 after node0.join(nullptr), node0.insert(5, 7) and
node1.join(node0), before any stabilize: finger entry 1 of node 0 is still
node 0 itself while its predecessor is node 1. -/
def ring0_1_unstable : Ring :=
  [ mkNode 0 [0, 0, 0, 0, 0, 0, 0, 0] 1 [(5, 7)],
    mkNode 1 [0, 0, 0, 0, 0, 0, 0, 0] 0 [] ]

/-- The stabilized ring of identifiers 0, 1 and 30. -/
def ring0_1_30 : Ring :=
  [ mkNode 0 [1, 2, 2, 2, 2, 0, 0, 0] 2 [],
    mkNode 1 [2, 2, 2, 2, 2, 0, 0, 0] 0 [(1, 9)],
    mkNode 30 [0, 0, 0, 0, 0, 0, 0, 0] 1 [] ]

/-- The ring `ring0_30` with a freshly created node of identifier 1 (index 2). -/
def ring0_30_new1 : Ring := ring0_30 ++ [Node.new 1]

/-- The ring `ring0_30_new1` after node 1 has run the part of join before
updateOthers, joining through node 0. -/
def ring0_30_1_linked : Ring :=
  [ mkNode 0 [1, 1, 1, 1, 1, 0, 0, 0] 1 [],
    mkNode 30 [0, 0, 0, 0, 0, 0, 0, 0] 2 [],
    mkNode 1 [1, 1, 1, 1, 1, 0, 0, 0] 0 [] ]

/-- The pairs of `m` written one after another into the store `acc`, as the
migration loop of leave does with the successor's store. -/
def mapSetAll (acc : List (Nat × Nat)) (m : List (Nat × Nat)) : List (Nat × Nat) :=
  m.foldl (fun a kv => mapSet a kv.1 kv.2) acc

/-- The part of a node that routing repairs never touch: identifier, key
store and predecessor. -/
def Node.core (n : Node) : Nat × List (Nat × Nat) × Option Nat :=
  (n.id_, n.localKeys_, n.predecessor_)

/-- The ring `ring0_1_30` after node 1 has handed its keys to node 30 and set
node 30's predecessor, at the start of the finger repair loop of leave. -/
def ring0_1_30_migrated : Ring :=
  [ mkNode 0 [1, 2, 2, 2, 2, 0, 0, 0] 2 [],
    mkNode 1 [2, 2, 2, 2, 2, 0, 0, 0] 0 [],
    mkNode 30 [0, 0, 0, 0, 0, 0, 0, 0] 0 [(1, 9)] ]

/-- The ring reached in main()'s way from nodes 0, 1, 2, 3 (node0.join(nullptr),
then each node joins through the one before), before any stabilize. -/
def ring0_1_2_3_joined : Ring :=
  [ mkNode 0 [2, 3, 0, 0, 0, 0, 0, 0] 3 [],
    mkNode 1 [0, 0, 0, 0, 0, 0, 0, 0] 0 [],
    mkNode 2 [0, 0, 0, 0, 0, 0, 0, 0] 1 [],
    mkNode 3 [0, 0, 0, 0, 0, 0, 0, 0] 2 [] ]

/-- Everything of a node but its key store. -/
def Node.shell (n : Node) : Nat × List (Option Nat) × Option Nat × Nat :=
  (n.id_, n.fingerTable_, n.predecessor_, n.next_finger_)

/-- The read `m[key]` of a std::map: the value found and the map after the
access (operator[] inserts a zero value when the key is missing). -/
def mapIndex (m : List (Nat × Nat)) (key : Nat) : Nat × List (Nat × Nat) :=
  match mapFind m key with
  | some v => (v, m)
  | none => (0, mapSet m key 0)

/-- Node::find with the state it leaves behind: `find` is not a const member
and reads the stores with `localKeys_[key]`, so the ring after the call is
returned next to the value and the path. -/
def findRun (r : Ring) (this : Nat) (key : Nat) : Except Fault ((Nat × List Nat) × Ring) := do
  let me ← getNode r this
  match mapFind me.localKeys_ key with
  | some _ =>
      let (value, m) := mapIndex me.localKeys_ key
      .ok ((value, [me.id_ % 2 ^ BITLENGTH]), putNode r this { me with localKeys_ := m })
  | none => do
      let (responsibleNode, path) ← findLoop r key (2 ^ BITLENGTH + 1) this [me.id_ % 2 ^ BITLENGTH]
      match responsibleNode with
      | none => .ok ((NONE_VALUE, path), r)
      | some p => do
          let rn ← getNode r p
          match mapFind rn.localKeys_ key with
          | some _ =>
              let (value, m) := mapIndex rn.localKeys_ key
              .ok ((value, path), putNode r p { rn with localKeys_ := m })
          | none => .ok ((NONE_VALUE, path), r)

/-- All finger entries 1..BITLENGTH of all nodes are set and point to nodes. -/
def FingersSet (r : Ring) : Prop :=
  ∀ p, p < r.length → ∀ i ∈ List.range' 1 BITLENGTH, ∃ q, q < r.length ∧ fingerOf r p i = some q

instance (r : Ring) : Decidable (FingersSet r) := by unfold FingersSet; infer_instance

/-- What routing reads of a node: identifier and finger table. -/
def Node.route (n : Node) : Nat × List (Option Nat) := (n.id_, n.fingerTable_)

/-- A detached node: none of its finger entries and no predecessor is set,
and no node of the arena points to it. -/
def Detached (r : Ring) (X : Nat) : Prop :=
  (∀ i ∈ List.range' 1 BITLENGTH, fingerOf r X i = none) ∧ predOf r X = none ∧
  ∀ q, q < r.length →
    (∀ i ∈ List.range' 1 BITLENGTH, fingerOf r q i ≠ some X) ∧ predOf r q ≠ some X

instance (r : Ring) (X : Nat) : Decidable (Detached r X) := by
  unfold Detached; infer_instance

/-- The ring of main() after the twelve inserts, with the freshly created node
100 (index 6) still detached. -/
def ring6_new100 : Ring :=
  [ mkNode 0 [1, 1, 1, 1, 1, 2, 2, 4] 5 [(240, 8), (250, 10)],
    mkNode 30 [2, 2, 2, 2, 2, 2, 3, 4] 0 [(3, 3)],
    mkNode 65 [3, 3, 3, 3, 3, 3, 4, 5] 1 [(45, 3), (50, 8), (60, 10)],
    mkNode 110 [4, 4, 4, 4, 4, 4, 5, 0] 2 [(99, 0), (100, 5), (101, 4), (102, 6)],
    mkNode 160 [5, 5, 5, 5, 5, 5, 5, 2] 3 [(123, 0)],
    mkNode 230 [0, 0, 0, 0, 0, 1, 2, 3] 4 [(200, 0)],
    Node.new 100 ]

/-- Nodes 2, 4, 5, 1 (indices 0..3) after node2.join(nullptr), node4.join(node2),
node5.join(node4), node2.leave() and the part of node1.join(node4) before
updateOthers: the stale finger entry 1 of node 4 made the departed node 2 the
successor of node 1, so node 1 is not on the predecessor cycle 4, 5. -/
def ring4_5_joining1 : Ring :=
  [ mkNode 2 [1, 2, 0, 0, 0, 0, 0, 0] 3 [],
    mkNode 4 [0, 0, 0, 0, 0, 0, 0, 0] 2 [],
    { mkNode 5 [1, 1, 1, 1, 1, 1, 1, 1] 1 [] with next_finger_ := 2 },
    mkNode 1 [0, 1, 0, 0, 0, 0, 0, 0] 2 [] ]

/-- The ring `ring4_5_joining1` once updateFingerTable has written node 1 into
finger entry 1 of nodes 5 and 4. -/
def ring4_5_joining1_updated : Ring :=
  [ mkNode 2 [1, 2, 0, 0, 0, 0, 0, 0] 3 [],
    mkNode 4 [3, 0, 0, 0, 0, 0, 0, 0] 2 [],
    { mkNode 5 [3, 1, 1, 1, 1, 1, 1, 1] 1 [] with next_finger_ := 2 },
    mkNode 1 [0, 1, 0, 0, 0, 0, 0, 0] 2 [] ]

/-- Every node's finger entry 1 is the nearest other node clockwise (the
node itself in a one-node ring). -/
def SuccNearest (r : Ring) : Prop :=
  ∀ p, p < r.length → ∃ q, q < r.length ∧ fingerOf r p 1 = some q ∧
    if r.length = 1 then q = p
    else q ≠ p ∧ ∀ t, t < r.length → t ≠ p →
      cwDist (idOf r p) (idOf r q) ≤ cwDist (idOf r p) (idOf r t)

instance (r : Ring) : Decidable (SuccNearest r) := by unfold SuccNearest; infer_instance

/-- The cursor update at the head of Node::fixFingers: advance by one, back to
1 past BITLENGTH. -/
def nextFinger (c : Nat) : Nat := if c + 1 > BITLENGTH then 1 else c + 1

/-- The first k of a series of consecutive fixFingers calls on node `this`,
with the cursor position each call leaves, which is the finger index it
refreshed. -/
def fixFingersCalls (fuel this : Nat) : Nat → Ring → Except Fault (List Nat × Ring)
  | 0, r => .ok ([], r)
  | k + 1, r => do
      let r1 ← fixFingers fuel r this
      let me ← getNode r1 this
      let (l, r2) ← fixFingersCalls fuel this k r1
      .ok (me.next_finger_ :: l, r2)

/-- Every node's finger entry 1 points at a node of the arena. -/
def SuccessorsSet (r : Ring) : Prop :=
  ∀ p, p < r.length → ∃ q, q < r.length ∧ fingerOf r p 1 = some q

instance (r : Ring) : Decidable (SuccessorsSet r) := by unfold SuccessorsSet; infer_instance

/-- Every key store is a std::map: no key occurs twice in it. -/
def KeysUnique (r : Ring) : Prop :=
  ∀ q, q < r.length → ((keysOf r q).map Prod.fst).Nodup

instance (r : Ring) : Decidable (KeysUnique r) := by unfold KeysUnique; infer_instance

/-- The key stores are pairwise disjoint in keys: a key held by one node is
held by no other node. -/
def StoresDisjoint (r : Ring) : Prop :=
  ∀ p, p < r.length → ∀ q, q < r.length → p ≠ q →
    ∀ kv ∈ keysOf r p, mapFind (keysOf r q) kv.1 = none

instance (r : Ring) : Decidable (StoresDisjoint r) := by unfold StoresDisjoint; infer_instance

/-- State `rc` is state `r` after the nodes listed in `vis`, other than `n`,
have handed to `n` the keys selected by `resp`: routing data is as in `r`, a
listed node has lost exactly the selected keys, an unlisted node is as in `r`,
and `n` holds a selected key with a value exactly when `n` or a listed node
held it with that value in `r`. -/
def Collected (r : Ring) (n : Nat) (resp : Nat → Bool) (rc : Ring)
    (vis : List (Option Nat)) : Prop :=
  rc.map Node.shell = r.map Node.shell ∧
  (∀ q, q ≠ n → some q ∈ vis → ∀ k,
    mapFind (keysOf rc q) k = if resp k = true then none else mapFind (keysOf r q) k) ∧
  (∀ q, q ≠ n → some q ∉ vis → rc[q]? = r[q]?) ∧
  (∀ k, resp k = false → mapFind (keysOf rc n) k = mapFind (keysOf r n) k) ∧
  (∀ k v, resp k = true → (mapFind (keysOf rc n) k = some v ↔
    (mapFind (keysOf r n) k = some v ∨
      ∃ q, q ≠ n ∧ some q ∈ vis ∧ mapFind (keysOf r q) k = some v)))

/-- The two-node ring 0, 30 in which both nodes hold key 200, with different values. -/
def ring0_30_dup : Ring :=
  [ mkNode 0 [1, 1, 1, 1, 1, 0, 0, 0] 1 [(200, 1)],
    mkNode 30 [0, 0, 0, 0, 0, 0, 0, 0] 0 [(200, 2)] ]

/-! ### Space shuffle -/

/-- Step 1 of Node::spaceShuffleOptimization, the do-while loop that collects
the nodes on the finger-1 chain from `this` until the chain is back at `this`. -/
def collectAllNodes (r : Ring) (this : Nat) : Nat → Option Nat → Except Fault (List Nat)
  | 0, _ => .error .outOfFuel
  | fuel + 1, current => do
      let c ← nonNull current
      let cn ← getNode r c
      if cn.getNodePtr 1 ≠ some this then do
        let rest ← collectAllNodes r this fuel (cn.getNodePtr 1)
        .ok (c :: rest)
      else .ok [c]

/-- The loop `keyDistribution[node] = node->localKeys_.size()`; the std::map from
nodes to counts is a function, 0 where the map has no entry. -/
def countKeys (r : Ring) : List Nat → (Nat → Int) → Except Fault (Nat → Int)
  | [], keyDistribution => .ok keyDistribution
  | node :: rest, keyDistribution => do
      let nn ← getNode r node
      countKeys r rest (Function.update keyDistribution node nn.localKeys_.length)

/-- The inner loop of step 4: the first pairs of the heavy node's store, in key
order, are written into the light node's store and erased from the heavy
node's, while the store is not exhausted and `budget`, which is keysToTransfer
minus transferred, is positive; returns the number transferred. -/
def shuffleMoveKeys (heavyNode lightNode : Nat) : Nat → Ring → Except Fault (Int × Ring)
  | 0, r => .ok (0, r)
  | budget + 1, r => do
      let hn ← getNode r heavyNode
      match hn.localKeys_ with
      | [] => .ok (0, r)
      | (key, value) :: _ => do
          let ln ← getNode r lightNode
          let r1 := putNode r lightNode { ln with localKeys_ := mapSet ln.localKeys_ key value }
          let hn1 ← getNode r1 heavyNode
          let r2 := putNode r1 heavyNode { hn1 with localKeys_ := mapErase hn1.localKeys_ key }
          let (transferred, r3) ← shuffleMoveKeys heavyNode lightNode budget r2
          .ok (transferred + 1, r3)

/-- The outer loop of step 4 over the index-aligned pairs of the shuffled
lists of heavy and light nodes. -/
def shufflePairs : List (Nat × Nat) → (Nat → Int) → Ring → Except Fault ((Nat → Int) × Ring)
  | [], keyDistribution, r => .ok (keyDistribution, r)
  | (heavyNode, lightNode) :: rest, keyDistribution, r =>
      if Int.tdiv (keyDistribution heavyNode - keyDistribution lightNode) 2 > 0 then do
        let (transferred, r1) ← shuffleMoveKeys heavyNode lightNode
          (Int.tdiv (keyDistribution heavyNode - keyDistribution lightNode) 2).toNat r
        let kd1 := Function.update keyDistribution heavyNode
          (keyDistribution heavyNode - transferred)
        let kd2 := Function.update kd1 lightNode (kd1 lightNode + transferred)
        shufflePairs rest kd2 r1
      else shufflePairs rest keyDistribution r

/-- Node::spaceShuffleOptimization, steps 1 and 4. The classification into heavy
and light nodes (step 3, comparisons of the counts with 1.2 and 0.8 times the
mean in double arithmetic, in the address order of a std::map keyed by
pointers) and the two std::shuffle calls are not computed here: their outcome,
the shuffled lists, is the pair of arguments `heavyNodes` and `lightNodes`.
Steps 2 and 5 only print variances. -/
def spaceShuffleOptimization (fuel : Nat) (r : Ring) (this : Nat)
    (heavyNodes lightNodes : List Nat) : Except Fault Ring := do
  let allNodes ← collectAllNodes r this fuel (some this)
  let keyDistribution ← countKeys r allNodes (fun _ => 0)
  if heavyNodes ≠ [] ∧ lightNodes ≠ [] then do
    let (_, r1) ← shufflePairs (heavyNodes.zip lightNodes) keyDistribution r
    .ok r1
  else .ok r

/-! ## Properties -/

theorem inRange_true_iff (x a b : Nat) :
    inRange x a b = true ↔ a = b ∨ (a < b ∧ a < x ∧ x ≤ b) ∨ (b < a ∧ (a < x ∨ x ≤ b)) := by
  unfold inRange
  split_ifs with h1 h2
  · simp [h1]
  · simp only [decide_eq_true_eq]; omega
  · simp only [decide_eq_true_eq]; omega

/-- C1: for 8-bit identifiers with a ≠ b, inRange(x, a, b) holds exactly when
0 < (x - a) mod 2^8 ≤ (b - a) mod 2^8; for a = b it holds for every x. -/
theorem inRange_iff_arc (x a b : Nat) (hx : x < 2 ^ 8) (ha : a < 2 ^ 8) (hb : b < 2 ^ 8) :
    (a ≠ b → (inRange x a b = true ↔
        0 < ((x : Int) - a) % 2 ^ 8 ∧ ((x : Int) - a) % 2 ^ 8 ≤ ((b : Int) - a) % 2 ^ 8)) ∧
    (a = b → inRange x a b = true) := by
  norm_num at hx ha hb ⊢
  refine ⟨fun hab => ?_, fun hab => ?_⟩
  · rw [inRange_true_iff]; omega
  · rw [inRange_true_iff]; omega

theorem inRange_iff_arc_witness :
    (250 ≠ 10 → (inRange 3 250 10 = true ↔
        0 < (((3 : Nat) : Int) - (250 : Nat)) % 2 ^ 8 ∧
          (((3 : Nat) : Int) - (250 : Nat)) % 2 ^ 8 ≤ (((10 : Nat) : Int) - (250 : Nat)) % 2 ^ 8)) ∧
    (250 = 10 → inRange 3 250 10 = true) :=
  inRange_iff_arc 3 250 10 (by decide) (by decide) (by decide)

theorem getNode_of_lt {r : Ring} {p : Nat} (h : p < r.length) : getNode r p = .ok r[p] := by
  simp [getNode, List.getElem?_eq_getElem h]

theorem cwDist_eq (a b : Nat) : cwDist a b = (b + 256 - a) % 256 := by
  unfold cwDist BITLENGTH; norm_num

theorem inRange_iff_cwDist_lt (x a b : Nat) (hx : x < 256) (ha : a < 256) (hb : b < 256)
    (hab : a ≠ b) : inRange x a b = true ↔ cwDist x b < cwDist a b := by
  rw [inRange_true_iff]; simp only [cwDist_eq]; omega

theorem arcs_disjoint (x a c : Nat) (hx : x < 256) (ha : a < 256) (hc : c < 256)
    (h1 : cwDist x a < cwDist c a) (h2 : cwDist x c < cwDist a c) : False := by
  simp only [cwDist_eq] at h1 h2; omega

theorem nearest_in_arc (x a b : Nat) (hx : x < 256) (ha : a < 256) (hb : b < 256)
    (hab : a ≠ b) (h : cwDist x a ≤ cwDist x b) : cwDist x a < cwDist b a := by
  simp only [cwDist_eq] at h ⊢; omega

/-- What Node::isResponsibleForKey computes on a node whose predecessor is set
and points into the arena. -/
theorem isResponsibleForKey_eq (r : Ring) (p q k : Nat) (hp : p < r.length)
    (hq : q < r.length) (hpred : predOf r p = some q) :
    isResponsibleForKey r p k =
      .ok (if q = p then true else inRange k (idOf r q) (idOf r p)) := by
  have e1 : r[p]? = some r[p] := List.getElem?_eq_getElem hp
  have e2 : r[q]? = some r[q] := List.getElem?_eq_getElem hq
  have hpr : r[p].predecessor_ = some q := by simpa [predOf, e1] using hpred
  unfold isResponsibleForKey
  by_cases hqp : q = p
  · subst hqp
    simp [getNode, e1, hpr, bind, Except.bind]
  · have hne : ¬ (some q = some p) := by simpa using hqp
    simp [getNode, deref, e1, e2, hpr, hqp, bind, Except.bind, idOf]

/-- C4: in a ring of at least one node with pairwise distinct identifiers whose
predecessors are the nearest nodes counter-clockwise, every key has exactly one
node with isResponsibleForKey(key), and that test is inRange(key,
predecessor.id, id): the arcs (predecessor.id, id] partition the identifiers. -/
theorem responsible_node_unique (r : Ring) (k : Nat) (hN : 1 ≤ r.length)
    (hb : IdsBounded r) (hd : DistinctIds r) (hn : PredNearest r) (hk : k < 2 ^ BITLENGTH) :
    (∃! p, p < r.length ∧ isResponsibleForKey r p k = .ok true) ∧
    (∀ p, p < r.length → ∃ q, predOf r p = some q ∧
      isResponsibleForKey r p k = .ok (inRange k (idOf r q) (idOf r p))) := by
  have hk' : k < 256 := by simpa using hk
  have hb' : ∀ p, p < r.length → idOf r p < 256 := fun p hp => by simpa using hb p hp
  by_cases h1 : r.length = 1
  · -- a single node, its own predecessor
    have h0 : ∀ p, p < r.length → p = 0 := fun p hp => by omega
    have key : ∀ p, p < r.length → predOf r p = some p ∧
        isResponsibleForKey r p k = .ok true := by
      intro p hp
      obtain ⟨q, hq, hpq, hif⟩ := hn p hp
      rw [if_pos h1] at hif
      subst hif
      refine ⟨hpq, ?_⟩
      rw [isResponsibleForKey_eq r q q k hp hp hpq]; simp
    refine ⟨⟨0, ⟨by omega, (key 0 (by omega)).2⟩, fun y hy => h0 y hy.1⟩, ?_⟩
    intro p hp
    refine ⟨p, (key p hp).1, ?_⟩
    rw [(key p hp).2]; simp [inRange]
  · have key : ∀ p, p < r.length → ∃ q, q < r.length ∧ predOf r p = some q ∧ q ≠ p ∧
        idOf r q ≠ idOf r p ∧
        (∀ t, t < r.length → t ≠ p →
          cwDist (idOf r q) (idOf r p) ≤ cwDist (idOf r t) (idOf r p)) ∧
        isResponsibleForKey r p k = .ok (inRange k (idOf r q) (idOf r p)) := by
      intro p hp
      obtain ⟨q, hq, hpq, hif⟩ := hn p hp
      rw [if_neg h1] at hif
      refine ⟨q, hq, hpq, hif.1, fun h => hif.1 (hd q hq p hp h), hif.2, ?_⟩
      rw [isResponsibleForKey_eq r p q k hp hq hpq, if_neg hif.1]
    refine ⟨?_, fun p hp => ?_⟩
    · -- existence: the node nearest clockwise from the key
      obtain ⟨p, hp, hmin⟩ := Finset.exists_min_image (Finset.range r.length)
        (fun t => cwDist k (idOf r t)) ⟨0, by simp; omega⟩
      simp only [Finset.mem_range] at hp hmin
      obtain ⟨q, hq, hpq, hqp, hid, hnear, hresp⟩ := key p hp
      have hin : inRange k (idOf r q) (idOf r p) = true :=
        (inRange_iff_cwDist_lt k _ _ hk' (hb' q hq) (hb' p hp) hid).2
          (nearest_in_arc k _ _ hk' (hb' p hp) (hb' q hq) (Ne.symm hid) (hmin q hq))
      refine ⟨p, ⟨hp, by rw [hresp, hin]⟩, ?_⟩
      rintro p2 ⟨hp2, hr2⟩
      by_contra hne
      obtain ⟨q2, hq2, hpq2, hqp2, hid2, hnear2, hresp2⟩ := key p2 hp2
      rw [hresp2] at hr2
      have hin2 : inRange k (idOf r q2) (idOf r p2) = true := by
        simpa using hr2
      have n1 := hnear p2 hp2 hne
      have n2 := hnear2 p hp (fun h => hne h.symm)
      have l1 := (inRange_iff_cwDist_lt k _ _ hk' (hb' q hq) (hb' p hp) hid).1 hin
      have l2 := (inRange_iff_cwDist_lt k _ _ hk' (hb' q2 hq2) (hb' p2 hp2) hid2).1 hin2
      exact arcs_disjoint k (idOf r p) (idOf r p2) hk' (hb' p hp) (hb' p2 hp2)
        (lt_of_lt_of_le l1 n1) (lt_of_lt_of_le l2 n2)
    · obtain ⟨q, hq, hpq, hqp, hid, hnear, hresp⟩ := key p hp
      exact ⟨q, hpq, hresp⟩

/-- The stabilized ring of identifiers 0 and 30 is an instance of C4 for key 200. -/
theorem responsible_node_unique_witness :
    (1 ≤ ring0_30.length ∧ IdsBounded ring0_30 ∧ DistinctIds ring0_30 ∧
      PredNearest ring0_30 ∧ 200 < 2 ^ BITLENGTH) ∧
    ((∃! p, p < ring0_30.length ∧ isResponsibleForKey ring0_30 p 200 = .ok true) ∧
    (∀ p, p < ring0_30.length → ∃ q, predOf ring0_30 p = some q ∧
      isResponsibleForKey ring0_30 p 200 =
        .ok (inRange 200 (idOf ring0_30 q) (idOf ring0_30 p)))) :=
  ⟨by decide, responsible_node_unique ring0_30 200 (by decide) (by decide) (by decide)
    (by decide) (by decide)⟩

theorem except_bind_error {α β : Type} (x : Except Fault α) (f : α → Except Fault β)
    (e : Fault) (h : x = .error e) : (x >>= f) = .error e := by
  subst h; rfl

/-- In `ring_0_2_1_linked` the loop of findPredecessor(0) run for node 1, once
it stands at node 0, stays at node 0 in every further round. -/
theorem findPredecessorLoop_stuck (fuel : Nat) :
    findPredecessorLoop ring_0_2_1_linked 2 0 fuel 0 = .error .outOfFuel := by
  induction fuel with
  | zero => rfl
  | succ f ih =>
      have step : findPredecessorLoop ring_0_2_1_linked 2 0 (f + 1) 0 =
          findPredecessorLoop ring_0_2_1_linked 2 0 f 0 := rfl
      rw [step, ih]

theorem findPredecessor_stuck (fuel : Nat) :
    findPredecessor fuel ring_0_2_1_linked 2 0 = .error .outOfFuel := by
  cases fuel with
  | zero => rfl
  | succ f =>
      have step : findPredecessor (f + 1) ring_0_2_1_linked 2 0 =
          findPredecessorLoop ring_0_2_1_linked 2 0 f 0 := rfl
      rw [step, findPredecessorLoop_stuck]

theorem updateOthers_stuck (fuel : Nat) :
    updateOthers fuel ring_0_2_1_linked 2 = .error .outOfFuel := by
  have h1 : updateOthers fuel ring_0_2_1_linked 2 =
      (updateOthersStep fuel 2 ring_0_2_1_linked 1 >>= fun r1 =>
        (List.range' 2 7).foldlM (updateOthersStep fuel 2) r1) := rfl
  have h2 : updateOthersStep fuel 2 ring_0_2_1_linked 1 =
      (findPredecessor fuel ring_0_2_1_linked 2 0 >>= fun p =>
        if p ≠ 2 then updateFingerTable 2 1 fuel ring_0_2_1_linked p
        else .ok ring_0_2_1_linked) := rfl
  rw [h1]
  apply except_bind_error
  rw [h2]
  exact except_bind_error _ _ _ (findPredecessor_stuck fuel)

theorem join_error_of_updateOthers (fuel : Nat) (r r1 : Ring) (this node : Nat) (me : Node)
    (e : Fault) (h0 : getNode r this = .ok me) (h1 : joinInit fuel r this node = .ok r1)
    (h2 : updateOthers fuel r1 this = .error e) :
    join fuel r this (some node) = .error e := by
  unfold join
  simp [h0, h1, h2, bind, Except.bind]

/-- C5 (code defect): joining the identifiers 0, 2, 1 in this order as main()
does never completes: the third join runs findPredecessor(0) from the new node,
which reaches node 0 and stays there, whatever the number of loop rounds allowed. -/
theorem join_0_2_1_never_returns (fuel : Nat) :
    joinAll fuel nodes_0_2_1 2 = .error .outOfFuel := by
  rcases Nat.lt_or_ge fuel 2 with h | h
  · interval_cases fuel <;> rfl
  · obtain ⟨m, rfl⟩ : ∃ m, fuel = m + 2 := ⟨fuel - 2, by omega⟩
    have e0 : joinAll (m + 2) nodes_0_2_1 1 = .ok ring_0_2_joined := rfl
    have e2 : joinInit (m + 2) ring_0_2_joined 2 1 = .ok ring_0_2_1_linked := rfl
    rw [joinAll, e0]
    exact join_error_of_updateOthers (m + 2) ring_0_2_joined ring_0_2_1_linked 2 1
      (Node.new 1) _ rfl e2 (updateOthers_stuck _)

/-- The scenario of main(): identifiers 0, 30, 65, 110, 160, 230 joined in this
order and stabilized for 10 rounds form a closed ring, and the predecessor of
node 110 is node 65. -/
theorem main_ring_closed :
    (do let r ← joinAll 300 mainNodes 5
        let r ← stabilizeRounds 10 r
        pure (decide (ClosedRing r), predOf r 3, idOf r 2) : Except Fault _) =
      .ok (true, some 2, 65) := by
  decide

/-- C3 (code defect): in the stabilized ring of identifiers 0 and 30, node 0 is
the one node responsible for identifier 0, yet findSuccessor(0) run at node 0
returns node 30, and insert(0, 5) at node 0 writes the pair into the store of
node 30. -/
theorem findSuccessor_own_id_misroutes :
    Stabilized ring0_30 ∧
    isResponsibleForKey ring0_30 0 0 = .ok true ∧
    isResponsibleForKey ring0_30 1 0 = .ok false ∧
    (∀ fuel, findSuccessor (fuel + 1) ring0_30 0 0 = .ok 1) ∧
    (∀ fuel, (insert (fuel + 1) ring0_30 0 0 5).map (fun r => (keysOf r 0, keysOf r 1)) =
      .ok ([], [(0, 5)])) :=
  ⟨by decide, by decide, by decide, fun _ => rfl, fun _ => rfl⟩

/-- C2 (code defect): in the stabilized ring of identifiers 0 and 30,
insert(0, 5) at node 30 stores the pair at node 0, and find(0) from node 30
then visits 30, 0, 30, looks into the store of node 30 and returns 0. -/
theorem find_after_insert_misses :
    Stabilized ring0_30 ∧
    (∀ fuel, (insert (fuel + 1) ring0_30 1 0 5).map (fun r => (keysOf r 0, keysOf r 1)) =
      .ok ([(0, 5)], [])) ∧
    (∀ fuel, (insert (fuel + 1) ring0_30 1 0 5 >>= fun r => find r 1 0) =
      .ok (0, [30, 0, 30])) :=
  ⟨by decide, fun _ => rfl, fun _ => rfl⟩

/-- C7 (code defect): in the stabilized ring 0, 30, 65, 100, 110, 160, 230 the
leave of node 65 (index 2) returns, and afterwards finger entry 6 of node 0 and
finger entry 7 of node 230 still point to node 65. -/
theorem leave_keeps_stale_fingers :
    Stabilized ring7 ∧
    ∀ fuel, (leave (fuel + 3) ring7 2).map
        (fun r => (fingerOf r 0 6, fingerOf r 5 7, fingerOf r 1 6, idOf r 2)) =
      .ok (some 2, some 2, some 6, 65) :=
  ⟨by decide, fun _ => rfl⟩

theorem findPredecessorLoop_stuck_0_30 (fuel : Nat) :
    findPredecessorLoop ring0_30_1_linked 2 0 fuel 0 = .error .outOfFuel := by
  induction fuel with
  | zero => rfl
  | succ f ih =>
      have step : findPredecessorLoop ring0_30_1_linked 2 0 (f + 1) 0 =
          findPredecessorLoop ring0_30_1_linked 2 0 f 0 := rfl
      rw [step, ih]

theorem updateOthers_stuck_0_30 (fuel : Nat) :
    updateOthers fuel ring0_30_1_linked 2 = .error .outOfFuel := by
  have h1 : updateOthers fuel ring0_30_1_linked 2 =
      (updateOthersStep fuel 2 ring0_30_1_linked 1 >>= fun r1 =>
        (List.range' 2 7).foldlM (updateOthersStep fuel 2) r1) := rfl
  have h2 : updateOthersStep fuel 2 ring0_30_1_linked 1 =
      (findPredecessor fuel ring0_30_1_linked 2 0 >>= fun p =>
        if p ≠ 2 then updateFingerTable 2 1 fuel ring0_30_1_linked p
        else .ok ring0_30_1_linked) := rfl
  have h3 : findPredecessor fuel ring0_30_1_linked 2 0 = .error .outOfFuel := by
    cases fuel with
    | zero => rfl
    | succ f =>
        have step : findPredecessor (f + 1) ring0_30_1_linked 2 0 =
            findPredecessorLoop ring0_30_1_linked 2 0 f 0 := rfl
        rw [step, findPredecessorLoop_stuck_0_30]
  rw [h1]
  apply except_bind_error
  rw [h2]
  exact except_bind_error _ _ _ h3

/-- C9 (code defect): a new node with the unused identifier 1 joining the
stabilized ring of identifiers 0 and 30 through node 0 never returns from
join: updateOthers runs findPredecessor(0), which reaches node 0 and stays
there, so the join is never followed by the leave. -/
theorem join_into_stabilized_never_returns :
    Stabilized ring0_30 ∧
    ∀ fuel, join fuel ring0_30_new1 2 (some 0) = .error .outOfFuel := by
  refine ⟨by decide, fun fuel => ?_⟩
  rcases Nat.lt_or_ge fuel 2 with h | h
  · interval_cases fuel <;> rfl
  · obtain ⟨m, rfl⟩ : ∃ m, fuel = m + 2 := ⟨fuel - 2, by omega⟩
    have e2 : joinInit (m + 2) ring0_30_new1 2 0 = .ok ring0_30_1_linked := rfl
    exact join_error_of_updateOthers (m + 2) ring0_30_new1 ring0_30_1_linked 2 0
      (Node.new 1) _ rfl e2 (updateOthers_stuck_0_30 _)

/-! ### Basic facts about the arena and the key stores -/

theorem getNode_eq_ok {r : Ring} {p : Nat} {n : Node} :
    getNode r p = .ok n ↔ r[p]? = some n := by
  unfold getNode
  cases h : r[p]? <;> simp

theorem nonNull_eq_ok {p : Option Nat} {q : Nat} : nonNull p = .ok q ↔ p = some q := by
  cases p <;> simp [nonNull]

theorem deref_eq_ok {r : Ring} {p : Option Nat} {n : Node} :
    deref r p = .ok n ↔ ∃ q, p = some q ∧ r[q]? = some n := by
  cases p <;> simp [deref, getNode_eq_ok]

theorem bind_eq_ok {α β : Type} {x : Except Fault α} {f : α → Except Fault β} {b : β} :
    (x >>= f) = .ok b ↔ ∃ a, x = .ok a ∧ f a = .ok b := by
  cases x with
  | error e => simp [bind, Except.bind]
  | ok a => simp [bind, Except.bind]

theorem getElem?_putNode (r : Ring) (p q : Nat) (n : Node) :
    (putNode r p n)[q]? = if p = q then (r[q]?).map (fun _ => n) else r[q]? := by
  unfold putNode
  rw [List.getElem?_set]
  split_ifs with h1 h2
  · rw [List.getElem?_eq_getElem (h1 ▸ h2)]; rfl
  · rw [List.getElem?_eq_none (by omega)]; rfl
  · rfl

theorem getElem?_putNode_self {r : Ring} {p : Nat} {n m : Node} (h : r[p]? = some m) :
    (putNode r p n)[p]? = some n := by
  rw [getElem?_putNode, if_pos rfl, h]; rfl

theorem getElem?_putNode_ne {r : Ring} {p q : Nat} {n : Node} (h : p ≠ q) :
    (putNode r p n)[q]? = r[q]? := by
  rw [getElem?_putNode, if_neg h]

theorem length_putNode (r : Ring) (p : Nat) (n : Node) : (putNode r p n).length = r.length := by
  simp [putNode]

/-- Writing back a record that agrees with the old one on a field leaves that
field of every node as it was. -/
theorem map_putNode_same {β : Type} (f : Node → β) {r : Ring} {p : Nat} {n m : Node}
    (h : r[p]? = some m) (hf : f n = f m) : (putNode r p n).map f = r.map f := by
  apply List.ext_getElem?
  intro q
  rw [List.getElem?_map, List.getElem?_map, getElem?_putNode]
  split_ifs with hpq
  · subst hpq; rw [h]; simp [hf]
  · rfl

theorem mapFind_mapSet (m : List (Nat × Nat)) (k v k' : Nat) :
    mapFind (mapSet m k v) k' = if k = k' then some v else mapFind m k' := by
  induction m with
  | nil => simp [mapSet, mapFind]
  | cons kv m ih =>
      obtain ⟨k1, v1⟩ := kv
      unfold mapSet
      split_ifs with h1 h2 h3
      all_goals simp_all [mapFind]

theorem getNodePtr_setFinger_ne (n : Node) (i j : Nat) (v : Option Nat) (h : i ≠ j) :
    (n.setFinger i v).getNodePtr j = n.getNodePtr j := by
  simp [Node.setFinger, Node.getNodePtr, List.getElem?_set, h]

theorem getNodePtr_setFinger_self (n : Node) (i : Nat) (v : Option Nat) :
    (n.setFinger i v).getNodePtr i = if i < n.fingerTable_.length then v else none := by
  simp only [Node.setFinger, Node.getNodePtr, List.getElem?_set]
  split_ifs <;> simp

theorem putNode_self {r : Ring} {p : Nat} {n : Node} (h : r[p]? = some n) :
    putNode r p n = r := by
  apply List.ext_getElem?
  intro q
  rw [getElem?_putNode]
  split_ifs with hpq
  · subst hpq; rw [h]; rfl
  · rfl

theorem putNode_putNode (r : Ring) (p : Nat) (a b : Node) :
    putNode (putNode r p a) p b = putNode r p b := by
  simp [putNode]

theorem leaveMoveKeys_eq (S : Nat) (m : List (Nat × Nat)) :
    ∀ (r : Ring) (sn : Node), r[S]? = some sn →
      leaveMoveKeys S r m =
        .ok (putNode r S { sn with localKeys_ := mapSetAll sn.localKeys_ m }) := by
  induction m with
  | nil =>
      intro r sn h
      simp only [leaveMoveKeys, mapSetAll, List.foldl_nil]
      rw [putNode_self h]
  | cons kv m ih =>
      intro r sn h
      obtain ⟨k, v⟩ := kv
      simp only [leaveMoveKeys, getNode_eq_ok.2 h, bind, Except.bind]
      rw [ih _ _ (getElem?_putNode_self h), putNode_putNode]
      simp [mapSetAll]

theorem mapFind_mapSetAll (m : List (Nat × Nat)) :
    ∀ (acc : List (Nat × Nat)) (k : Nat), (m.map Prod.fst).Nodup →
      mapFind (mapSetAll acc m) k =
        match mapFind m k with
        | some v => some v
        | none => mapFind acc k := by
  induction m with
  | nil => intro acc k _; simp [mapSetAll, mapFind]
  | cons kv m ih =>
      intro acc k hnd
      obtain ⟨k1, v1⟩ := kv
      simp only [List.map_cons, List.nodup_cons] at hnd
      have hstep : mapSetAll acc ((k1, v1) :: m) = mapSetAll (mapSet acc k1 v1) m := by
        simp [mapSetAll]
      rw [hstep, ih _ _ hnd.2]
      have hnot : mapFind m k1 = none := by
        have : ∀ (l : List (Nat × Nat)), k1 ∉ l.map Prod.fst → mapFind l k1 = none := by
          intro l
          induction l with
          | nil => intro _; rfl
          | cons a l ihl =>
              intro hl
              obtain ⟨a1, a2⟩ := a
              simp only [List.map_cons, List.mem_cons, not_or] at hl
              simp [mapFind, Ne.symm hl.1, ihl hl.2]
        exact this m hnd.1
      by_cases hk : k1 = k
      · subst hk
        simp [mapFind, hnot, mapFind_mapSet]
      · simp [mapFind, hk, mapFind_mapSet]

theorem core_eq_of_map {r r' : Ring} (h : r'.map Node.core = r.map Node.core) (q : Nat) :
    idOf r' q = idOf r q ∧ keysOf r' q = keysOf r q ∧ predOf r' q = predOf r q := by
  have hq := congrArg (fun l => l[q]?) h
  simp only [List.getElem?_map] at hq
  unfold idOf keysOf predOf
  cases h1 : r'[q]? <;> cases h2 : r[q]? <;> simp [h1, h2, Node.core] at hq ⊢
  exact ⟨hq.1, hq.2.1, hq.2.2⟩

theorem foldlM_preserves {α β : Type} (step : β → α → Except Fault β) (P : β → Prop)
    (hstep : ∀ b a b', P b → step b a = .ok b' → P b') :
    ∀ (l : List α) (b b' : β), P b → l.foldlM step b = .ok b' → P b' := by
  intro l
  induction l with
  | nil =>
      intro b b' hb h
      simp only [List.foldlM, pure, Except.pure, Except.ok.injEq] at h
      exact h ▸ hb
  | cons a l ih =>
      intro b b' hb h
      rw [List.foldlM_cons, bind_eq_ok] at h
      obtain ⟨b1, h1, h2⟩ := h
      exact ih b1 b' (hstep b a b1 hb h1) h2

theorem leaveFixStep_core {fuel this S i : Nat} {r r' : Ring}
    (h : leaveFixStep fuel this S r i = .ok r') : r'.map Node.core = r.map Node.core := by
  unfold leaveFixStep at h
  simp only [bind_eq_ok, getNode_eq_ok] at h
  obtain ⟨me, _, p, _, pn, hpn, h⟩ := h
  split_ifs at h
  · simp only [Except.ok.injEq] at h
    subst h
    exact map_putNode_same Node.core hpn rfl
  · simp only [Except.ok.injEq] at h
    subst h; rfl

theorem fixFingers_core {fuel p : Nat} {r r' : Ring}
    (h : fixFingers fuel r p = .ok r') : r'.map Node.core = r.map Node.core := by
  unfold fixFingers at h
  simp only [bind_eq_ok, getNode_eq_ok] at h
  obtain ⟨me, hme, h⟩ := h
  generalize (if me.next_finger_ + 1 > BITLENGTH then 1 else me.next_finger_ + 1) = next at h
  obtain ⟨ns, _, me1, hme1, h⟩ := h
  have e1 : (putNode r p { me with next_finger_ := next }).map Node.core =
      r.map Node.core := map_putNode_same Node.core hme rfl
  split_ifs at h
  · simp only [Except.ok.injEq] at h
    subst h
    exact (map_putNode_same Node.core (n := me1.setFinger next (some ns)) hme1 rfl).trans e1
  · simp only [Except.ok.injEq] at h
    subst h; exact e1

theorem leave_unfold {fuel X : Nat} {r r' : Ring} {me : Node} (hme : r[X]? = some me)
    (hns : ¬ (me.predecessor_ = some X ∧ me.getNodePtr 1 = some X))
    (h : leave fuel r X = .ok r') :
    ∃ S sn me1 sn2 r4,
      me.getNodePtr 1 = some S ∧ r[S]? = some sn ∧
      (putNode r S { sn with localKeys_ := mapSetAll sn.localKeys_ me.localKeys_ })[X]? =
        some me1 ∧
      (putNode (putNode r S { sn with localKeys_ := mapSetAll sn.localKeys_ me.localKeys_ })
        X { me1 with localKeys_ := [] })[S]? = some sn2 ∧
      (List.range' 1 BITLENGTH).foldlM (leaveFixStep fuel X S)
        (putNode (putNode (putNode r S
            { sn with localKeys_ := mapSetAll sn.localKeys_ me.localKeys_ })
          X { me1 with localKeys_ := [] })
          S { sn2 with predecessor_ := me.predecessor_ }) = .ok r4 ∧
      ((me.predecessor_ = some X ∧ r' = r4) ∨
        (me.predecessor_ ≠ some X ∧ ∃ P pn, me.predecessor_ = some P ∧ r4[P]? = some pn ∧
          fixFingers fuel (putNode r4 P (pn.setFinger 1 (some S))) P = .ok r')) := by
  unfold leave at h
  simp only [bind_eq_ok, getNode_eq_ok] at h
  obtain ⟨me', hme', h⟩ := h
  rw [hme] at hme'
  cases hme'
  rw [if_neg hns] at h
  simp only [bind_eq_ok, getNode_eq_ok, nonNull_eq_ok] at h
  obtain ⟨S, hS, r1, hr1, me1, hme1, sn2, hsn2, r4, hr4, r6, hr6, h⟩ := h
  have hSv : ∃ sn, r[S]? = some sn := by
    cases hs : r[S]? with
    | some sn => exact ⟨sn, rfl⟩
    | none =>
        exfalso
        have hm : r1 = r := by
          cases hk : me.localKeys_ with
          | nil => rw [hk] at hr1; simpa [leaveMoveKeys] using hr1.symm
          | cons kv m =>
              rw [hk] at hr1
              obtain ⟨k, v⟩ := kv
              simp [leaveMoveKeys, getNode, hs, bind, Except.bind] at hr1
        subst hm
        rw [getElem?_putNode] at hsn2
        split_ifs at hsn2 <;> simp [hs] at hsn2
  obtain ⟨sn, hsn⟩ := hSv
  rw [leaveMoveKeys_eq S _ r sn hsn] at hr1
  cases hr1
  refine ⟨S, sn, me1, sn2, r4, hS, hsn, hme1, hsn2, hr4, ?_⟩
  have hr' : r' = r6 := by
    split_ifs at h
    · simp only [bind_eq_ok] at h
      obtain ⟨_, _, _, _, _, _, _, _, _, _, _, _, h⟩ := h
      exact (Except.ok.inj h).symm
    · simp only [bind_eq_ok] at h
      obtain ⟨_, _, _, _, _, _, _, _, h⟩ := h
      exact (Except.ok.inj h).symm
  subst hr'
  by_cases hp : me.predecessor_ = some X
  · left
    refine ⟨hp, ?_⟩
    simpa [hp] using hr6.symm
  · right
    refine ⟨hp, ?_⟩
    rw [if_pos hp] at hr6
    simp only [bind_eq_ok, getNode_eq_ok, nonNull_eq_ok] at hr6
    obtain ⟨P, hP, pn, hpn, hfix⟩ := hr6
    exact ⟨P, pn, hP, hpn, hfix⟩

theorem idOf_eq_of_map {r r' : Ring} (h : r'.map (·.id_) = r.map (·.id_)) (q : Nat) :
    idOf r' q = idOf r q := by
  have hq := congrArg (fun l => l[q]?) h
  simp only [List.getElem?_map] at hq
  unfold idOf
  rw [hq]

theorem inRange_next (p s : Nat) (hp : p < 2 ^ BITLENGTH) (hs : s < 2 ^ BITLENGTH) :
    inRange ((p + 2 ^ (1 - 1)) % 2 ^ BITLENGTH) p s = true := by
  rw [inRange_true_iff]
  norm_num at hp hs ⊢
  omega

theorem id_lt_of_bounded {r : Ring} (hb : IdsBounded r) {q : Nat} {n : Node}
    (h : r[q]? = some n) : n.id_ < 2 ^ BITLENGTH := by
  have hq : q < r.length := by
    by_contra hc
    rw [List.getElem?_eq_none (by omega)] at h
    cases h
  have := hb q hq
  simpa [idOf, h] using this

theorem idsBounded_of_map {r r' : Ring} (h : r'.map (·.id_) = r.map (·.id_))
    (hb : IdsBounded r) : IdsBounded r' := by
  intro p hp
  have hl : r'.length = r.length := by simpa using congrArg List.length h
  rw [idOf_eq_of_map h p]
  exact hb p (hl ▸ hp)

/-- Node::fixFingers leaves finger entry 1 pointing at the node it pointed to. -/
theorem fixFingers_keeps_successor {fuel P S : Nat} {r r' : Ring} {me : Node}
    (hme : r[P]? = some me) (hb : IdsBounded r)
    (hS : ∀ s, me.getNodePtr 1 = some s → s = S)
    (h : fixFingers fuel r P = .ok r') : fingerOf r' P 1 = some S := by
  unfold fixFingers at h
  simp only [bind_eq_ok, getNode_eq_ok] at h
  obtain ⟨me', hme', h⟩ := h
  rw [hme] at hme'
  cases hme'
  generalize hnext : (if me.next_finger_ + 1 > BITLENGTH then 1 else me.next_finger_ + 1) = next
    at h
  obtain ⟨ns, hns, me1, hme1, h⟩ := h
  rw [getElem?_putNode_self hme] at hme1
  cases hme1
  have hp1 : ({ me with next_finger_ := next } : Node).getNodePtr 1 = me.getNodePtr 1 := rfl
  have hid : me.id_ < 2 ^ BITLENGTH := id_lt_of_bounded hb hme
  have hb1 : IdsBounded (putNode r P { me with next_finger_ := next }) :=
    idsBounded_of_map (map_putNode_same (·.id_) hme rfl) hb
  -- findSuccessor read a non-null finger entry 1
  have hsucc : me.getNodePtr 1 = some S ∧ (next = 1 → ns = S) := by
    unfold findSuccessor at hns
    simp only [bind_eq_ok, getNode_eq_ok] at hns
    obtain ⟨me2, hme2, hns⟩ := hns
    rw [getElem?_putNode_self hme] at hme2
    cases hme2
    rw [hp1] at hns
    split_ifs at hns with hself
    · have := hS P hself
      subst this
      exact ⟨hself, fun _ => (Except.ok.inj hns).symm⟩
    · simp only [bind_eq_ok, getNode_eq_ok, nonNull_eq_ok] at hns
      obtain ⟨s, hs, sn, hsn, hns⟩ := hns
      have := hS s hs
      subst this
      refine ⟨hs, fun h1 => ?_⟩
      subst h1
      have hin : inRange ((me.id_ + 2 ^ (1 - 1)) % 2 ^ BITLENGTH) me.id_ sn.id_ = true :=
        inRange_next _ _ hid (id_lt_of_bounded hb1 hsn)
      simp only [hin, if_true] at hns
      exact (Except.ok.inj hns).symm
  obtain ⟨hf1, hns1⟩ := hsucc
  by_cases hn1 : next = 1
  · have := hns1 hn1
    subst this
    subst hn1
    rw [hp1, hf1] at h
    simp only [ne_eq, not_true_eq_false, if_false, Except.ok.injEq] at h
    subst h
    simp [fingerOf, getElem?_putNode_self hme, hp1, hf1]
  · split_ifs at h
    · simp only [Except.ok.injEq] at h
      subst h
      have e := getElem?_putNode_self (n := ({ me with next_finger_ := next } : Node).setFinger
        next (some ns)) (getElem?_putNode_self (n := { me with next_finger_ := next }) hme)
      simp only [fingerOf, e, Option.some_bind]
      rw [getNodePtr_setFinger_ne _ _ _ _ hn1, hp1, hf1]
    · simp only [Except.ok.injEq] at h
      subst h
      simp [fingerOf, getElem?_putNode_self hme, hp1, hf1]

theorem map_id_of_core {r r' : Ring} (h : r'.map Node.core = r.map Node.core) :
    r'.map (·.id_) = r.map (·.id_) := by
  have := congrArg (List.map Prod.fst) h
  simpa [List.map_map, Function.comp_def, Node.core] using this

/-- The state in which a returning leave ends agrees, on identifiers, key
stores and predecessors, with the state reached after the key migration and
the update of the successor's predecessor. -/
theorem leave_core {fuel X : Nat} {r r' : Ring} {me : Node} (hme : r[X]? = some me)
    (hns : ¬ (me.predecessor_ = some X ∧ me.getNodePtr 1 = some X))
    (h : leave fuel r X = .ok r') :
    ∃ S sn me1 sn2 r4,
      me.getNodePtr 1 = some S ∧ r[S]? = some sn ∧
      (putNode r S { sn with localKeys_ := mapSetAll sn.localKeys_ me.localKeys_ })[X]? =
        some me1 ∧
      (putNode (putNode r S { sn with localKeys_ := mapSetAll sn.localKeys_ me.localKeys_ })
        X { me1 with localKeys_ := [] })[S]? = some sn2 ∧
      r4.map Node.core = (putNode (putNode (putNode r S
            { sn with localKeys_ := mapSetAll sn.localKeys_ me.localKeys_ })
          X { me1 with localKeys_ := [] })
          S { sn2 with predecessor_ := me.predecessor_ }).map Node.core ∧
      r'.map Node.core = r4.map Node.core ∧
      ((me.predecessor_ = some X ∧ r' = r4) ∨
        (me.predecessor_ ≠ some X ∧ ∃ P pn, me.predecessor_ = some P ∧ r4[P]? = some pn ∧
          fixFingers fuel (putNode r4 P (pn.setFinger 1 (some S))) P = .ok r')) := by
  obtain ⟨S, sn, me1, sn2, r4, hS, hsn, hme1, hsn2, hr4, hcase⟩ := leave_unfold hme hns h
  refine ⟨S, sn, me1, sn2, r4, hS, hsn, hme1, hsn2, ?_, ?_, hcase⟩
  · exact foldlM_preserves (leaveFixStep fuel X S)
      (fun b => b.map Node.core = (putNode (putNode (putNode r S
            { sn with localKeys_ := mapSetAll sn.localKeys_ me.localKeys_ })
          X { me1 with localKeys_ := [] })
          S { sn2 with predecessor_ := me.predecessor_ }).map Node.core)
      (fun b a b' hb hs => (leaveFixStep_core hs).trans hb) _ _ _ rfl hr4
  · rcases hcase with ⟨_, rfl⟩ | ⟨_, P, pn, _, hpn, hfix⟩
    · rfl
    · exact (fixFingers_core hfix).trans (map_putNode_same Node.core hpn rfl)

/-- C8: when leave returns for a node X that is not the only member, the
predecessor of X's former successor is X's former predecessor, and when that
predecessor is not X itself its finger entry 1 is X's former successor. -/
theorem leave_relinks (fuel X : Nat) (r r' : Ring) (me : Node) (hb : IdsBounded r)
    (hme : r[X]? = some me)
    (hns : ¬ (me.predecessor_ = some X ∧ me.getNodePtr 1 = some X))
    (h : leave fuel r X = .ok r') :
    ∃ S, me.getNodePtr 1 = some S ∧ predOf r' S = me.predecessor_ ∧
      (me.predecessor_ ≠ some X →
        ∃ P, me.predecessor_ = some P ∧ fingerOf r' P 1 = some S) := by
  obtain ⟨S, sn, me1, sn2, r4, hS, hsn, hme1, hsn2, c4, c', hcase⟩ := leave_core hme hns h
  generalize hA : putNode r S
    { sn with localKeys_ := mapSetAll sn.localKeys_ me.localKeys_ } = A at hme1 hsn2 c4
  generalize hB : putNode A X { me1 with localKeys_ := [] } = B at hsn2 c4
  have iA : A.map (·.id_) = r.map (·.id_) := hA ▸ map_putNode_same (·.id_) hsn rfl
  have iB : B.map (·.id_) = A.map (·.id_) := hB ▸ map_putNode_same (·.id_) hme1 rfl
  have iC : (putNode B S { sn2 with predecessor_ := me.predecessor_ }).map (·.id_) =
      B.map (·.id_) := map_putNode_same (·.id_) hsn2 rfl
  have hp3 : predOf (putNode B S { sn2 with predecessor_ := me.predecessor_ }) S =
      me.predecessor_ := by
    simp [predOf, getElem?_putNode_self hsn2]
  refine ⟨S, hS, ?_, fun hne => ?_⟩
  · rw [(core_eq_of_map c' S).2.2, (core_eq_of_map c4 S).2.2, hp3]
  · rcases hcase with ⟨hx, _⟩ | ⟨_, P, pn, hP, hpn, hfix⟩
    · exact absurd hx hne
    · refine ⟨P, hP, ?_⟩
      have i4 : r4.map (·.id_) = r.map (·.id_) :=
        (map_id_of_core c4).trans (iC.trans (iB.trans iA))
      have i5 : (putNode r4 P (pn.setFinger 1 (some S))).map (·.id_) = r4.map (·.id_) :=
        map_putNode_same (·.id_) hpn rfl
      refine fixFingers_keeps_successor (getElem?_putNode_self hpn)
        (idsBounded_of_map (i5.trans i4) hb) ?_ hfix
      intro s hs
      rw [getNodePtr_setFinger_self] at hs
      split_ifs at hs
      exact (Option.some.inj hs).symm

/-- The part of the key migration of leave that the code does achieve: when
leave returns for a node X whose finger entry 1 is another node S, X's store is
empty, S holds every pair X held, S keeps its own pairs for the keys X did not
hold, and no other store has changed. -/
theorem leave_migrates_keys (fuel X S : Nat) (r r' : Ring) (me : Node)
    (hme : r[X]? = some me) (hS : me.getNodePtr 1 = some S) (hSX : S ≠ X)
    (hnd : (me.localKeys_.map Prod.fst).Nodup)
    (h : leave fuel r X = .ok r') :
    keysOf r' X = [] ∧
    (∀ k v, mapFind me.localKeys_ k = some v → mapFind (keysOf r' S) k = some v) ∧
    (∀ k, mapFind me.localKeys_ k = none →
      mapFind (keysOf r' S) k = mapFind (keysOf r S) k) ∧
    (∀ q, q ≠ X → q ≠ S → keysOf r' q = keysOf r q) := by
  have hns : ¬ (me.predecessor_ = some X ∧ me.getNodePtr 1 = some X) := by
    rintro ⟨_, h1⟩
    rw [hS] at h1
    exact hSX (Option.some.inj h1)
  obtain ⟨S', sn, me1, sn2, r4, hS', hsn, hme1, hsn2, c4, c', _⟩ := leave_core hme hns h
  have : S' = S := Option.some.inj (hS'.symm.trans hS)
  subst this
  rw [getElem?_putNode_ne hSX, hme] at hme1
  cases hme1
  rw [getElem?_putNode_ne (Ne.symm hSX), getElem?_putNode_self hsn] at hsn2
  cases hsn2
  have key : ∀ q, keysOf r' q = keysOf (putNode (putNode (putNode r S'
        { sn with localKeys_ := mapSetAll sn.localKeys_ me.localKeys_ })
      X { me with localKeys_ := [] })
      S' { ({ sn with localKeys_ := mapSetAll sn.localKeys_ me.localKeys_ } : Node) with
        predecessor_ := me.predecessor_ }) q := fun q =>
    ((core_eq_of_map c' q).2.1).trans ((core_eq_of_map c4 q).2.1)
  have hXv : (putNode r S'
      { sn with localKeys_ := mapSetAll sn.localKeys_ me.localKeys_ })[X]? = some me := by
    rw [getElem?_putNode_ne hSX, hme]
  have hSv : (putNode (putNode r S'
        { sn with localKeys_ := mapSetAll sn.localKeys_ me.localKeys_ })
      X { me with localKeys_ := [] })[S']? =
      some { sn with localKeys_ := mapSetAll sn.localKeys_ me.localKeys_ } := by
    rw [getElem?_putNode_ne (Ne.symm hSX), getElem?_putNode_self hsn]
  have kX : keysOf r' X = [] := by
    rw [key X]
    simp [keysOf, getElem?_putNode_ne hSX, getElem?_putNode_self hXv]
  have kS : keysOf r' S' = mapSetAll (keysOf r S') me.localKeys_ := by
    rw [key S']
    simp [keysOf, getElem?_putNode_self hSv, hsn]
  refine ⟨kX, fun k v hk => ?_, fun k hk => ?_, fun q hqX hqS => ?_⟩
  · rw [kS, mapFind_mapSetAll _ _ _ hnd, hk]
  · rw [kS, mapFind_mapSetAll _ _ _ hnd, hk]
  · rw [key q]
    simp [keysOf, getElem?_putNode_ne (Ne.symm hqS), getElem?_putNode_ne (Ne.symm hqX)]

/-- The leave of node 65 in the ring of main() hands its three pairs to node 100. -/
theorem leave_migrates_keys_witness :
    (ring7[2]? = some (mkNode 65 [6, 6, 6, 6, 6, 6, 4, 5] 1 [(45, 3), (50, 8), (60, 10)]) ∧
      (mkNode 65 [6, 6, 6, 6, 6, 6, 4, 5] 1 [(45, 3), (50, 8), (60, 10)]).getNodePtr 1 =
        some 6 ∧ 6 ≠ 2 ∧ leave 3 ring7 2 = .ok ring7_left) ∧
    (keysOf ring7_left 2 = [] ∧
    (∀ k v, mapFind [(45, 3), (50, 8), (60, 10)] k = some v →
      mapFind (keysOf ring7_left 6) k = some v) ∧
    (∀ k, mapFind [(45, 3), (50, 8), (60, 10)] k = none →
      mapFind (keysOf ring7_left 6) k = mapFind (keysOf ring7 6) k) ∧
    (∀ q, q ≠ 2 → q ≠ 6 → keysOf ring7_left q = keysOf ring7 q)) :=
  ⟨by decide, leave_migrates_keys 3 2 6 ring7 ring7_left
    (mkNode 65 [6, 6, 6, 6, 6, 6, 4, 5] 1 [(45, 3), (50, 8), (60, 10)])
    (by decide) (by decide) (by decide) (by decide) (by decide)⟩

/-- The leave of node 65 in the ring of main() is an instance of C8. -/
theorem leave_relinks_witness :
    (IdsBounded ring7 ∧
      ring7[2]? = some (mkNode 65 [6, 6, 6, 6, 6, 6, 4, 5] 1 [(45, 3), (50, 8), (60, 10)]) ∧
      leave 3 ring7 2 = .ok ring7_left) ∧
    ∃ S, (mkNode 65 [6, 6, 6, 6, 6, 6, 4, 5] 1 [(45, 3), (50, 8), (60, 10)]).getNodePtr 1 =
        some S ∧
      predOf ring7_left S =
        (mkNode 65 [6, 6, 6, 6, 6, 6, 4, 5] 1 [(45, 3), (50, 8), (60, 10)]).predecessor_ ∧
      ((mkNode 65 [6, 6, 6, 6, 6, 6, 4, 5] 1 [(45, 3), (50, 8), (60, 10)]).predecessor_ ≠
          some 2 →
        ∃ P, (mkNode 65 [6, 6, 6, 6, 6, 6, 4, 5] 1
            [(45, 3), (50, 8), (60, 10)]).predecessor_ = some P ∧
          fingerOf ring7_left P 1 = some S) :=
  ⟨by decide, leave_relinks 3 2 ring7 ring7_left
    (mkNode 65 [6, 6, 6, 6, 6, 6, 4, 5] 1 [(45, 3), (50, 8), (60, 10)])
    (by decide) (by decide) (by decide) (by decide)⟩

theorem foldlM_error_of_head {α β : Type} (step : β → α → Except Fault β) (a : α)
    (l : List α) (b : β) (e : Fault) (h : step b a = .error e) :
    (a :: l).foldlM step b = .error e := by
  rw [List.foldlM_cons]
  exact except_bind_error _ _ _ h

theorem leave_error_of_fix (fuel X S : Nat) (r r1 : Ring) (me me1 sn2 : Node) (e : Fault)
    (hme : getNode r X = .ok me)
    (hns : ¬ (me.predecessor_ = some X ∧ me.getNodePtr 1 = some X))
    (hS : me.getNodePtr 1 = some S)
    (h1 : leaveMoveKeys S r me.localKeys_ = .ok r1)
    (hme1 : getNode r1 X = .ok me1)
    (hsn2 : getNode (putNode r1 X { me1 with localKeys_ := [] }) S = .ok sn2)
    (hfix : (List.range' 1 BITLENGTH).foldlM (leaveFixStep fuel X S)
      (putNode (putNode r1 X { me1 with localKeys_ := [] }) S
        { sn2 with predecessor_ := me.predecessor_ }) = .error e) :
    leave fuel r X = .error e := by
  unfold leave
  simp only [hme, bind, Except.bind, hS, nonNull, h1, hme1, hsn2, hfix]
  rw [hS] at hns
  rw [if_neg hns]

theorem findPredecessorLoop_stuck_0_1_30 (fuel : Nat) :
    findPredecessorLoop ring0_1_30_migrated 1 0 fuel 0 = .error .outOfFuel := by
  induction fuel with
  | zero => rfl
  | succ f ih =>
      have step : findPredecessorLoop ring0_1_30_migrated 1 0 (f + 1) 0 =
          findPredecessorLoop ring0_1_30_migrated 1 0 f 0 := rfl
      rw [step, ih]

theorem leave_0_1_30_never_returns (fuel : Nat) :
    leave fuel ring0_1_30 1 = .error .outOfFuel := by
  have h3 : findPredecessor fuel ring0_1_30_migrated 1 0 = .error .outOfFuel := by
    cases fuel with
    | zero => rfl
    | succ f =>
        have step : findPredecessor (f + 1) ring0_1_30_migrated 1 0 =
            findPredecessorLoop ring0_1_30_migrated 1 0 f 0 := rfl
        rw [step, findPredecessorLoop_stuck_0_1_30]
  have h2 : leaveFixStep fuel 1 2 ring0_1_30_migrated 1 = .error .outOfFuel := by
    have e : leaveFixStep fuel 1 2 ring0_1_30_migrated 1 =
        (findPredecessor fuel ring0_1_30_migrated 1 0 >>= fun p => do
          let pn ← getNode ring0_1_30_migrated p
          if p ≠ 1 ∧ pn.getNodePtr 1 = some 1 then
            .ok (putNode ring0_1_30_migrated p (pn.setFinger 1 (some 2)))
          else .ok ring0_1_30_migrated) := rfl
    rw [e]
    exact except_bind_error _ _ _ h3
  exact leave_error_of_fix fuel 1 2 ring0_1_30
    [mkNode 0 [1, 2, 2, 2, 2, 0, 0, 0] 2 [], mkNode 1 [2, 2, 2, 2, 2, 0, 0, 0] 0 [(1, 9)],
      mkNode 30 [0, 0, 0, 0, 0, 0, 0, 0] 1 [(1, 9)]]
    (mkNode 1 [2, 2, 2, 2, 2, 0, 0, 0] 0 [(1, 9)])
    (mkNode 1 [2, 2, 2, 2, 2, 0, 0, 0] 0 [(1, 9)])
    (mkNode 30 [0, 0, 0, 0, 0, 0, 0, 0] 1 [(1, 9)]) _ rfl (by decide) rfl
    (by decide) (by decide) (by decide)
    (foldlM_error_of_head _ 1 (List.range' 2 7) _ _ h2)

/-- C6: leave of a node that is not the only member fails to migrate its keys
in two ways.  After node0.join(nullptr), node0.insert(5, 7) and
node1.join(node0), node 0 has predecessor 1 but is still its own finger entry
1; its leave returns with both stores empty, so the pair (5, 7) is in no store.
In the stabilized ring 0, 1, 30 the leave of node 1 never returns. -/
theorem leave_loses_keys_or_hangs :
    ((do let r ← join 2 [Node.new 0, Node.new 1] 0 none
         let r ← insert 2 r 0 5 7
         join 2 r 1 (some 0) : Except Fault Ring) = .ok ring0_1_unstable ∧
      predOf ring0_1_unstable 0 = some 1 ∧ fingerOf ring0_1_unstable 0 1 = some 0 ∧
      keysOf ring0_1_unstable 0 = [(5, 7)] ∧
      ∀ fuel, (leave (fuel + 1) ring0_1_unstable 0).map (fun r => (keysOf r 0, keysOf r 1)) =
        .ok ([], [])) ∧
    (Stabilized ring0_1_30 ∧ ∀ fuel, leave fuel ring0_1_30 1 = .error .outOfFuel) :=
  ⟨⟨by decide, by decide, by decide, by decide, fun _ => rfl⟩,
    by decide, leave_0_1_30_never_returns⟩

theorem inRange_self_left (a b : Nat) : inRange a a b = true ↔ a = b := by
  rw [inRange_true_iff]; omega

theorem inRange_swap {a p s : Nat} (hap : a ≠ p) (hps : p ≠ s)
    (h : inRange a p s = false) : inRange p a s = true := by
  have h' : ¬ (inRange a p s = true) := by simp [h]
  rw [inRange_true_iff] at h' ⊢
  omega

/-- Node::notify either installs the candidate as predecessor or, having found
it outside (predecessor.id, id], leaves the whole state as it was. -/
theorem notify_cases {r r1 : Ring} {t c : Nat} (h : notify r t c = .ok r1) :
    ∃ mt, r[t]? = some mt ∧
      (r1 = putNode r t { mt with predecessor_ := some c } ∨
        (r1 = r ∧ ∃ p nn pn, mt.predecessor_ = some p ∧ r[c]? = some nn ∧
          r[p]? = some pn ∧ inRange nn.id_ pn.id_ mt.id_ = false)) := by
  unfold notify at h
  simp only [bind_eq_ok, getNode_eq_ok] at h
  obtain ⟨mt, hmt, h⟩ := h
  refine ⟨mt, hmt, ?_⟩
  cases hp : mt.predecessor_ with
  | none =>
      rw [hp] at h
      left
      exact (Except.ok.inj h).symm
  | some p =>
      rw [hp] at h
      simp only [bind_eq_ok, getNode_eq_ok] at h
      obtain ⟨nn, hnn, pn, hpn, h⟩ := h
      split_ifs at h with hin
      · left
        exact (Except.ok.inj h).symm
      · right
        refine ⟨(Except.ok.inj h).symm, p, nn, pn, rfl, hnn, hpn, ?_⟩
        simpa using hin

/-- The part of a node that notify never touches: identifier and finger table. -/
theorem notify_frame {r r1 : Ring} {t c : Nat} (h : notify r t c = .ok r1) :
    r1.map (fun n => (n.id_, n.fingerTable_)) = r.map (fun n => (n.id_, n.fingerTable_)) := by
  obtain ⟨mt, hmt, h | ⟨h, _⟩⟩ := notify_cases h
  · subst h
    exact map_putNode_same _ hmt rfl
  · subst h; rfl

theorem lt_length_of_getElem? {r : Ring} {q : Nat} {n : Node} (h : r[q]? = some n) :
    q < r.length := by
  by_contra hc
  rw [List.getElem?_eq_none (by omega)] at h
  cases h

theorem eq_of_id_eq {r : Ring} (hd : DistinctIds r) {a b : Nat} {na nb : Node}
    (ha : r[a]? = some na) (hb : r[b]? = some nb) (h : na.id_ = nb.id_) : a = b := by
  apply hd a (lt_length_of_getElem? ha) b (lt_length_of_getElem? hb)
  simp [idOf, ha, hb, h]

theorem distinctIds_of_map {r r' : Ring} (h : r'.map (·.id_) = r.map (·.id_))
    (hd : DistinctIds r) : DistinctIds r' := by
  have hl : r'.length = r.length := by simpa using congrArg List.length h
  intro p hp q hq hpq
  rw [idOf_eq_of_map h p, idOf_eq_of_map h q] at hpq
  exact hd p (hl ▸ hp) q (hl ▸ hq) hpq

theorem frame_id_finger {r r' : Ring}
    (h : r'.map (fun n => (n.id_, n.fingerTable_)) = r.map (fun n => (n.id_, n.fingerTable_)))
    (q i : Nat) : fingerOf r' q i = fingerOf r q i ∧ r'.map (·.id_) = r.map (·.id_) := by
  constructor
  · have hq := congrArg (fun l => l[q]?) h
    simp only [List.getElem?_map] at hq
    unfold fingerOf Node.getNodePtr
    cases h1 : r'[q]? <;> cases h2 : r[q]? <;> simp [h1, h2] at hq ⊢
    rw [hq.2]
  · have := congrArg (List.map Prod.fst) h
    simpa [List.map_map, Function.comp_def] using this

theorem slot_of_getNodePtr {n : Node} {i v : Nat} (h : n.getNodePtr i = some v) :
    n.fingerTable_[i]? = some (some v) := by
  unfold Node.getNodePtr at h
  cases hc : n.fingerTable_[i]? with
  | none => simp [hc] at h
  | some o => cases o <;> simp_all

theorem setFinger_same {n : Node} {i v : Nat} (h : n.getNodePtr i = some v) :
    n.setFinger i (some v) = n := by
  have hs := slot_of_getNodePtr h
  unfold Node.setFinger
  have : n.fingerTable_.set i (some v) = n.fingerTable_ := by
    apply List.ext_getElem?
    intro j
    rw [List.getElem?_set]
    split_ifs with h1 h2
    · subst h1; exact hs.symm
    · subst h1
      rw [List.getElem?_eq_none (by omega)] at hs
      cases hs
    · rfl
  rw [this]

theorem getNodePtr_setFinger_of_slot {n : Node} {i v : Nat} (w : Option Nat)
    (h : n.getNodePtr i = some v) : (n.setFinger i w).getNodePtr i = w := by
  rw [getNodePtr_setFinger_self, if_pos]
  have hs := slot_of_getNodePtr h
  by_contra hc
  rw [List.getElem?_eq_none (by omega)] at hs
  cases hs

/-- A returning stabilize is one notify, run on a state with the same
identifiers in which finger entry 1 of the node is the notified node. -/
theorem stabilize_post {r r1 : Ring} {n : Nat} (h : stabilize r n = .ok r1) :
    ∃ r0 s, notify r0 s n = .ok r1 ∧ fingerOf r0 n 1 = some s ∧
      r0.map (·.id_) = r.map (·.id_) := by
  unfold stabilize at h
  simp only [bind_eq_ok, getNode_eq_ok, nonNull_eq_ok] at h
  obtain ⟨me, hme, S, hS, sn, hsn, h⟩ := h
  have hfS : fingerOf r n 1 = some S := by simp [fingerOf, hme, hS]
  cases hp : sn.predecessor_ with
  | none =>
      rw [hp] at h
      exact ⟨r, S, h, hfS, rfl⟩
  | some x =>
      rw [hp] at h
      simp only [bind_eq_ok, getNode_eq_ok] at h
      obtain ⟨xn, hxn, h⟩ := h
      split_ifs at h with hin
      · refine ⟨_, x, h, ?_, map_putNode_same (·.id_) hme rfl⟩
        simp [fingerOf, getElem?_putNode_self hme, getNodePtr_setFinger_of_slot _ hS]
      · exact ⟨r, S, h, hfS, rfl⟩

/-- A stabilize run in a state where the node is already the predecessor of
its finger entry 1 changes nothing. -/
theorem stabilize_fixed_of_linked {r : Ring} {n s : Nat} (hd : DistinctIds r)
    (hf : fingerOf r n 1 = some s) (hp : predOf r s = some n) : stabilize r n = .ok r := by
  obtain ⟨me, hme, hS⟩ : ∃ me, r[n]? = some me ∧ me.getNodePtr 1 = some s := by
    unfold fingerOf at hf
    cases hc : r[n]? with
    | none => simp [hc] at hf
    | some me => exact ⟨me, rfl, by simpa [hc] using hf⟩
  obtain ⟨sn, hsn, hpS⟩ : ∃ sn, r[s]? = some sn ∧ sn.predecessor_ = some n := by
    unfold predOf at hp
    cases hc : r[s]? with
    | none => simp [hc] at hp
    | some sn => exact ⟨sn, rfl, by simpa [hc] using hp⟩
  unfold stabilize
  simp only [getNode_eq_ok.2 hme, getNode_eq_ok.2 hsn, hS, nonNull, hpS, bind, Except.bind]
  by_cases hid : me.id_ = sn.id_
  · have hns : n = s := eq_of_id_eq hd hme hsn hid
    subst hns
    rw [hme] at hsn
    cases hsn
    have hin : inRange me.id_ me.id_ me.id_ = true := (inRange_self_left _ _).2 rfl
    rw [if_pos hin, setFinger_same hS, putNode_self hme]
    unfold notify
    simp only [getNode_eq_ok.2 hme, hpS, bind, Except.bind, hin, if_true]
    have hrec : ({ me with predecessor_ := some n } : Node) = me := by
      cases me; simp_all
    rw [hrec, putNode_self hme]
  · have hin : ¬ (inRange me.id_ me.id_ sn.id_ = true) := fun h =>
      hid ((inRange_self_left _ _).1 h)
    rw [if_neg hin]
    unfold notify
    simp only [getNode_eq_ok.2 hme, getNode_eq_ok.2 hsn, hpS, bind, Except.bind, if_neg hin]

/-- C10 (as amended): after a returning n.stabilize() in a ring with distinct
identifiers, a second n.stabilize() leaves the state exactly as the first call
left it if and only if the first call left n as the predecessor of its finger
entry 1. -/
theorem stabilize_twice_iff (r r1 : Ring) (n : Nat) (hd : DistinctIds r)
    (h1 : stabilize r n = .ok r1) :
    stabilize r1 n = .ok r1 ↔ ∃ s, fingerOf r1 n 1 = some s ∧ predOf r1 s = some n := by
  obtain ⟨r0, s, hnot, hf0, hid0⟩ := stabilize_post h1
  have hfr := notify_frame hnot
  have hf1 : fingerOf r1 n 1 = some s := ((frame_id_finger hfr n 1).1).trans hf0
  have hd1 : DistinctIds r1 :=
    distinctIds_of_map (((frame_id_finger hfr n 1).2).trans hid0) hd
  constructor
  · intro h2
    refine ⟨s, hf1, ?_⟩
    obtain ⟨ms, hms, hacc | ⟨hrej, p, nn, pn, hmp, hnn, hpn, hin⟩⟩ := notify_cases hnot
    · subst hacc
      simp [predOf, getElem?_putNode_self hms]
    · subst hrej
      have hps : predOf r1 s = some p := by simp [predOf, hms, hmp]
      rw [hps]
      by_contra hpn'
      have hpn2 : p ≠ n := fun h => hpn' (by rw [h])
      have hS : nn.getNodePtr 1 = some s := by simpa [fingerOf, hnn] using hf1
      have e1 : nn.id_ ≠ pn.id_ := fun h => hpn2 (eq_of_id_eq hd1 hnn hpn h).symm
      have e2 : pn.id_ ≠ ms.id_ := by
        intro h
        rw [h] at hin
        simp [inRange] at hin
      have hsw : inRange pn.id_ nn.id_ ms.id_ = true := inRange_swap e1 e2 hin
      unfold stabilize at h2
      simp only [getNode_eq_ok.2 hnn, getNode_eq_ok.2 hms, getNode_eq_ok.2 hpn, hS, nonNull,
        hmp, bind, Except.bind, hsw, if_true] at h2
      have hfr2 := notify_frame h2
      have hfin := (frame_id_finger hfr2 n 1).1
      rw [hf1] at hfin
      simp only [fingerOf, getElem?_putNode_self hnn, Option.some_bind,
        getNodePtr_setFinger_of_slot _ hS] at hfin
      have hsp : s = p := Option.some.inj hfin
      subst hsp
      rw [hms] at hpn
      cases hpn
      exact e2 rfl
  · rintro ⟨s', hf, hp⟩
    exact stabilize_fixed_of_linked hd1 hf hp

/-- C10 (counterexample): after nodes 0, 1, 2, 3 have joined as in main(),
every node has finger entry 1 and a predecessor set; the first stabilize() of
node 1 moves its finger entry 1 from node 0 to node 3, and the second call,
made immediately after, moves it on to node 2. -/
theorem stabilize_twice_differs :
    joinAll 3 [Node.new 0, Node.new 1, Node.new 2, Node.new 3] 3 = .ok ring0_1_2_3_joined ∧
    (∀ p, p < ring0_1_2_3_joined.length →
      (fingerOf ring0_1_2_3_joined p 1).isSome ∧ (predOf ring0_1_2_3_joined p).isSome) ∧
    (do let r1 ← stabilize ring0_1_2_3_joined 1
        let r2 ← stabilize r1 1
        pure (fingerOf ring0_1_2_3_joined 1 1, fingerOf r1 1 1, fingerOf r2 1 1,
          decide (r2 = r1)) : Except Fault _) =
      .ok (some 0, some 3, some 2, false) :=
  ⟨by decide, by decide, by decide⟩

/-- Node 0 of the ring of main() is an instance of C10 as amended. -/
theorem stabilize_twice_iff_witness :
    (DistinctIds ring7 ∧ stabilize ring7 0 = .ok ring7) ∧
    (stabilize ring7 0 = .ok ring7 ↔
      ∃ s, fingerOf ring7 0 1 = some s ∧ predOf ring7 s = some 0) :=
  ⟨by decide, stabilize_twice_iff ring7 ring7 0 (by decide) (by decide)⟩

/-- Node::notify on a node whose predecessor already is the candidate changes nothing. -/
theorem notify_of_pred_eq {r : Ring} {n c : Nat} {m x : Node} (hm : r[n]? = some m)
    (hx : r[c]? = some x) (hp : m.predecessor_ = some c) : notify r n c = .ok r := by
  unfold notify
  simp only [getNode_eq_ok.2 hm, getNode_eq_ok.2 hx, hp, bind, Except.bind]
  have hrec : ({ m with predecessor_ := some c } : Node) = m := by
    cases m; simp_all
  rw [hrec, putNode_self hm]
  split_ifs <;> rfl

/-- C11: notify(c) on node n returns; it sets n's predecessor to c exactly when
n had no predecessor or inRange(c.id, predecessor.id, n.id) held, changing
nothing else; and a second notify(c) leaves the state as the first left it. -/
theorem notify_idempotent (r : Ring) (n c : Nat) (me cn : Node) (hme : r[n]? = some me)
    (hc : r[c]? = some cn) (hp : ∀ p, me.predecessor_ = some p → p < r.length) :
    ∃ r1, notify r n c = .ok r1 ∧ notify r1 n c = .ok r1 ∧
      r1 = (if (match me.predecessor_ with
                | none => true
                | some p => inRange cn.id_ (idOf r p) me.id_) = true
            then putNode r n { me with predecessor_ := some c } else r) := by
  have second : notify (putNode r n { me with predecessor_ := some c }) n c =
      .ok (putNode r n { me with predecessor_ := some c }) := by
    by_cases hnc : n = c
    · subst hnc
      exact notify_of_pred_eq (getElem?_putNode_self hme) (getElem?_putNode_self hme) rfl
    · exact notify_of_pred_eq (getElem?_putNode_self hme)
        ((getElem?_putNode_ne hnc).trans hc) rfl
  cases hpr : me.predecessor_ with
  | none =>
      refine ⟨putNode r n { me with predecessor_ := some c }, ?_, second, by simp⟩
      unfold notify
      simp only [getNode_eq_ok.2 hme, hpr, bind, Except.bind]
  | some p =>
      have hpl := hp p hpr
      have hpn : r[p]? = some r[p] := List.getElem?_eq_getElem hpl
      have hid : idOf r p = r[p].id_ := by simp [idOf, hpn]
      have first : notify r n c =
          .ok (if inRange cn.id_ r[p].id_ me.id_ = true
            then putNode r n { me with predecessor_ := some c } else r) := by
        unfold notify
        simp only [getNode_eq_ok.2 hme, getNode_eq_ok.2 hc, getNode_eq_ok.2 hpn, hpr, bind,
          Except.bind]
        split_ifs <;> rfl
      by_cases hin : inRange cn.id_ r[p].id_ me.id_ = true
      · refine ⟨putNode r n { me with predecessor_ := some c }, ?_, second, ?_⟩
        · rw [first, if_pos hin]
        · simp [hid, hin]
      · refine ⟨r, ?_, ?_, ?_⟩
        · rw [first, if_neg hin]
        · rw [first, if_neg hin]
        · simp [hid, hin]

/-- Node 110 of the ring of main() notified by node 100 is an instance of C11. -/
theorem notify_idempotent_witness :
    (ring7[3]? = some (mkNode 110 [4, 4, 4, 4, 4, 4, 5, 0] 6 [(101, 4), (102, 6)]) ∧
      ring7[6]? = some (mkNode 100 [3, 3, 3, 3, 4, 4, 5, 5] 2 [(99, 0), (100, 5)]) ∧
      ∀ p, (mkNode 110 [4, 4, 4, 4, 4, 4, 5, 0] 6 [(101, 4), (102, 6)]).predecessor_ = some p →
        p < ring7.length) ∧
    ∃ r1, notify ring7 3 6 = .ok r1 ∧ notify r1 3 6 = .ok r1 ∧
      r1 = (if (match (mkNode 110 [4, 4, 4, 4, 4, 4, 5, 0] 6
                  [(101, 4), (102, 6)]).predecessor_ with
                | none => true
                | some p => inRange (mkNode 100 [3, 3, 3, 3, 4, 4, 5, 5] 2
                    [(99, 0), (100, 5)]).id_ (idOf ring7 p)
                    (mkNode 110 [4, 4, 4, 4, 4, 4, 5, 0] 6 [(101, 4), (102, 6)]).id_) = true
            then putNode ring7 3
              { mkNode 110 [4, 4, 4, 4, 4, 4, 5, 0] 6 [(101, 4), (102, 6)] with
                predecessor_ := some 6 }
            else ring7) :=
  ⟨⟨by decide, by decide, by decide⟩,
    notify_idempotent ring7 3 6 (mkNode 110 [4, 4, 4, 4, 4, 4, 5, 0] 6 [(101, 4), (102, 6)])
      (mkNode 100 [3, 3, 3, 3, 4, 4, 5, 5] 2 [(99, 0), (100, 5)])
      (by decide) (by decide) (by decide)⟩

theorem findPredecessorLoop_stuck_ring0_1_30 (fuel : Nat) :
    findPredecessorLoop ring0_1_30 1 0 fuel 0 = .error .outOfFuel := by
  induction fuel with
  | zero => rfl
  | succ f ih =>
      have step : findPredecessorLoop ring0_1_30 1 0 (f + 1) 0 =
          findPredecessorLoop ring0_1_30 1 0 f 0 := rfl
      rw [step, ih]

/-- C13 (code defect): in the stabilized ring of identifiers 0, 1 and 30 (all
finger entries set), findPredecessor(0) run at node 1 never leaves its loop: it
moves to node 0, where closestPrecedingFinger(0) returns node 0 again, which is
not the starting node.  findSuccessor(0), insert(0, 5) and remove(0) at node 1
therefore never return either. -/
theorem findPredecessor_never_returns :
    Stabilized ring0_1_30 ∧
    (∀ fuel, findPredecessor fuel ring0_1_30 1 0 = .error .outOfFuel) ∧
    (∀ fuel, findSuccessor fuel ring0_1_30 1 0 = .error .outOfFuel) ∧
    (∀ fuel, insert fuel ring0_1_30 1 0 5 = .error .outOfFuel) ∧
    (∀ fuel, remove fuel ring0_1_30 1 0 = .error .outOfFuel) := by
  have h1 : ∀ fuel, findPredecessor fuel ring0_1_30 1 0 = .error .outOfFuel := by
    intro fuel
    cases fuel with
    | zero => rfl
    | succ f =>
        have step : findPredecessor (f + 1) ring0_1_30 1 0 =
            findPredecessorLoop ring0_1_30 1 0 f 0 := rfl
        rw [step, findPredecessorLoop_stuck_ring0_1_30]
  have h2 : ∀ fuel, findSuccessor fuel ring0_1_30 1 0 = .error .outOfFuel := by
    intro fuel
    have e : findSuccessor fuel ring0_1_30 1 0 =
        (findPredecessor fuel ring0_1_30 1 0 >>= fun predecessor => do
          let pn ← getNode ring0_1_30 predecessor
          nonNull (pn.getNodePtr 1)) := rfl
    rw [e]
    exact except_bind_error _ _ _ (h1 fuel)
  refine ⟨by decide, h1, h2, fun fuel => ?_, fun fuel => ?_⟩
  · unfold insert
    exact except_bind_error _ _ _ (h2 fuel)
  · unfold remove
    exact except_bind_error _ _ _ (h2 fuel)

/-- C19 (code defect): closestPrecedingFinger tests the arc (id_, id] closed at
id.  In the stabilized ring 0, 30 node 30 asked for identifier 0 returns node 0,
whose identifier equals 0, although no finger lies strictly between 30 and 0;
node 0 of the ring of main() asked for 65 returns node 65; and node 0 asked
for its own identifier 0 returns its finger 8 (start == end accepts any finger). -/
theorem closestPrecedingFinger_returns_id_itself :
    (closestPrecedingFinger ring0_30 1 0 = .ok 0 ∧ idOf ring0_30 0 = 0 ∧
      idOf ring0_30 1 = 30) ∧
    (closestPrecedingFinger ring7 0 65 = .ok 2 ∧ idOf ring7 2 = 65) ∧
    (closestPrecedingFinger ring7 0 0 = .ok 4 ∧ fingerOf ring7 0 8 = some 4 ∧
      idOf ring7 4 = 160) :=
  ⟨by decide, by decide, by decide⟩

theorem mapFind_none_of_not_mem (m : List (Nat × Nat)) (k : Nat)
    (h : k ∉ m.map Prod.fst) : mapFind m k = none := by
  induction m with
  | nil => rfl
  | cons a l ih =>
      obtain ⟨a1, a2⟩ := a
      simp only [List.map_cons, List.mem_cons, not_or] at h
      simp [mapFind, Ne.symm h.1, ih h.2]

theorem mapFind_mapErase_ne (m : List (Nat × Nat)) (k k' : Nat) (h : k' ≠ k) :
    mapFind (mapErase m k) k' = mapFind m k' := by
  induction m with
  | nil => rfl
  | cons a l ih =>
      obtain ⟨a1, a2⟩ := a
      unfold mapErase
      split_ifs with h1
      · subst h1
        simp [mapFind, Ne.symm h]
      · simp [mapFind, ih]

theorem mapFind_mapErase_self (m : List (Nat × Nat)) (k : Nat)
    (hnd : (m.map Prod.fst).Nodup) : mapFind (mapErase m k) k = none := by
  induction m with
  | nil => rfl
  | cons a l ih =>
      obtain ⟨a1, a2⟩ := a
      simp only [List.map_cons, List.nodup_cons] at hnd
      unfold mapErase
      split_ifs with h1
      · subst h1
        exact mapFind_none_of_not_mem _ _ hnd.1
      · simp [mapFind, h1, ih hnd.2]

theorem keysOf_of_getElem? {r : Ring} {q : Nat} {n : Node} (h : r[q]? = some n) :
    keysOf r q = n.localKeys_ := by
  simp [keysOf, h]

/-- C15 (as amended): for a source s and a target t (both nodes, s's store
without duplicate keys): when s does not hold k, transferKey changes nothing;
when s holds k with value v and t is another node, afterwards k is in t's store
with value v and not in s's store, every other key of both stores is as before,
and nothing else in the ring has changed. -/
theorem transferKey_moves (r : Ring) (s t k : Nat) (sn tn : Node) (hs : r[s]? = some sn)
    (ht : r[t]? = some tn) (hnd : (sn.localKeys_.map Prod.fst).Nodup) :
    (mapFind sn.localKeys_ k = none → transferKey r s k t = .ok r) ∧
    (∀ v, mapFind sn.localKeys_ k = some v → s ≠ t →
      ∃ r', transferKey r s k t = .ok r' ∧
        mapFind (keysOf r' t) k = some v ∧ mapFind (keysOf r' s) k = none ∧
        (∀ k', k' ≠ k → mapFind (keysOf r' t) k' = mapFind (keysOf r t) k' ∧
          mapFind (keysOf r' s) k' = mapFind (keysOf r s) k') ∧
        (∀ q, q ≠ s → q ≠ t → r'[q]? = r[q]?) ∧
        r'.map Node.shell = r.map Node.shell) := by
  constructor
  · intro hk
    unfold transferKey
    simp only [getNode_eq_ok.2 hs, hk, bind, Except.bind]
  · intro v hk hst
    have hs1 : (putNode r t { tn with localKeys_ := mapSet tn.localKeys_ k v })[s]? =
        some sn := by
      rw [getElem?_putNode_ne (Ne.symm hst), hs]
    refine ⟨putNode (putNode r t { tn with localKeys_ := mapSet tn.localKeys_ k v }) s
      { sn with localKeys_ := mapErase sn.localKeys_ k }, ?_, ?_, ?_, ?_, ?_, ?_⟩
    · unfold transferKey
      simp only [getNode_eq_ok.2 hs, getNode_eq_ok.2 ht, getNode_eq_ok.2 hs1, hk, bind,
        Except.bind]
    · have e : (putNode (putNode r t { tn with localKeys_ := mapSet tn.localKeys_ k v }) s
          { sn with localKeys_ := mapErase sn.localKeys_ k })[t]? =
          some { tn with localKeys_ := mapSet tn.localKeys_ k v } := by
        rw [getElem?_putNode_ne hst, getElem?_putNode_self ht]
      rw [keysOf_of_getElem? e]
      simp [mapFind_mapSet]
    · rw [keysOf_of_getElem? (getElem?_putNode_self hs1)]
      exact mapFind_mapErase_self _ _ hnd
    · intro k' hk'
      have e : (putNode (putNode r t { tn with localKeys_ := mapSet tn.localKeys_ k v }) s
          { sn with localKeys_ := mapErase sn.localKeys_ k })[t]? =
          some { tn with localKeys_ := mapSet tn.localKeys_ k v } := by
        rw [getElem?_putNode_ne hst, getElem?_putNode_self ht]
      rw [keysOf_of_getElem? e, keysOf_of_getElem? (getElem?_putNode_self hs1),
        keysOf_of_getElem? ht, keysOf_of_getElem? hs]
      exact ⟨by simp [mapFind_mapSet, Ne.symm hk'], mapFind_mapErase_ne _ _ _ hk'⟩
    · intro q hqs hqt
      rw [getElem?_putNode_ne (Ne.symm hqs), getElem?_putNode_ne (Ne.symm hqt)]
    · have e1 : (putNode r t { tn with localKeys_ := mapSet tn.localKeys_ k v }).map
          Node.shell = r.map Node.shell := map_putNode_same Node.shell ht rfl
      have e2 : (putNode (putNode r t { tn with localKeys_ := mapSet tn.localKeys_ k v }) s
          { sn with localKeys_ := mapErase sn.localKeys_ k }).map Node.shell =
          (putNode r t { tn with localKeys_ := mapSet tn.localKeys_ k v }).map Node.shell :=
        map_putNode_same Node.shell hs1 rfl
      exact e2.trans e1

/-- Key 45 handed from node 65 to node 100 in the ring of main() is an instance of C15. -/
theorem transferKey_moves_witness :
    (ring7[2]? = some (mkNode 65 [6, 6, 6, 6, 6, 6, 4, 5] 1 [(45, 3), (50, 8), (60, 10)]) ∧
      ring7[6]? = some (mkNode 100 [3, 3, 3, 3, 4, 4, 5, 5] 2 [(99, 0), (100, 5)]) ∧
      ((mkNode 65 [6, 6, 6, 6, 6, 6, 4, 5] 1
        [(45, 3), (50, 8), (60, 10)]).localKeys_.map Prod.fst).Nodup) ∧
    ((mapFind (mkNode 65 [6, 6, 6, 6, 6, 6, 4, 5] 1 [(45, 3), (50, 8), (60, 10)]).localKeys_
        45 = none → transferKey ring7 2 45 6 = .ok ring7) ∧
    (∀ v, mapFind (mkNode 65 [6, 6, 6, 6, 6, 6, 4, 5] 1
        [(45, 3), (50, 8), (60, 10)]).localKeys_ 45 = some v → 2 ≠ 6 →
      ∃ r', transferKey ring7 2 45 6 = .ok r' ∧
        mapFind (keysOf r' 6) 45 = some v ∧ mapFind (keysOf r' 2) 45 = none ∧
        (∀ k', k' ≠ 45 → mapFind (keysOf r' 6) k' = mapFind (keysOf ring7 6) k' ∧
          mapFind (keysOf r' 2) k' = mapFind (keysOf ring7 2) k') ∧
        (∀ q, q ≠ 2 → q ≠ 6 → r'[q]? = ring7[q]?) ∧
        r'.map Node.shell = ring7.map Node.shell)) :=
  ⟨⟨by decide, by decide, by decide⟩,
    transferKey_moves ring7 2 6 45 (mkNode 65 [6, 6, 6, 6, 6, 6, 4, 5] 1
      [(45, 3), (50, 8), (60, 10)]) (mkNode 100 [3, 3, 3, 3, 4, 4, 5, 5] 2 [(99, 0), (100, 5)])
      (by decide) (by decide) (by decide)⟩

/-- C15 (counterexample): a node handing a key it holds to itself writes the
pair into its own store and then erases it, so the key is in neither "store". -/
theorem transferKey_to_self_drops_key :
    mapFind (keysOf ring0_1_unstable 0) 5 = some 7 ∧
    (transferKey ring0_1_unstable 0 5 0).map (fun r => mapFind (keysOf r 0) 5) = .ok none :=
  ⟨by decide, by decide⟩

theorem findRun_eq (r : Ring) (n k : Nat) :
    findRun r n k = (find r n k).map (fun res => (res, r)) := by
  unfold findRun find
  cases hme : getNode r n with
  | error e => rfl
  | ok me =>
      have hme' := getNode_eq_ok.1 hme
      simp only [bind, Except.bind]
      cases hk : mapFind me.localKeys_ k with
      | some v =>
          simp only [mapIndex, hk, Except.map]
          rw [show ({ me with localKeys_ := me.localKeys_ } : Node) = me from rfl,
            putNode_self hme']
      | none =>
          simp only
          cases hl : findLoop r k (2 ^ BITLENGTH + 1) n [me.id_ % 2 ^ BITLENGTH] with
          | error e => rfl
          | ok res =>
              obtain ⟨resp, path⟩ := res
              simp only
              cases resp with
              | none => rfl
              | some p =>
                  simp only
                  cases hrn : getNode r p with
                  | error e => rfl
                  | ok rn =>
                      have hrn' := getNode_eq_ok.1 hrn
                      simp only
                      cases hk2 : mapFind rn.localKeys_ k with
                      | some v =>
                          simp only [mapIndex, hk2, Except.map]
                          rw [show ({ rn with localKeys_ := rn.localKeys_ } : Node) = rn from rfl,
                            putNode_self hrn']
                      | none => rfl

theorem finger_of_set {r : Ring} (hf : FingersSet r) {p i : Nat} (hp : p < r.length)
    (h1 : 1 ≤ i) (h8 : i ≤ BITLENGTH) :
    ∃ q, q < r.length ∧ r[p].getNodePtr i = some q := by
  have hi : i ∈ List.range' 1 BITLENGTH := by
    simp only [List.mem_range'_1]; omega
  obtain ⟨q, hq, hfq⟩ := hf p hp i hi
  refine ⟨q, hq, ?_⟩
  simpa [fingerOf, List.getElem?_eq_getElem hp] using hfq

/-- With all fingers set the scan of closestPrecedingFinger returns a node of the ring. -/
theorem closestPrecedingFingerFrom_ok {r : Ring} (hf : FingersSet r) {n : Nat}
    (hn : n < r.length) (id : Nat) :
    ∀ i, i ≤ BITLENGTH → ∃ q, q < r.length ∧ closestPrecedingFingerFrom r n id i = .ok q := by
  intro i
  induction i with
  | zero => intro _; exact ⟨n, hn, rfl⟩
  | succ i ih =>
      intro hi
      obtain ⟨f, hfl, hff⟩ := finger_of_set hf hn (Nat.succ_le_succ (Nat.zero_le i)) hi
      unfold closestPrecedingFingerFrom
      simp only [getNode_of_lt hn, getNode_of_lt hfl, hff, nonNull, bind, Except.bind]
      split_ifs
      · exact ⟨f, hfl, rfl⟩
      · exact ih (by omega)

theorem closestPrecedingFinger_ok {r : Ring} (hf : FingersSet r) {n : Nat}
    (hn : n < r.length) (id : Nat) :
    ∃ q, q < r.length ∧ closestPrecedingFinger r n id = .ok q :=
  closestPrecedingFingerFrom_ok hf hn id BITLENGTH le_rfl

/-- The routing loop of find returns once the rounds left and the length of the
path together exceed 2^BITLENGTH; a responsible node it names is in the ring. -/
theorem findLoop_ok {r : Ring} (hf : FingersSet r) (key : Nat) :
    ∀ (fuel cur : Nat) (path : List Nat), cur < r.length → path.length ≤ 2 ^ BITLENGTH →
      2 ^ BITLENGTH < fuel + path.length →
      ∃ resp path', findLoop r key fuel cur path = .ok (resp, path') ∧
        ∀ p, resp = some p → p < r.length := by
  intro fuel
  induction fuel with
  | zero => intro cur path _ h1 h2; omega
  | succ f ih =>
      intro cur path hc h1 h2
      obtain ⟨nx, hnx, hcpf⟩ := closestPrecedingFinger_ok hf hc key
      obtain ⟨s1, hs1, hf1⟩ := finger_of_set hf hc (le_refl 1) (by decide)
      obtain ⟨s2, hs2, hf2⟩ := finger_of_set hf hnx (le_refl 1) (by decide)
      unfold findLoop
      simp only [hcpf, bind, Except.bind, getNode_of_lt hc, hf1, deref, getNode_of_lt hs1,
        getNode_of_lt hnx, hf2, getNode_of_lt hs2]
      by_cases h3 : nx = cur
      · rw [if_pos h3]
        exact ⟨_, _, rfl, fun p hp => by cases hp; exact hs1⟩
      · rw [if_neg h3]
        by_cases h4 : inRange key r[nx].id_ r[s2].id_ = true
        · rw [if_pos h4]
          exact ⟨_, _, rfl, fun p hp => by cases hp; exact hs2⟩
        · rw [if_neg h4]
          by_cases h5 : (path ++ [r[nx].id_ % 2 ^ BITLENGTH]).length > 2 ^ BITLENGTH
          · rw [if_pos h5]
            exact ⟨_, _, rfl, fun p hp => by cases hp⟩
          · rw [if_neg h5]
            simp only [List.length_append, List.length_singleton] at h5
            refine ih nx _ hnx ?_ ?_
            · simp only [List.length_append, List.length_singleton]; omega
            · simp only [List.length_append, List.length_singleton]; omega

/-- More rounds do not change what the routing loop of find returns. -/
theorem findLoop_mono (r : Ring) (key : Nat) :
    ∀ (fuel cur : Nat) (path : List Nat) (res : Option Nat × List Nat),
      findLoop r key fuel cur path = .ok res → findLoop r key (fuel + 1) cur path = .ok res := by
  intro fuel
  induction fuel with
  | zero => intro cur path res h; simp [findLoop] at h
  | succ f ih =>
      intro cur path res h
      rw [findLoop] at h ⊢
      cases hc : closestPrecedingFinger r cur key with
      | error e => rw [hc] at h; simp [bind, Except.bind] at h
      | ok nx =>
          rw [hc] at h
          simp only [bind, Except.bind] at h ⊢
          split_ifs at h ⊢ with h3
          · exact h
          · cases hn : getNode r nx with
            | error e => rw [hn] at h; simp at h
            | ok nn =>
                rw [hn] at h
                simp only at h ⊢
                cases hd : deref r (nn.getNodePtr 1) with
                | error e => rw [hd] at h; simp at h
                | ok rn =>
                    rw [hd] at h
                    simp only at h ⊢
                    split_ifs at h ⊢ with h4 h5
                    · exact h
                    · exact h
                    · exact ih _ _ _ h

/-- The path the routing loop of find returns has at most 2^BITLENGTH + 2 entries. -/
theorem findLoop_path_le (r : Ring) (key : Nat) :
    ∀ (fuel cur : Nat) (path : List Nat) (res : Option Nat × List Nat),
      path.length ≤ 2 ^ BITLENGTH → findLoop r key fuel cur path = .ok res →
      res.2.length ≤ 2 ^ BITLENGTH + 2 := by
  intro fuel
  induction fuel with
  | zero => intro cur path res _ h; simp [findLoop] at h
  | succ f ih =>
      intro cur path res hl h
      rw [findLoop] at h
      simp only [bind_eq_ok] at h
      obtain ⟨nx, _, h⟩ := h
      split_ifs at h with h3
      · simp only [bind_eq_ok] at h
        obtain ⟨cn, _, rn, _, h⟩ := h
        have := (Except.ok.inj h).symm
        subst this
        simp only [List.length_append, List.length_singleton]
        omega
      · simp only [bind_eq_ok] at h
        obtain ⟨nn, _, rn, _, h⟩ := h
        split_ifs at h with h4 h5
        · have := (Except.ok.inj h).symm
          subst this
          simp only [List.length_append, List.length_cons, List.length_nil]
          omega
        · have := (Except.ok.inj h).symm
          subst this
          simp only [List.length_append, List.length_singleton]
          omega
        · exact ih _ _ _ (by omega) h

/-- C12: with all finger entries set, find returns and its path has at most
2^BITLENGTH + 2 entries; its routing loop comes to an end within 2^BITLENGTH
rounds, and when it was left by the loop check (no responsible node named) the
value returned is NONE_VALUE. -/
theorem find_terminates (r : Ring) (n k : Nat) (hf : FingersSet r) (hn : n < r.length) :
    ∃ v path, find r n k = .ok (v, path) ∧ path.length ≤ 2 ^ BITLENGTH + 2 ∧
      (mapFind (keysOf r n) k = none →
        ∃ resp, findLoop r k (2 ^ BITLENGTH) n [idOf r n % 2 ^ BITLENGTH] = .ok (resp, path) ∧
          (resp = none → v = NONE_VALUE)) := by
  have hme : r[n]? = some r[n] := List.getElem?_eq_getElem hn
  have hid : idOf r n = r[n].id_ := by simp [idOf, hme]
  have hks : keysOf r n = r[n].localKeys_ := keysOf_of_getElem? hme
  obtain ⟨resp, path, hloop, hresp⟩ :=
    findLoop_ok hf k (2 ^ BITLENGTH) n [r[n].id_ % 2 ^ BITLENGTH] hn (by simp; decide) (by simp)
  have hlen : path.length ≤ 2 ^ BITLENGTH + 2 :=
    findLoop_path_le r k _ _ _ _ (by simp; decide) hloop
  have hloop1 := findLoop_mono r k _ _ _ _ hloop
  unfold find
  simp only [getNode_of_lt hn, bind, Except.bind]
  cases hk : mapFind r[n].localKeys_ k with
  | some v =>
      refine ⟨v, _, rfl, by simp, ?_⟩
      intro h
      rw [hks, hk] at h
      cases h
  | none =>
      simp only [hloop1]
      cases resp with
      | none =>
          exact ⟨NONE_VALUE, path, rfl, hlen,
            fun _ => ⟨none, by rw [hid]; exact hloop, fun _ => rfl⟩⟩
      | some p =>
          have hp := hresp p rfl
          simp only [getNode_of_lt hp]
          cases hk2 : mapFind r[p].localKeys_ k with
          | some v =>
              exact ⟨v, path, rfl, hlen, fun _ => ⟨some p, by rw [hid]; exact hloop,
                fun h => by cases h⟩⟩
          | none =>
              exact ⟨NONE_VALUE, path, rfl, hlen, fun _ => ⟨some p, by rw [hid]; exact hloop,
                fun h => by cases h⟩⟩

/-- Node 0 of the stabilized ring 0, 1, 30 looking up key 30 is an instance of C12. -/
theorem find_terminates_witness :
    (FingersSet ring0_1_30 ∧ 0 < ring0_1_30.length) ∧
    ∃ v path, find ring0_1_30 0 30 = .ok (v, path) ∧ path.length ≤ 2 ^ BITLENGTH + 2 ∧
      (mapFind (keysOf ring0_1_30 0) 30 = none →
        ∃ resp, findLoop ring0_1_30 30 (2 ^ BITLENGTH) 0
            [idOf ring0_1_30 0 % 2 ^ BITLENGTH] = .ok (resp, path) ∧
          (resp = none → v = NONE_VALUE)) :=
  ⟨by decide, find_terminates ring0_1_30 0 30 (by decide) (by decide)⟩

/-- C14: with all finger entries set, find of a key that no store holds returns
NONE_VALUE, and the ring after the call is the ring before it. -/
theorem find_absent (r : Ring) (n k : Nat) (hf : FingersSet r) (hn : n < r.length)
    (habs : ∀ q, q < r.length → mapFind (keysOf r q) k = none) :
    ∃ path, findRun r n k = .ok ((NONE_VALUE, path), r) := by
  have hme : r[n]? = some r[n] := List.getElem?_eq_getElem hn
  have hk := habs n hn
  rw [keysOf_of_getElem? hme] at hk
  obtain ⟨resp, path, hloop, hresp⟩ :=
    findLoop_ok hf k (2 ^ BITLENGTH + 1) n [r[n].id_ % 2 ^ BITLENGTH] hn (by simp; decide)
      (by simp; omega)
  refine ⟨path, ?_⟩
  rw [findRun_eq]
  unfold find
  simp only [getNode_of_lt hn, bind, Except.bind, hk, hloop]
  cases resp with
  | none => rfl
  | some p =>
      have hp := hresp p rfl
      have hkp := habs p hp
      rw [keysOf_of_getElem? (List.getElem?_eq_getElem hp)] at hkp
      simp only [getNode_of_lt hp, hkp]
      rfl

/-- Node 0 of the ring of main() looking up key 7, which nobody holds, is an instance of C14. -/
theorem find_absent_witness :
    (FingersSet ring7 ∧ 0 < ring7.length ∧
      ∀ q, q < ring7.length → mapFind (keysOf ring7 q) 7 = none) ∧
    ∃ path, findRun ring7 0 7 = .ok ((NONE_VALUE, path), ring7) :=
  ⟨by decide, find_absent ring7 0 7 (by decide) (by decide) (by decide)⟩

set_option maxRecDepth 100000 in
/-- In the stabilized ring 0, 1, 30 the lookup of key 30 from node 0 goes
0, 30, 0, 30, ... until the path has 2^BITLENGTH + 1 entries, is stopped by the
loop check and returns NONE_VALUE. -/
theorem find_hits_loop_check :
    (find ring0_1_30 0 30).map (fun res => (res.1, res.2.length, res.2.take 4)) =
      .ok (NONE_VALUE, 2 ^ BITLENGTH + 1, [0, 30, 0, 30]) := by
  decide

theorem route_getElem {r r' : Ring} (h : r'.map Node.route = r.map Node.route) (p : Nat) :
    (r'[p]? = none ∧ r[p]? = none) ∨
      ∃ a b, r'[p]? = some a ∧ r[p]? = some b ∧ a.id_ = b.id_ ∧
        a.fingerTable_ = b.fingerTable_ := by
  have hq := congrArg (fun l => l[p]?) h
  simp only [List.getElem?_map] at hq
  cases h1 : r'[p]? <;> cases h2 : r[p]? <;> simp [h1, h2, Node.route] at hq ⊢
  exact hq

theorem getNodePtr_congr {a b : Node} (h : a.fingerTable_ = b.fingerTable_) (i : Nat) :
    a.getNodePtr i = b.getNodePtr i := by
  unfold Node.getNodePtr; rw [h]

/-- closestPrecedingFinger reads identifiers and finger tables only. -/
theorem closestPrecedingFingerFrom_congr {r r' : Ring}
    (h : r'.map Node.route = r.map Node.route) (n id : Nat) :
    ∀ i, closestPrecedingFingerFrom r' n id i = closestPrecedingFingerFrom r n id i := by
  intro i
  induction i with
  | zero => rfl
  | succ i ih =>
      unfold closestPrecedingFingerFrom
      rcases route_getElem h n with ⟨e1, e2⟩ | ⟨a, b, e1, e2, hid, hft⟩
      · simp [getNode, e1, e2, bind, Except.bind]
      · simp only [getNode, e1, e2, bind, Except.bind, getNodePtr_congr hft]
        cases hf : b.getNodePtr (i + 1) with
        | none => rfl
        | some f =>
            simp only [nonNull]
            rcases route_getElem h f with ⟨f1, f2⟩ | ⟨fa, fb, f1, f2, hfid, _⟩
            · simp [f1, f2]
            · simp only [f1, f2, hid, hfid, ih]

theorem closestPrecedingFinger_congr {r r' : Ring}
    (h : r'.map Node.route = r.map Node.route) (n id : Nat) :
    closestPrecedingFinger r' n id = closestPrecedingFinger r n id :=
  closestPrecedingFingerFrom_congr h n id BITLENGTH

theorem deref_route_congr {r r' : Ring} (h : r'.map Node.route = r.map Node.route)
    (p : Option Nat) :
    (deref r' p).map (·.id_) = (deref r p).map (·.id_) := by
  cases p with
  | none => rfl
  | some q =>
      rcases route_getElem h q with ⟨e1, e2⟩ | ⟨a, b, e1, e2, hid, _⟩
      · simp [deref, getNode, e1, e2]
      · simp [deref, getNode, e1, e2, Except.map, hid]

/-- findPredecessor reads identifiers and finger tables only. -/
theorem findPredecessorLoop_congr {r r' : Ring}
    (h : r'.map Node.route = r.map Node.route) (this id : Nat) :
    ∀ fuel n, findPredecessorLoop r' this id fuel n = findPredecessorLoop r this id fuel n := by
  intro fuel
  induction fuel with
  | zero => intro n; rfl
  | succ f ih =>
      intro n
      unfold findPredecessorLoop
      rw [closestPrecedingFinger_congr h]
      rcases route_getElem h n with ⟨e1, e2⟩ | ⟨a, b, e1, e2, hid, hft⟩
      · simp [getNode, e1, e2, bind, Except.bind]
      · simp only [getNode, e1, e2, bind, Except.bind, getNodePtr_congr hft 1]
        have hd := deref_route_congr h (b.getNodePtr 1)
        cases h1 : deref r' (b.getNodePtr 1) <;> cases h2 : deref r (b.getNodePtr 1) <;>
          simp [h1, h2, Except.map] at hd ⊢
        · exact hd
        · simp only [hid, hd, ih]

/-- findSuccessor reads identifiers and finger tables only. -/
theorem findSuccessor_congr {r r' : Ring}
    (h : r'.map Node.route = r.map Node.route) (fuel n id : Nat) :
    findSuccessor fuel r' n id = findSuccessor fuel r n id := by
  unfold findSuccessor findPredecessor
  rw [findPredecessorLoop_congr h]
  rcases route_getElem h n with ⟨e1, e2⟩ | ⟨a, b, e1, e2, hid, hft⟩
  · simp [getNode, e1, e2, bind, Except.bind]
  · simp only [getNode, e1, e2, bind, Except.bind, getNodePtr_congr hft 1]
    split_ifs with hs
    · rfl
    · cases hf : b.getNodePtr 1 with
      | none => rfl
      | some s =>
          simp only [nonNull]
          rcases route_getElem h s with ⟨f1, f2⟩ | ⟨fa, fb, f1, f2, hfid, _⟩
          · simp [f1, f2]
          · simp only [f1, f2, hid, hfid]
            split_ifs
            · rfl
            · cases hp : findPredecessorLoop r n id fuel n with
              | error e => rfl
              | ok p =>
                  simp only
                  rcases route_getElem h p with ⟨g1, g2⟩ | ⟨pa, pb, g1, g2, _, hpft⟩
                  · simp [g1, g2]
                  · simp only [g1, g2, getNodePtr_congr hpft 1]

theorem mapSet_mapSet (m : List (Nat × Nat)) (k v1 v2 : Nat) :
    mapSet (mapSet m k v1) k v2 = mapSet m k v2 := by
  induction m with
  | nil => simp [mapSet]
  | cons a l ih =>
      obtain ⟨a1, a2⟩ := a
      by_cases h1 : a1 = k
      · simp [mapSet, h1]
      · by_cases h2 : k < a1
        · simp [mapSet, h1, h2]
        · simp [mapSet, h1, h2, ih]

theorem mapErase_mapSet (m : List (Nat × Nat)) (k v : Nat) (h : mapFind m k = none) :
    mapErase (mapSet m k v) k = m := by
  induction m with
  | nil => simp [mapSet, mapErase]
  | cons a l ih =>
      obtain ⟨a1, a2⟩ := a
      by_cases h1 : a1 = k
      · simp [mapFind, h1] at h
      · have hl : mapFind l k = none := by simpa [mapFind, h1] using h
        by_cases h2 : k < a1
        · simp [mapSet, mapErase, h1, h2]
        · simp [mapSet, mapErase, h1, h2, ih hl]

theorem route_of_keys {r : Ring} {p : Nat} {rn : Node} (hrn : r[p]? = some rn)
    (m : List (Nat × Nat)) :
    (putNode r p { rn with localKeys_ := m }).map Node.route = r.map Node.route :=
  map_putNode_same Node.route hrn rfl

/-- C17: when insert(k, v) at node n returns, the store of the node that
findSuccessor(k) names maps k to v and is otherwise as before, nothing else in
the ring has changed, an earlier insert(k, v1) makes no difference, and
insert(k) is insert(k, NONE_VALUE). -/
theorem insert_spec (fuel : Nat) (r r' : Ring) (n k v : Nat)
    (h : insert fuel r n k v = .ok r') :
    ∃ p rn, findSuccessor fuel r n k = .ok p ∧ r[p]? = some rn ∧
      mapFind (keysOf r' p) k = some v ∧
      (∀ k', k' ≠ k → mapFind (keysOf r' p) k' = mapFind (keysOf r p) k') ∧
      (∀ q, q ≠ p → r'[q]? = r[q]?) ∧
      r'.map Node.shell = r.map Node.shell ∧
      (∀ v1, (insert fuel r n k v1 >>= fun r1 => insert fuel r1 n k v) = .ok r') ∧
      insertKey fuel r n k = insert fuel r n k NONE_VALUE := by
  unfold insert at h
  simp only [bind_eq_ok, getNode_eq_ok] at h
  obtain ⟨p, hp, rn, hrn, h⟩ := h
  have hr' := (Except.ok.inj h).symm
  subst hr'
  refine ⟨p, rn, hp, hrn, ?_, ?_, ?_, ?_, ?_, rfl⟩
  · rw [keysOf_of_getElem? (getElem?_putNode_self hrn)]
    simp [mapFind_mapSet]
  · intro k' hk'
    rw [keysOf_of_getElem? (getElem?_putNode_self hrn), keysOf_of_getElem? hrn]
    simp [mapFind_mapSet, Ne.symm hk']
  · intro q hq
    exact getElem?_putNode_ne (Ne.symm hq)
  · exact map_putNode_same Node.shell hrn rfl
  · intro v1
    have e1 : insert fuel r n k v1 =
        .ok (putNode r p { rn with localKeys_ := mapSet rn.localKeys_ k v1 }) := by
      unfold insert
      simp only [hp, getNode_eq_ok.2 hrn, bind, Except.bind]
    have e2 : findSuccessor fuel
        (putNode r p { rn with localKeys_ := mapSet rn.localKeys_ k v1 }) n k = .ok p := by
      rw [findSuccessor_congr (route_of_keys hrn _), hp]
    rw [e1]
    show insert fuel (putNode r p { rn with localKeys_ := mapSet rn.localKeys_ k v1 }) n k v = _
    unfold insert
    simp only [e2, getNode_eq_ok.2 (getElem?_putNode_self hrn), bind, Except.bind,
      putNode_putNode, mapSet_mapSet]

/-- insert(46, 9) at node 110 of the ring of main() is an instance of C17. -/
theorem insert_spec_witness :
    insert 3 ring7 3 46 9 = .ok (putNode ring7 2
      (mkNode 65 [6, 6, 6, 6, 6, 6, 4, 5] 1 [(45, 3), (46, 9), (50, 8), (60, 10)])) ∧
    ∃ p rn, findSuccessor 3 ring7 3 46 = .ok p ∧ ring7[p]? = some rn ∧
      mapFind (keysOf (putNode ring7 2
        (mkNode 65 [6, 6, 6, 6, 6, 6, 4, 5] 1 [(45, 3), (46, 9), (50, 8), (60, 10)])) p) 46 =
        some 9 ∧
      (∀ k', k' ≠ 46 → mapFind (keysOf (putNode ring7 2
        (mkNode 65 [6, 6, 6, 6, 6, 6, 4, 5] 1 [(45, 3), (46, 9), (50, 8), (60, 10)])) p) k' =
        mapFind (keysOf ring7 p) k') ∧
      (∀ q, q ≠ p → (putNode ring7 2
        (mkNode 65 [6, 6, 6, 6, 6, 6, 4, 5] 1 [(45, 3), (46, 9), (50, 8), (60, 10)]))[q]? =
        ring7[q]?) ∧
      (putNode ring7 2
        (mkNode 65 [6, 6, 6, 6, 6, 6, 4, 5] 1 [(45, 3), (46, 9), (50, 8), (60, 10)])).map
        Node.shell = ring7.map Node.shell ∧
      (∀ v1, (insert 3 ring7 3 46 v1 >>= fun r1 => insert 3 r1 3 46 9) = .ok (putNode ring7 2
        (mkNode 65 [6, 6, 6, 6, 6, 6, 4, 5] 1 [(45, 3), (46, 9), (50, 8), (60, 10)]))) ∧
      insertKey 3 ring7 3 46 = insert 3 ring7 3 46 NONE_VALUE :=
  ⟨by decide, insert_spec 3 ring7 _ 3 46 9 (by decide)⟩

/-- C18: when remove(k) at node n returns, the store of the node that
findSuccessor(k) names no longer holds k (a std::map has no duplicate keys) and
is otherwise as before, nothing else has changed; when that node did not hold k
the state is unchanged, and insert(k, v) followed by remove(k) gives back the
original state. -/
theorem remove_spec (fuel : Nat) (r r' : Ring) (n k : Nat)
    (h : remove fuel r n k = .ok r') :
    ∃ p rn, findSuccessor fuel r n k = .ok p ∧ r[p]? = some rn ∧
      ((rn.localKeys_.map Prod.fst).Nodup → mapFind (keysOf r' p) k = none) ∧
      (∀ k', k' ≠ k → mapFind (keysOf r' p) k' = mapFind (keysOf r p) k') ∧
      (∀ q, q ≠ p → r'[q]? = r[q]?) ∧
      r'.map Node.shell = r.map Node.shell ∧
      (mapFind rn.localKeys_ k = none →
        r' = r ∧ ∀ v, (insert fuel r n k v >>= fun r1 => remove fuel r1 n k) = .ok r) := by
  unfold remove at h
  simp only [bind_eq_ok, getNode_eq_ok] at h
  obtain ⟨p, hp, rn, hrn, h⟩ := h
  refine ⟨p, rn, hp, hrn, ?_⟩
  cases hk : mapFind rn.localKeys_ k with
  | none =>
      rw [hk] at h
      have hr' := (Except.ok.inj h).symm
      subst hr'
      refine ⟨fun _ => by rw [keysOf_of_getElem? hrn, hk], fun _ _ => rfl, fun _ _ => rfl,
        rfl, fun _ => ⟨rfl, fun v => ?_⟩⟩
      have e1 : insert fuel r' n k v =
          .ok (putNode r' p { rn with localKeys_ := mapSet rn.localKeys_ k v }) := by
        unfold insert
        simp only [hp, getNode_eq_ok.2 hrn, bind, Except.bind]
      have e2 : findSuccessor fuel
          (putNode r' p { rn with localKeys_ := mapSet rn.localKeys_ k v }) n k = .ok p := by
        rw [findSuccessor_congr (route_of_keys hrn _), hp]
      rw [e1]
      show remove fuel (putNode r' p { rn with localKeys_ := mapSet rn.localKeys_ k v }) n k = _
      unfold remove
      simp only [e2, getNode_eq_ok.2 (getElem?_putNode_self hrn), bind, Except.bind,
        mapFind_mapSet, if_true, putNode_putNode, mapErase_mapSet _ _ _ hk]
      rw [show ({ rn with localKeys_ := rn.localKeys_ } : Node) = rn from rfl, putNode_self hrn]
  | some v0 =>
      rw [hk] at h
      have hr' := (Except.ok.inj h).symm
      subst hr'
      refine ⟨fun hnd => ?_, fun k' hk' => ?_, fun q hq => getElem?_putNode_ne (Ne.symm hq),
        map_putNode_same Node.shell hrn rfl, fun hc => by cases hc⟩
      · rw [keysOf_of_getElem? (getElem?_putNode_self hrn)]
        exact mapFind_mapErase_self _ _ hnd
      · rw [keysOf_of_getElem? (getElem?_putNode_self hrn), keysOf_of_getElem? hrn]
        exact mapFind_mapErase_ne _ _ _ hk'

/-- remove(45) at node 110 of the ring of main() is an instance of C18. -/
theorem remove_spec_witness :
    remove 3 ring7 3 45 = .ok (putNode ring7 2
      (mkNode 65 [6, 6, 6, 6, 6, 6, 4, 5] 1 [(50, 8), (60, 10)])) ∧
    ∃ p rn, findSuccessor 3 ring7 3 45 = .ok p ∧ ring7[p]? = some rn ∧
      ((rn.localKeys_.map Prod.fst).Nodup → mapFind (keysOf (putNode ring7 2
        (mkNode 65 [6, 6, 6, 6, 6, 6, 4, 5] 1 [(50, 8), (60, 10)])) p) 45 = none) ∧
      (∀ k', k' ≠ 45 → mapFind (keysOf (putNode ring7 2
        (mkNode 65 [6, 6, 6, 6, 6, 6, 4, 5] 1 [(50, 8), (60, 10)])) p) k' =
        mapFind (keysOf ring7 p) k') ∧
      (∀ q, q ≠ p → (putNode ring7 2
        (mkNode 65 [6, 6, 6, 6, 6, 6, 4, 5] 1 [(50, 8), (60, 10)]))[q]? = ring7[q]?) ∧
      (putNode ring7 2 (mkNode 65 [6, 6, 6, 6, 6, 6, 4, 5] 1 [(50, 8), (60, 10)])).map
        Node.shell = ring7.map Node.shell ∧
      (mapFind rn.localKeys_ 45 = none →
        putNode ring7 2 (mkNode 65 [6, 6, 6, 6, 6, 6, 4, 5] 1 [(50, 8), (60, 10)]) = ring7 ∧
        ∀ v, (insert 3 ring7 3 45 v >>= fun r1 => remove 3 r1 3 45) = .ok ring7) :=
  ⟨by decide, remove_spec 3 ring7 _ 3 45 (by decide)⟩

theorem foldlM_preserves_mem {α β : Type} (step : β → α → Except Fault β) (P : β → Prop)
    (l : List α) (hstep : ∀ b a b', a ∈ l → P b → step b a = .ok b' → P b') :
    ∀ (b b' : β), P b → l.foldlM step b = .ok b' → P b' := by
  induction l with
  | nil =>
      intro b b' hb h
      simp only [List.foldlM, pure, Except.pure, Except.ok.injEq] at h
      exact h ▸ hb
  | cons a l ih =>
      intro b b' hb h
      rw [List.foldlM_cons, bind_eq_ok] at h
      obtain ⟨b1, h1, h2⟩ := h
      exact ih (fun b a' b' ha => hstep b a' b' (List.mem_cons_of_mem a ha)) b1 b'
        (hstep b a b1 (List.mem_cons_self a l) hb h1) h2

theorem shell_eq_of_map {r r' : Ring} (h : r'.map Node.shell = r.map Node.shell) (q i : Nat) :
    idOf r' q = idOf r q ∧ fingerOf r' q i = fingerOf r q i ∧ predOf r' q = predOf r q := by
  have hq := congrArg (fun l => l[q]?) h
  simp only [List.getElem?_map] at hq
  unfold idOf fingerOf predOf Node.getNodePtr
  cases h1 : r'[q]? <;> cases h2 : r[q]? <;> simp [h1, h2, Node.shell] at hq ⊢
  exact ⟨hq.1, by rw [hq.2.1], hq.2.2.1⟩

/-- The node findSuccessor returns is the asking node or some node's finger entry 1. -/
theorem findSuccessor_result {fuel n id s : Nat} {r : Ring}
    (h : findSuccessor fuel r n id = .ok s) :
    (s = n ∧ fingerOf r n 1 = some n) ∨ ∃ q, q < r.length ∧ fingerOf r q 1 = some s := by
  unfold findSuccessor at h
  simp only [bind_eq_ok, getNode_eq_ok] at h
  obtain ⟨me, hme, h⟩ := h
  split_ifs at h with hs
  · left
    exact ⟨(Except.ok.inj h).symm, by simp [fingerOf, hme, hs]⟩
  · right
    simp only [bind_eq_ok, getNode_eq_ok, nonNull_eq_ok] at h
    obtain ⟨s1, hs1, sn, _, h⟩ := h
    split_ifs at h
    · have := Except.ok.inj h
      subst this
      exact ⟨n, lt_length_of_getElem? hme, by simp [fingerOf, hme, hs1]⟩
    · simp only [bind_eq_ok, getNode_eq_ok, nonNull_eq_ok] at h
      obtain ⟨p, _, pn, hpn, h⟩ := h
      exact ⟨p, lt_length_of_getElem? hpn, by simp [fingerOf, hpn, h]⟩

/-- Node::updateFingerTable started at a node other than the candidate never
writes to the candidate and changes finger tables only. -/
theorem updateFingerTable_frame (s i : Nat) :
    ∀ (fuel : Nat) (r r' : Ring) (n : Nat), n ≠ s → updateFingerTable s i fuel r n = .ok r' →
      r'.map Node.core = r.map Node.core ∧ r'[s]? = r[s]? := by
  intro fuel
  induction fuel with
  | zero => intro r r' n _ h; simp [updateFingerTable] at h
  | succ f ih =>
      intro r r' n hns h
      unfold updateFingerTable at h
      simp only [bind_eq_ok, getNode_eq_ok] at h
      obtain ⟨me, hme, take, _, h⟩ := h
      cases take with
      | false =>
          simp only [Bool.false_eq_true, if_false, Except.ok.injEq] at h
          subst h
          exact ⟨rfl, rfl⟩
      | true =>
          simp only [if_true] at h
          have c1 : (putNode r n (me.setFinger i (some s))).map Node.core = r.map Node.core :=
            map_putNode_same Node.core hme rfl
          have s1 : (putNode r n (me.setFinger i (some s)))[s]? = r[s]? :=
            getElem?_putNode_ne hns
          cases hp : me.predecessor_ with
          | none =>
              rw [hp] at h
              simp only [Except.ok.injEq] at h
              subst h
              exact ⟨c1, s1⟩
          | some p =>
              rw [hp] at h
              simp only at h
              split_ifs at h with hg
              · obtain ⟨c2, s2⟩ := ih _ _ p hg.2 h
                exact ⟨c2.trans c1, s2.trans s1⟩
              · simp only [Except.ok.injEq] at h
                subst h
                exact ⟨c1, s1⟩

theorem updateOthers_frame {fuel X : Nat} {r r' : Ring} (h : updateOthers fuel r X = .ok r') :
    r'.map Node.core = r.map Node.core ∧ r'[X]? = r[X]? := by
  unfold updateOthers at h
  refine foldlM_preserves (updateOthersStep fuel X)
    (fun b => b.map Node.core = r.map Node.core ∧ b[X]? = r[X]?) ?_ _ r r' ⟨rfl, rfl⟩ h
  intro b a b' hb hs
  unfold updateOthersStep at hs
  simp only [bind_eq_ok, getNode_eq_ok] at hs
  obtain ⟨me, _, p, _, hs⟩ := hs
  split_ifs at hs with hp
  · obtain ⟨c, s⟩ := updateFingerTable_frame X a fuel b b' p hp hs
    exact ⟨c.trans hb.1, s.trans hb.2⟩
  · simp only [Except.ok.injEq] at hs
    subst hs
    exact hb

theorem transferKey_shell {r r' : Ring} {s k t : Nat} (h : transferKey r s k t = .ok r') :
    r'.map Node.shell = r.map Node.shell := by
  unfold transferKey at h
  simp only [bind_eq_ok, getNode_eq_ok] at h
  obtain ⟨me, _, h⟩ := h
  cases hk : mapFind me.localKeys_ k with
  | none =>
      rw [hk] at h
      simp only [Except.ok.injEq] at h
      subst h; rfl
  | some v =>
      rw [hk] at h
      simp only [bind_eq_ok, getNode_eq_ok] at h
      obtain ⟨tn, htn, me1, hme1, h⟩ := h
      simp only [Except.ok.injEq] at h
      subst h
      have e1 : (putNode r t { tn with localKeys_ := mapSet tn.localKeys_ k v }).map
          Node.shell = r.map Node.shell := map_putNode_same Node.shell htn rfl
      have e2 : (putNode (putNode r t { tn with localKeys_ := mapSet tn.localKeys_ k v }) s
          { me1 with localKeys_ := mapErase me1.localKeys_ k }).map Node.shell =
          (putNode r t { tn with localKeys_ := mapSet tn.localKeys_ k v }).map Node.shell :=
        map_putNode_same Node.shell hme1 rfl
      exact e2.trans e1

theorem transferKeys_shell (this src : Nat) :
    ∀ (ks : List Nat) (r r' : Ring), transferKeys this src r ks = .ok r' →
      r'.map Node.shell = r.map Node.shell := by
  intro ks
  induction ks with
  | nil =>
      intro r r' h
      simp only [transferKeys, Except.ok.injEq] at h
      subst h; rfl
  | cons k ks ih =>
      intro r r' h
      unfold transferKeys at h
      simp only [bind_eq_ok] at h
      obtain ⟨r1, h1, h2⟩ := h
      exact (ih r1 r' h2).trans (transferKey_shell h1)

theorem moveKeys_shell {r r' : Ring} {this succ : Nat} (h : moveKeys r this succ = .ok r') :
    r'.map Node.shell = r.map Node.shell := by
  unfold moveKeys at h
  simp only [bind_eq_ok] at h
  obtain ⟨_, _, ks, _, h⟩ := h
  exact transferKeys_shell _ _ ks r r' h

theorem checkAllNodesLoop_shell (this : Nat) :
    ∀ (fuel : Nat) (r r' : Ring) (cur : Option Nat) (vis : List (Option Nat)),
      checkAllNodesLoop this fuel r cur vis = .ok r' →
      r'.map Node.shell = r.map Node.shell := by
  intro fuel
  induction fuel with
  | zero => intro r r' cur vis h; simp [checkAllNodesLoop] at h
  | succ f ih =>
      intro r r' cur vis h
      unfold checkAllNodesLoop at h
      split_ifs at h
      · simp only [bind_eq_ok] at h
        obtain ⟨c, _, cn, _, ks, _, r1, h1, cn1, _, h2⟩ := h
        exact (ih _ _ _ _ h2).trans (transferKeys_shell _ _ ks r r1 h1)
      · simp only [Except.ok.injEq] at h
        subst h; rfl

theorem checkAllNodesForKeys_shell {fuel this : Nat} {r r' : Ring}
    (h : checkAllNodesForKeys fuel r this = .ok r') :
    r'.map Node.shell = r.map Node.shell := by
  unfold checkAllNodesForKeys at h
  simp only [bind_eq_ok] at h
  obtain ⟨me, _, h⟩ := h
  split_ifs at h
  · simp only [Except.ok.injEq] at h
    subst h; rfl
  · exact checkAllNodesLoop_shell _ _ _ _ _ _ h

theorem joinInitStep_frame {fuel X peer i : Nat} {r r' : Ring} (hi : 1 ≤ i)
    (h : joinInitStep fuel X peer r i = .ok r') :
    r'.map Node.core = r.map Node.core ∧ fingerOf r' X 1 = fingerOf r X 1 := by
  unfold joinInitStep at h
  simp only [bind_eq_ok, getNode_eq_ok] at h
  obtain ⟨me, hme, fi, _, h⟩ := h
  have key : ∀ w, (putNode r X (me.setFinger (i + 1) w)).map Node.core = r.map Node.core ∧
      fingerOf (putNode r X (me.setFinger (i + 1) w)) X 1 = fingerOf r X 1 := by
    intro w
    refine ⟨map_putNode_same Node.core hme rfl, ?_⟩
    simp only [fingerOf, getElem?_putNode_self hme, hme, Option.some_bind]
    exact getNodePtr_setFinger_ne _ _ _ _ (by omega)
  split_ifs at h
  · simp only [Except.ok.injEq] at h
    subst h
    exact key _
  · simp only [bind_eq_ok] at h
    obtain ⟨f, _, h⟩ := h
    simp only [Except.ok.injEq] at h
    subst h
    exact key _

/-- The part of join before updateOthers: finger entry 1 of the new node is
the node `s` that the peer's findSuccessor names, and the new node is put into
the predecessor chain in front of `s`. -/
theorem joinInit_links {fuel X peer : Nat} {r r1 : Ring} {me : Node} (hme : r[X]? = some me)
    (h : joinInit fuel r X peer = .ok r1) :
    ∃ s, findSuccessor fuel r peer me.id_ = .ok s ∧ fingerOf r1 X 1 = some s ∧
      (s ≠ X → predOf r1 X = predOf r s ∧ predOf r1 s = some X) ∧
      ∀ q, q ≠ X → q ≠ s → predOf r1 q = predOf r q := by
  unfold joinInit at h
  simp only [bind_eq_ok, getNode_eq_ok, nonNull_eq_ok] at h
  obtain ⟨me', hme', s, hs, ra, hra, me2, hme2, succ, hsucc, sn, hsn, sn3, hsn3, h⟩ := h
  rw [hme] at hme'
  cases hme'
  simp only [Except.ok.injEq] at h
  subst h
  -- the finger initialisation loop changes finger entries 2.. of X only
  have hloop : ra.map Node.core = (putNode r X (me.setFinger 1 (some s))).map Node.core ∧
      fingerOf ra X 1 = fingerOf (putNode r X (me.setFinger 1 (some s))) X 1 := by
    refine foldlM_preserves_mem (joinInitStep fuel X peer)
      (fun b => b.map Node.core = (putNode r X (me.setFinger 1 (some s))).map Node.core ∧
        fingerOf b X 1 = fingerOf (putNode r X (me.setFinger 1 (some s))) X 1)
      (List.range' 1 (BITLENGTH - 1)) ?_ _ _ ⟨rfl, rfl⟩ hra
    intro b a b' ha hb hstep
    have ha1 : 1 ≤ a := by
      simp only [List.mem_range'_1] at ha; omega
    obtain ⟨c, f⟩ := joinInitStep_frame ha1 hstep
    exact ⟨c.trans hb.1, f.trans hb.2⟩
  have hcore0 : (putNode r X (me.setFinger 1 (some s))).map Node.core = r.map Node.core :=
    map_putNode_same Node.core hme rfl
  have hcore : ra.map Node.core = r.map Node.core := hloop.1.trans hcore0
  have hss : succ = s := by
    have h1 : fingerOf ra X 1 = some succ := by simp [fingerOf, hme2, hsucc]
    rw [hloop.2] at h1
    simp only [fingerOf, getElem?_putNode_self hme, Option.some_bind,
      getNodePtr_setFinger_self] at h1
    split_ifs at h1
    exact (Option.some.inj h1).symm
  subst hss
  have hpsn : sn.predecessor_ = predOf r succ := by
    rw [← (core_eq_of_map hcore succ).2.2]
    simp [predOf, hsn]
  refine ⟨succ, hs, ?_, ?_, ?_⟩
  · by_cases hx : succ = X
    · subst hx
      simp only [fingerOf, getElem?_putNode_self hsn3, Option.some_bind]
      rw [getElem?_putNode_self hme2] at hsn3
      cases hsn3
      exact hsucc
    · simp only [fingerOf, getElem?_putNode_ne hx, getElem?_putNode_self hme2,
        Option.some_bind]
      exact hsucc
  · intro hx
    constructor
    · simp only [predOf, getElem?_putNode_ne hx, getElem?_putNode_self hme2,
        Option.some_bind]
      exact hpsn
    · simp only [predOf, getElem?_putNode_self hsn3, Option.some_bind]
  · intro q hqX hqs
    simp only [predOf, getElem?_putNode_ne (Ne.symm hqs), getElem?_putNode_ne (Ne.symm hqX)]
    exact (core_eq_of_map hcore q).2.2

/-- C16: when join through a ring member returns for a detached node X, X's
finger entry 1 is the node s that the peer's findSuccessor(X.id) names on the
state before the join, X's predecessor is the predecessor s had before, the
predecessor of s is X, and no other predecessor has changed. -/
theorem join_links (fuel X peer : Nat) (r r' : Ring) (hdet : Detached r X)
    (h : join fuel r X (some peer) = .ok r') :
    ∃ s, findSuccessor fuel r peer (idOf r X) = .ok s ∧ s ≠ X ∧
      fingerOf r' X 1 = some s ∧ predOf r' X = predOf r s ∧ predOf r' s = some X ∧
      ∀ q, q ≠ X → q ≠ s → predOf r' q = predOf r q := by
  unfold join at h
  simp only [bind_eq_ok, getNode_eq_ok, nonNull_eq_ok] at h
  obtain ⟨me, hme, r1, hr1, r2, hr2, me2, _, succ, _, r3, hr3, r4, hr4, me4, _, _, _, h⟩ := h
  have hr' : r' = r4 := (Except.ok.inj h).symm
  subst hr'
  obtain ⟨s, hs, hf1, hpred, hothers⟩ := joinInit_links hme hr1
  have hid : idOf r X = me.id_ := by simp [idOf, hme]
  -- a detached node is not what findSuccessor names
  have hsX : s ≠ X := by
    intro hx
    subst hx
    have h18 : (1 : Nat) ∈ List.range' 1 BITLENGTH := by decide
    rcases findSuccessor_result hs with ⟨hsp, hself⟩ | ⟨q, hq, hfq⟩
    · have hx1 := hdet.1 1 h18
      rw [← hsp, hx1] at hself
      cases hself
    · exact (hdet.2.2 q hq).1 1 h18 hfq
  obtain ⟨c2, x2⟩ := updateOthers_frame hr2
  have sh : r'.map Node.shell = r2.map Node.shell :=
    (checkAllNodesForKeys_shell hr4).trans (moveKeys_shell hr3)
  have hpredeq : ∀ q, predOf r' q = predOf r1 q := fun q =>
    ((shell_eq_of_map sh q 1).2.2).trans ((core_eq_of_map c2 q).2.2)
  refine ⟨s, hid ▸ hs, hsX, ?_, ?_, ?_, ?_⟩
  · rw [(shell_eq_of_map sh X 1).2.1]
    have : fingerOf r2 X 1 = fingerOf r1 X 1 := by simp only [fingerOf, x2]
    rw [this, hf1]
  · rw [hpredeq, (hpred hsX).1]
  · rw [hpredeq, (hpred hsX).2]
  · intro q hqX hqs
    rw [hpredeq, hothers q hqX hqs]

/-- Node 100 joining the ring of main() through node 110 is an instance of C16. -/
theorem join_links_witness :
    (Detached ring6_new100 6 ∧ join 8 ring6_new100 6 (some 3) = .ok ring7) ∧
    ∃ s, findSuccessor 8 ring6_new100 3 (idOf ring6_new100 6) = .ok s ∧ s ≠ 6 ∧
      fingerOf ring7 6 1 = some s ∧ predOf ring7 6 = predOf ring6_new100 s ∧
      predOf ring7 s = some 6 ∧
      ∀ q, q ≠ 6 → q ≠ s → predOf ring7 q = predOf ring6_new100 q :=
  ⟨by decide, join_links 8 6 3 ring6_new100 ring7 (by decide) (by decide)⟩

theorem updateFingerTable_cycle (fuel : Nat) :
    updateFingerTable 3 1 fuel ring4_5_joining1_updated 2 = .error .outOfFuel ∧
    updateFingerTable 3 1 (fuel + 1) ring4_5_joining1_updated 2 = .error .outOfFuel := by
  induction fuel with
  | zero => exact ⟨rfl, rfl⟩
  | succ f ih =>
      refine ⟨ih.2, ?_⟩
      have step : updateFingerTable 3 1 (f + 1 + 1) ring4_5_joining1_updated 2 =
          updateFingerTable 3 1 f ring4_5_joining1_updated 2 := rfl
      rw [step, ih.1]

/-- C20 (code defect): after node2.join(nullptr), node4.join(node2),
node5.join(node4), node2.leave(), the join of node 1 through node 4 calls
updateFingerTable(node 1, 1) on node 5; the recursion goes 5, 4, 5, 4, ... and
never ends, because the predecessors of 4 and 5 are each other, neither is the
candidate, and inRange(s.id, id_, finger.id) stays true once the finger is s. -/
theorem updateFingerTable_never_returns :
    (do let r ← join 3 [Node.new 2, Node.new 4, Node.new 5, Node.new 1] 0 none
        let r ← join 3 r 1 (some 0)
        let r ← join 3 r 2 (some 1)
        let r ← leave 3 r 0
        joinInit 3 r 3 1 : Except Fault Ring) = .ok ring4_5_joining1 ∧
    findPredecessor 3 ring4_5_joining1 3 (backId 1 1) = .ok 2 ∧
    ∀ fuel, updateFingerTable 3 1 fuel ring4_5_joining1 2 = .error .outOfFuel := by
  refine ⟨by decide, by decide, fun fuel => ?_⟩
  match fuel with
  | 0 => rfl
  | 1 => rfl
  | f + 2 =>
      have step : updateFingerTable 3 1 (f + 2) ring4_5_joining1 2 =
          updateFingerTable 3 1 f ring4_5_joining1_updated 2 := rfl
      rw [step]
      exact (updateFingerTable_cycle f).1

theorem no_node_between (x y z : Nat) (hx : x < 256) (hy : y < 256) (hz : z < 256)
    (hzy : z ≠ y) (hzx : z ≠ x)
    (h1 : cwDist z y ≤ cwDist x y) (h2 : cwDist x y ≤ cwDist x z) : False := by
  simp only [cwDist_eq] at h1 h2; omega

/-- C26: in a ring with distinct 8-bit identifiers in which every finger entry
1 is the nearest node clockwise and every predecessor the nearest node
counter-clockwise (one-node ring included), stabilize on any node returns the
state unchanged: no finger entry and no predecessor of any node changes. -/
theorem stabilize_fixed_point (r : Ring) (n : Nat) (hn : n < r.length) (hb : IdsBounded r)
    (hd : DistinctIds r) (hs : SuccNearest r) (hp : PredNearest r) :
    stabilize r n = .ok r := by
  have hb' : ∀ p, p < r.length → idOf r p < 256 := fun p hp => by simpa using hb p hp
  obtain ⟨q, hq, hfq, hsq⟩ := hs n hn
  refine stabilize_fixed_of_linked hd hfq ?_
  obtain ⟨p', hp'l, hpq, hpp⟩ := hp q hq
  by_cases h1 : r.length = 1
  · rw [if_pos h1] at hsq hpp
    rw [hpq, hpp, hsq]
  · rw [if_neg h1] at hsq hpp
    rw [hpq]
    by_contra hne
    have hne' : p' ≠ n := fun h => hne (by rw [h])
    have hid2 : idOf r p' ≠ idOf r q := fun h => hpp.1 (hd p' hp'l q hq h)
    have hid3 : idOf r p' ≠ idOf r n := fun h => hne' (hd p' hp'l n hn h)
    exact no_node_between _ _ _ (hb' n hn) (hb' q hq) (hb' p' hp'l) hid2 hid3
      (hpp.2 n hn (Ne.symm hsq.1)) (hsq.2 p' hp'l hne')

/-- Node 65 of the ring of main() is an instance of C26. -/
theorem stabilize_fixed_point_witness :
    (2 < ring7.length ∧ IdsBounded ring7 ∧ DistinctIds ring7 ∧ SuccNearest ring7 ∧
      PredNearest ring7) ∧ stabilize ring7 2 = .ok ring7 :=
  ⟨by decide, stabilize_fixed_point ring7 2 (by decide) (by decide) (by decide) (by decide)
    (by decide)⟩

theorem idOf_of_lt {r : Ring} {p : Nat} (h : p < r.length) : idOf r p = r[p].id_ := by
  simp [idOf, List.getElem?_eq_getElem h]

theorem fingerOf_of_lt {r : Ring} {p : Nat} (h : p < r.length) (i : Nat) :
    fingerOf r p i = r[p].getNodePtr i := by
  simp [fingerOf, List.getElem?_eq_getElem h]

/-- What the downward scan of closestPrecedingFinger returns: the first finger
from index i down whose identifier passes the inRange test, or the node itself
when none of the fingers i..1 passes. -/
theorem closestPrecedingFingerFrom_spec {r : Ring} (hf : FingersSet r) {n : Nat}
    (hn : n < r.length) (id : Nat) :
    ∀ i, i ≤ BITLENGTH → ∃ q, q < r.length ∧ closestPrecedingFingerFrom r n id i = .ok q ∧
      ((q = n ∧ ∀ j, 1 ≤ j → j ≤ i → ∀ f, fingerOf r n j = some f →
          inRange (idOf r f) (idOf r n) id = false) ∨
       (∃ j, 1 ≤ j ∧ j ≤ i ∧ fingerOf r n j = some q ∧
          inRange (idOf r q) (idOf r n) id = true ∧
          ∀ k, j < k → k ≤ i → ∀ f, fingerOf r n k = some f →
            inRange (idOf r f) (idOf r n) id = false)) := by
  intro i
  induction i with
  | zero => intro _; exact ⟨n, hn, rfl, Or.inl ⟨rfl, fun j h1 h2 => by omega⟩⟩
  | succ i ih =>
      intro hi
      obtain ⟨f, hfl, hff⟩ := finger_of_set hf hn (Nat.succ_le_succ (Nat.zero_le i)) hi
      have hff' : fingerOf r n (i + 1) = some f := by rw [fingerOf_of_lt hn]; exact hff
      unfold closestPrecedingFingerFrom
      simp only [getNode_of_lt hn, getNode_of_lt hfl, hff, nonNull, bind, Except.bind]
      by_cases hc : inRange r[f].id_ r[n].id_ id = true
      · rw [if_pos hc]
        refine ⟨f, hfl, rfl, Or.inr ⟨i + 1, by omega, le_rfl, hff', ?_, fun k h1 h2 => by omega⟩⟩
        rw [idOf_of_lt hfl, idOf_of_lt hn]; exact hc
      · rw [if_neg hc]
        obtain ⟨q, hq, hcq, hcase⟩ := ih (by omega)
        refine ⟨q, hq, hcq, ?_⟩
        have hlast : ∀ g, fingerOf r n (i + 1) = some g →
            inRange (idOf r g) (idOf r n) id = false := by
          intro g hg
          rw [hff'] at hg
          cases hg
          rw [idOf_of_lt hfl, idOf_of_lt hn]
          simpa using hc
        rcases hcase with ⟨h1, h2⟩ | ⟨j, hj1, hj2, hj3, hj4, hj5⟩
        · refine Or.inl ⟨h1, fun j hj1 hj2 g hg => ?_⟩
          by_cases hji : j = i + 1
          · subst hji; exact hlast g hg
          · exact h2 j hj1 (by omega) g hg
        · refine Or.inr ⟨j, hj1, by omega, hj3, hj4, fun k hk1 hk2 g hg => ?_⟩
          by_cases hki : k = i + 1
          · subst hki; exact hlast g hg
          · exact hj5 k hk1 (by omega) g hg

theorem cwDist_int (a b : Nat) (ha : a < 256) (hb : b < 256) :
    ((b : Int) - a) % 2 ^ 8 = (cwDist a b : Nat) := by
  rw [cwDist_eq]; norm_num; omega

/-- C24: for a node n of a ring with 8-bit identifiers and all finger entries
set, and an 8-bit identifier id: when id differs from the identifier of n,
closestPrecedingFinger(id) returns n itself or a node strictly closer to id
clockwise, (id - r.id) mod 2^8 < (id - n.id) mod 2^8; when id is the identifier
of n it returns finger entry 8 whatever that entry is. -/
theorem closestPrecedingFinger_progress (r : Ring) (n : Nat) (hn : n < r.length)
    (hb : IdsBounded r) (hf : FingersSet r) (id : Nat) (hid : id < 2 ^ 8) :
    (id ≠ idOf r n → ∃ q, q < r.length ∧ closestPrecedingFinger r n id = .ok q ∧
      (q = n ∨ ((id : Int) - idOf r q) % 2 ^ 8 < ((id : Int) - idOf r n) % 2 ^ 8)) ∧
    (id = idOf r n → ∃ q, fingerOf r n BITLENGTH = some q ∧
      closestPrecedingFinger r n id = .ok q) := by
  have hb' : ∀ p, p < r.length → idOf r p < 256 := fun p hp => by simpa using hb p hp
  have hid' : id < 256 := by simpa using hid
  obtain ⟨q, hq, hcq, hcase⟩ := closestPrecedingFingerFrom_spec hf hn id BITLENGTH le_rfl
  constructor
  · intro hne
    refine ⟨q, hq, hcq, ?_⟩
    rcases hcase with ⟨h1, _⟩ | ⟨j, _, _, _, hj4, _⟩
    · exact Or.inl h1
    · right
      rw [cwDist_int _ _ (hb' q hq) hid', cwDist_int _ _ (hb' n hn) hid']
      exact_mod_cast (inRange_iff_cwDist_lt _ _ _ (hb' q hq) (hb' n hn) hid'
        (Ne.symm hne)).1 hj4
  · intro he
    obtain ⟨f, hfl, hff⟩ := finger_of_set hf hn (by decide : 1 ≤ BITLENGTH) le_rfl
    have hff' : fingerOf r n BITLENGTH = some f := by rw [fingerOf_of_lt hn]; exact hff
    refine ⟨f, hff', ?_⟩
    rcases hcase with ⟨_, h2⟩ | ⟨j, hj1, hj2, hj3, _, hj5⟩
    · have := h2 BITLENGTH (by decide) le_rfl f hff'
      rw [he] at this
      simp [inRange] at this
    · by_cases hj : j = BITLENGTH
      · rw [hj, hff'] at hj3
        cases hj3
        exact hcq
      · have := hj5 BITLENGTH (by omega) le_rfl f hff'
        rw [he] at this
        simp [inRange] at this

/-- Node 0 of the ring of main() asked for 100 and for its own identifier 0
is an instance of C24. -/
theorem closestPrecedingFinger_progress_witness :
    (0 < ring7.length ∧ IdsBounded ring7 ∧ FingersSet ring7 ∧ 100 < 2 ^ 8) ∧
    ((100 ≠ idOf ring7 0 → ∃ q, q < ring7.length ∧ closestPrecedingFinger ring7 0 100 = .ok q ∧
      (q = 0 ∨ ((100 : Int) - idOf ring7 q) % 2 ^ 8 < ((100 : Int) - idOf ring7 0) % 2 ^ 8)) ∧
    (100 = idOf ring7 0 → ∃ q, fingerOf ring7 0 BITLENGTH = some q ∧
      closestPrecedingFinger ring7 0 100 = .ok q)) :=
  ⟨by decide, closestPrecedingFinger_progress ring7 0 (by decide) (by decide) (by decide) 100
    (by decide)⟩

theorem inRange_flip (id c s : Nat)
    (h : inRange id c s = false) : inRange s c id = true := by
  have h' : ¬ (inRange id c s = true) := by simp [h]
  rw [inRange_true_iff] at h' ⊢
  omega

theorem first_after (x y z id : Nat) (hx : x < 256) (hy : y < 256) (hz : z < 256)
    (hid : id < 256) (h : inRange id x y = true)
    (hmin : cwDist ((x + 1) % 256) y ≤ cwDist ((x + 1) % 256) z) :
    cwDist id y ≤ cwDist id z := by
  rw [inRange_true_iff] at h
  simp only [cwDist_eq] at hmin ⊢
  omega

theorem fingersSet_of_stabilized {r : Ring} (h : FingersStabilized r) : FingersSet r := by
  intro p hp i hi
  obtain ⟨q, hq, hf, _⟩ := h p hp i hi
  exact ⟨q, hq, hf⟩

/-- Routing towards an identifier that is no node's identifier: every round
moves to a node strictly closer to id clockwise, so the loop returns once the
rounds left exceed the number of nodes closer to id than the current one. -/
theorem findPredecessorLoop_ok {r : Ring} (hb : IdsBounded r) (hf : FingersSet r)
    (this id : Nat) (hid : id < 256) (hno : ∀ q, q < r.length → idOf r q ≠ id) :
    ∀ fuel cur, cur < r.length → cwDist (idOf r cur) id ≤ cwDist (idOf r this) id →
      ((Finset.range r.length).filter
        (fun t => cwDist (idOf r t) id < cwDist (idOf r cur) id)).card < fuel →
      ∃ p s, p < r.length ∧ s < r.length ∧ findPredecessorLoop r this id fuel cur = .ok p ∧
        fingerOf r p 1 = some s ∧ inRange id (idOf r p) (idOf r s) = true := by
  have hb' : ∀ p, p < r.length → idOf r p < 256 := fun p hp => by simpa using hb p hp
  intro fuel
  induction fuel with
  | zero => intro cur _ _ h; omega
  | succ fuel ih =>
      intro cur hcur hle hrank
      obtain ⟨s, hsl, hfs1⟩ := finger_of_set hf hcur (le_refl 1) (by decide)
      have hfs1' : fingerOf r cur 1 = some s := by rw [fingerOf_of_lt hcur]; exact hfs1
      unfold findPredecessorLoop
      simp only [getNode_of_lt hcur, hfs1, deref, getNode_of_lt hsl, bind, Except.bind]
      by_cases hc : inRange id r[cur].id_ r[s].id_ = true
      · rw [if_pos hc]
        refine ⟨cur, s, hcur, hsl, rfl, hfs1', ?_⟩
        rw [idOf_of_lt hcur, idOf_of_lt hsl]; exact hc
      · rw [if_neg hc]
        obtain ⟨nx, hnx, hcnx, hcase⟩ :=
          closestPrecedingFingerFrom_spec hf hcur id BITLENGTH le_rfl
        have hcpf : closestPrecedingFinger r cur id = .ok nx := hcnx
        rw [hcpf]
        simp only
        have hprog : cwDist (idOf r nx) id < cwDist (idOf r cur) id := by
          rcases hcase with ⟨_, h2⟩ | ⟨j, _, _, _, hj4, _⟩
          · exfalso
            have h3 := h2 1 le_rfl (by decide) s hfs1'
            have h4 := inRange_flip id (idOf r cur) (idOf r s)
              (by rw [idOf_of_lt hcur, idOf_of_lt hsl]; simpa using hc)
            rw [h4] at h3
            cases h3
          · exact (inRange_iff_cwDist_lt _ _ _ (hb' nx hnx) (hb' cur hcur) hid
              (hno cur hcur)).1 hj4
        have hnt : nx ≠ this := by intro h; subst h; omega
        rw [if_neg hnt]
        refine ih nx hnx (by omega) ?_
        have hsub : (Finset.range r.length).filter
            (fun t => cwDist (idOf r t) id < cwDist (idOf r nx) id) ⊆
            (Finset.range r.length).filter
              (fun t => cwDist (idOf r t) id < cwDist (idOf r cur) id) := by
          intro t ht
          rw [Finset.mem_filter] at ht ⊢
          exact ⟨ht.1, lt_trans ht.2 hprog⟩
        have hss := (Finset.ssubset_iff_of_subset hsub).2
          ⟨nx, Finset.mem_filter.2 ⟨Finset.mem_range.2 hnx, hprog⟩,
            fun h => lt_irrefl _ (Finset.mem_filter.1 h).2⟩
        have := Finset.card_lt_card hss
        omega

theorem closer_card_lt {r : Ring} (id cur : Nat) (hcur : cur < r.length) :
    ((Finset.range r.length).filter
      (fun t => cwDist (idOf r t) id < cwDist (idOf r cur) id)).card < r.length := by
  have hss : (Finset.range r.length).filter
      (fun t => cwDist (idOf r t) id < cwDist (idOf r cur) id) ⊂ Finset.range r.length :=
    (Finset.filter_ssubset).2 ⟨cur, Finset.mem_range.2 hcur, lt_irrefl _⟩
  simpa using Finset.card_lt_card hss

theorem first_after_finger {r : Ring} (hb : IdsBounded r) (hfs : FingersStabilized r)
    {p s id : Nat} (hp : p < r.length) (hid : id < 256)
    (hf : fingerOf r p 1 = some s) (h : inRange id (idOf r p) (idOf r s) = true) :
    s < r.length ∧ ∀ t, t < r.length → cwDist id (idOf r s) ≤ cwDist id (idOf r t) := by
  have hb' : ∀ p, p < r.length → idOf r p < 256 := fun p hp => by simpa using hb p hp
  obtain ⟨q, hq, hfq, hmin⟩ := hfs p hp 1 (by decide)
  rw [hf] at hfq
  cases hfq
  refine ⟨hq, fun t ht => ?_⟩
  have hm := hmin t ht
  simp only [BITLENGTH] at hm
  norm_num at hm
  exact first_after _ _ _ _ (hb' p hp) (hb' s hq) (hb' t ht) hid h hm

theorem cwDist_left_inj (id a b : Nat) (ha : a < 256) (hb : b < 256) (hid : id < 256)
    (h : cwDist id a = cwDist id b) : a = b := by
  simp only [cwDist_eq] at h; omega

theorem findSuccessor_first_after {r : Ring} (hb : IdsBounded r) (hfs : FingersStabilized r)
    (id : Nat) (hid : id < 256) (hno : ∀ q, q < r.length → idOf r q ≠ id)
    (n : Nat) (hn : n < r.length) (fuel : Nat) (hfuel : r.length ≤ fuel) :
    ∃ s, s < r.length ∧ findSuccessor fuel r n id = .ok s ∧
      ∀ t, t < r.length → cwDist id (idOf r s) ≤ cwDist id (idOf r t) := by
  have hf := fingersSet_of_stabilized hfs
  obtain ⟨s1, hsl, hfs1⟩ := finger_of_set hf hn (le_refl 1) (by decide)
  have hfs1' : fingerOf r n 1 = some s1 := by rw [fingerOf_of_lt hn]; exact hfs1
  unfold findSuccessor
  simp only [getNode_of_lt hn, hfs1, nonNull, getNode_of_lt hsl, bind, Except.bind]
  by_cases h1 : some s1 = some n
  · rw [if_pos h1]
    exact ⟨n, hn, rfl, (first_after_finger hb hfs hn hid (hfs1'.trans h1)
      (by simp [inRange])).2⟩
  · rw [if_neg h1]
    by_cases hc : inRange id r[n].id_ r[s1].id_ = true
    · rw [if_pos hc]
      exact ⟨s1, hsl, rfl, (first_after_finger hb hfs hn hid hfs1'
        (by rw [idOf_of_lt hn, idOf_of_lt hsl]; exact hc)).2⟩
    · rw [if_neg hc]
      obtain ⟨p, s, hp, hs, hfp, hps, hin⟩ := findPredecessorLoop_ok hb hf n id hid hno fuel n hn
        le_rfl (lt_of_lt_of_le (closer_card_lt id n hn) hfuel)
      have hfp' : findPredecessor fuel r n id = .ok p := hfp
      rw [hfp']
      simp only [getNode_of_lt hp]
      rw [fingerOf_of_lt hp] at hps
      rw [hps]
      rw [← fingerOf_of_lt hp] at hps
      exact ⟨s, hs, rfl, (first_after_finger hb hfs hp hid hps hin).2⟩

/-- C25: in a ring with distinct 8-bit identifiers whose finger entries are all
exact, for an 8-bit identifier id that is no node's identifier there is one
node s, the first node clockwise after id, such that from every node n
findPredecessor(id) returns within as many rounds as the ring has nodes (each
round at a node strictly closer to id, so no node is visited twice) and
findSuccessor(id) returns s. -/
theorem findSuccessor_stabilized (r : Ring) (hl : 0 < r.length) (hb : IdsBounded r)
    (hd : DistinctIds r) (hfs : FingersStabilized r) (id : Nat) (hid : id < 2 ^ 8)
    (hno : ∀ q, q < r.length → idOf r q ≠ id) :
    ∃ s, s < r.length ∧
      (∀ t, t < r.length → cwDist id (idOf r s) ≤ cwDist id (idOf r t)) ∧
      ∀ n, n < r.length → ∀ fuel, r.length ≤ fuel →
        (∃ p, p < r.length ∧ findPredecessor fuel r n id = .ok p) ∧
        findSuccessor fuel r n id = .ok s := by
  have hb' : ∀ p, p < r.length → idOf r p < 256 := fun p hp => by simpa using hb p hp
  have hid' : id < 256 := by simpa using hid
  obtain ⟨s, hs, _, hmin⟩ := findSuccessor_first_after hb hfs id hid' hno 0 hl r.length le_rfl
  refine ⟨s, hs, hmin, fun n hn fuel hfuel => ⟨?_, ?_⟩⟩
  · obtain ⟨p, _, hp, _, hfp, _, _⟩ := findPredecessorLoop_ok hb
      (fingersSet_of_stabilized hfs) n id hid' hno fuel n hn le_rfl
      (lt_of_lt_of_le (closer_card_lt id n hn) hfuel)
    exact ⟨p, hp, hfp⟩
  · obtain ⟨s', hs', hfs', hmin'⟩ := findSuccessor_first_after hb hfs id hid' hno n hn fuel hfuel
    have : s' = s := hd s' hs' s hs (cwDist_left_inj id _ _ (hb' s' hs') (hb' s hs) hid'
      (le_antisymm (hmin' s hs) (hmin s' hs')))
    rw [hfs', this]

/-- The ring of main() and the identifier 101, which no node carries there,
are an instance of C25. -/
theorem findSuccessor_stabilized_witness :
    (0 < ring7.length ∧ IdsBounded ring7 ∧ DistinctIds ring7 ∧ FingersStabilized ring7 ∧
      101 < 2 ^ 8 ∧ ∀ q, q < ring7.length → idOf ring7 q ≠ 101) ∧
    ∃ s, s < ring7.length ∧
      (∀ t, t < ring7.length → cwDist 101 (idOf ring7 s) ≤ cwDist 101 (idOf ring7 t)) ∧
      ∀ n, n < ring7.length → ∀ fuel, ring7.length ≤ fuel →
        (∃ p, p < ring7.length ∧ findPredecessor fuel ring7 n 101 = .ok p) ∧
        findSuccessor fuel ring7 n 101 = .ok s :=
  ⟨by decide, findSuccessor_stabilized ring7 (by decide) (by decide) (by decide) (by decide) 101
    (by decide) (by decide)⟩

/-- What one returning fixFingers call does: the record of the node is replaced
by one with the advanced cursor and, at most, finger entry `cursor` rewritten to
the node findSuccessor names. -/
theorem fixFingers_effect {fuel n : Nat} {r r' : Ring} {me : Node} (hme : r[n]? = some me)
    (h : fixFingers fuel r n = .ok r') :
    ∃ s me', findSuccessor fuel r n
        ((me.id_ + 2 ^ (nextFinger me.next_finger_ - 1)) % 2 ^ BITLENGTH) = .ok s ∧
      r' = putNode r n me' ∧ me'.next_finger_ = nextFinger me.next_finger_ ∧
      me'.id_ = me.id_ ∧ me'.localKeys_ = me.localKeys_ ∧
      me'.predecessor_ = me.predecessor_ ∧
      (∀ i, i ≠ nextFinger me.next_finger_ → me'.getNodePtr i = me.getNodePtr i) ∧
      (nextFinger me.next_finger_ < me.fingerTable_.length →
        me'.getNodePtr (nextFinger me.next_finger_) = some s) := by
  unfold fixFingers at h
  simp only [bind_eq_ok, getNode_eq_ok] at h
  obtain ⟨me0, hme0, h⟩ := h
  rw [hme] at hme0
  cases hme0
  change ∃ ns, findSuccessor fuel (putNode r n { me with next_finger_ := nextFinger me.next_finger_ })
      n ((me.id_ + 2 ^ (nextFinger me.next_finger_ - 1)) % 2 ^ BITLENGTH) = .ok ns ∧
    ∃ me1, (putNode r n { me with next_finger_ := nextFinger me.next_finger_ })[n]? = some me1 ∧
      (if me1.getNodePtr (nextFinger me.next_finger_) ≠ some ns then
        Except.ok (putNode (putNode r n { me with next_finger_ := nextFinger me.next_finger_ }) n
          (me1.setFinger (nextFinger me.next_finger_) (some ns)))
       else Except.ok (putNode r n { me with next_finger_ := nextFinger me.next_finger_ })) =
        Except.ok r' at h
  generalize nextFinger me.next_finger_ = next at h ⊢
  obtain ⟨ns, hns, me1, hme1, h⟩ := h
  rw [getElem?_putNode_self hme] at hme1
  cases hme1
  have hroute : (putNode r n { me with next_finger_ := next }).map Node.route =
      r.map Node.route := map_putNode_same Node.route hme rfl
  rw [findSuccessor_congr hroute] at hns
  by_cases hc : ({ me with next_finger_ := next } : Node).getNodePtr next ≠ some ns
  · rw [if_pos hc, putNode_putNode] at h
    refine ⟨ns, _, hns, (Except.ok.inj h).symm, rfl, rfl, rfl, rfl, ?_, ?_⟩
    · intro i hi
      rw [getNodePtr_setFinger_ne _ _ _ _ (Ne.symm hi)]; rfl
    · intro hl
      rw [getNodePtr_setFinger_self, if_pos hl]
  · rw [if_neg hc] at h
    refine ⟨ns, _, hns, (Except.ok.inj h).symm, rfl, rfl, rfl, rfl, fun i _ => rfl, fun _ => ?_⟩
    simpa using hc

theorem nextFinger_range (c : Nat) : 1 ≤ nextFinger c ∧ nextFinger c ≤ BITLENGTH := by
  unfold nextFinger; split_ifs <;> simp only [BITLENGTH] at * <;> omega

theorem fixFingersCalls_cursors {fuel n : Nat} :
    ∀ (k : Nat) (r rk : Ring) (me : Node) (l : List Nat), r[n]? = some me →
      fixFingersCalls fuel n k r = .ok (l, rk) →
      l = List.iterate nextFinger (nextFinger me.next_finger_) k ∧
      ∃ mk, rk[n]? = some mk ∧ mk.next_finger_ = nextFinger^[k] me.next_finger_ := by
  intro k
  induction k with
  | zero =>
      intro r rk me l hme h
      simp only [fixFingersCalls, Except.ok.injEq, Prod.mk.injEq] at h
      obtain ⟨h1, h2⟩ := h
      subst h1 h2
      exact ⟨rfl, me, hme, rfl⟩
  | succ k ih =>
      intro r rk me l hme h
      unfold fixFingersCalls at h
      simp only [bind_eq_ok, getNode_eq_ok] at h
      obtain ⟨r1, hr1, me1, hme1, ⟨l', r2⟩, hrest, h⟩ := h
      simp only [Except.ok.injEq, Prod.mk.injEq] at h
      obtain ⟨h1, h2⟩ := h
      subst h1 h2
      obtain ⟨s, me', _, hr', hcur, _⟩ := fixFingers_effect hme hr1
      rw [hr', getElem?_putNode_self hme] at hme1
      cases hme1
      obtain ⟨hl, mk, hmk, hmkc⟩ := ih r1 r2 me1 l' (by rw [hr']; exact getElem?_putNode_self hme)
        hrest
      refine ⟨?_, mk, hmk, ?_⟩
      · rw [hl, hcur]; rfl
      · rw [hmkc, hcur]; rfl

theorem iterate_nextFinger_count (c : Nat) :
    ∀ i, 1 ≤ i → i ≤ BITLENGTH →
      (List.iterate nextFinger (nextFinger c) BITLENGTH).count i = 1 := by
  obtain ⟨h1, h2⟩ := nextFinger_range c
  generalize nextFinger c = d at h1 h2
  simp only [BITLENGTH] at h2 ⊢
  intro i hi1 hi2
  interval_cases d <;> interval_cases i <;> rfl

theorem iterate_nextFinger_range :
    ∀ (k a : Nat), 1 ≤ a ∧ a ≤ BITLENGTH →
      ∀ x ∈ List.iterate nextFinger a k, 1 ≤ x ∧ x ≤ BITLENGTH := by
  intro k
  induction k with
  | zero => intro a _ x hx; simp [List.iterate] at hx
  | succ k ih =>
      intro a ha x hx
      rw [List.iterate, List.mem_cons] at hx
      rcases hx with rfl | hx
      · exact ha
      · exact ih (nextFinger a) (nextFinger_range a) x hx

/-- C22: for a node with a full finger table (BITLENGTH + 1 slots) and any
cursor value, (a) a returning fixFingers call leaves the cursor at
nextFinger(cursor), which lies in 1..8, leaves finger entry `cursor` equal to
findSuccessor((id + 2^(cursor-1)) mod 2^8), and changes no other finger of the
node, no other node, and no identifier, key store or predecessor; (b) in any
series of k returning consecutive calls every cursor position lies in 1..8, and
so does the final cursor when k ≥ 1; (c) in 8 consecutive calls every index
1..8 is refreshed exactly once, in the order 2,3,...,8,1 when the cursor starts
at 1, the value the constructor gives it. -/
theorem fixFingers_cursor (fuel n k : Nat) (r r' rk : Ring) (me : Node) (l : List Nat)
    (hme : r[n]? = some me) (hlen : me.fingerTable_.length = BITLENGTH + 1)
    (h1 : fixFingers fuel r n = .ok r') (hk : fixFingersCalls fuel n k r = .ok (l, rk)) :
    ((1 ≤ nextFinger me.next_finger_ ∧ nextFinger me.next_finger_ ≤ BITLENGTH) ∧
      (∃ me', r'[n]? = some me' ∧ me'.next_finger_ = nextFinger me.next_finger_) ∧
      (∃ s, findSuccessor fuel r n
          ((me.id_ + 2 ^ (nextFinger me.next_finger_ - 1)) % 2 ^ BITLENGTH) = .ok s ∧
        fingerOf r' n (nextFinger me.next_finger_) = some s) ∧
      (∀ i, i ≠ nextFinger me.next_finger_ → fingerOf r' n i = fingerOf r n i) ∧
      (∀ q, q ≠ n → r'[q]? = r[q]?) ∧
      r'.map Node.core = r.map Node.core) ∧
    ((∀ x ∈ l, 1 ≤ x ∧ x ≤ BITLENGTH) ∧
      ∃ mk, rk[n]? = some mk ∧ (1 ≤ k → 1 ≤ mk.next_finger_ ∧ mk.next_finger_ ≤ BITLENGTH)) ∧
    ((k = BITLENGTH → (∀ i, 1 ≤ i → i ≤ BITLENGTH → l.count i = 1) ∧
        (me.next_finger_ = 1 → l = [2, 3, 4, 5, 6, 7, 8, 1])) ∧
      ∀ id, (Node.new id).next_finger_ = 1) := by
  obtain ⟨s, me', hs, hr', hcur, hid, hkeys, hpred, hother, hslot⟩ := fixFingers_effect hme h1
  obtain ⟨hl, mk, hmk, hmkc⟩ := fixFingersCalls_cursors k r rk me l hme hk
  have hrange := nextFinger_range me.next_finger_
  refine ⟨⟨hrange, ⟨me', ?_, hcur⟩, ⟨s, hs, ?_⟩, ?_, ?_, ?_⟩, ⟨?_, mk, hmk, ?_⟩, ?_, fun _ => rfl⟩
  · rw [hr']; exact getElem?_putNode_self hme
  · rw [hr']
    simp only [fingerOf, getElem?_putNode_self hme, Option.some_bind]
    exact hslot (by rw [hlen]; omega)
  · intro i hi
    rw [hr']
    simp only [fingerOf, getElem?_putNode_self hme, hme, Option.some_bind]
    exact hother i hi
  · intro q hq
    rw [hr']; exact getElem?_putNode_ne (Ne.symm hq)
  · rw [hr']
    exact map_putNode_same Node.core hme (by simp [Node.core, hid, hkeys, hpred])
  · rw [hl]; exact iterate_nextFinger_range k _ hrange
  · intro hk1
    obtain ⟨k', rfl⟩ : ∃ k', k = k' + 1 := ⟨k - 1, by omega⟩
    rw [hmkc, Function.iterate_succ_apply']
    exact nextFinger_range _
  · intro hk8
    subst hk8
    refine ⟨fun i hi1 hi2 => ?_, fun hc => ?_⟩
    · rw [hl]; exact iterate_nextFinger_count _ i hi1 hi2
    · rw [hl, hc]; rfl

/-- Node 0 of the two-node ring 0, 30, with the cursor at 1, is an instance of
C22: one call moves the cursor to 2, eight calls refresh 2,3,...,8,1. -/
theorem fixFingers_cursor_witness :
    (ring0_30[0]? = some (mkNode 0 [1, 1, 1, 1, 1, 0, 0, 0] 1 []) ∧
      (mkNode 0 [1, 1, 1, 1, 1, 0, 0, 0] 1 []).fingerTable_.length = BITLENGTH + 1 ∧
      fixFingers 2 ring0_30 0 =
        .ok (putNode ring0_30 0
          { mkNode 0 [1, 1, 1, 1, 1, 0, 0, 0] 1 [] with next_finger_ := 2 }) ∧
      fixFingersCalls 2 0 8 ring0_30 = .ok ([2, 3, 4, 5, 6, 7, 8, 1], ring0_30)) ∧
    (((1 ≤ nextFinger 1 ∧ nextFinger 1 ≤ BITLENGTH) ∧
      (∃ me', (putNode ring0_30 0
          { mkNode 0 [1, 1, 1, 1, 1, 0, 0, 0] 1 [] with next_finger_ := 2 })[0]? = some me' ∧
        me'.next_finger_ = nextFinger 1) ∧
      (∃ s, findSuccessor 2 ring0_30 0 ((0 + 2 ^ (nextFinger 1 - 1)) % 2 ^ BITLENGTH) = .ok s ∧
        fingerOf (putNode ring0_30 0
          { mkNode 0 [1, 1, 1, 1, 1, 0, 0, 0] 1 [] with next_finger_ := 2 }) 0 (nextFinger 1) =
          some s) ∧
      (∀ i, i ≠ nextFinger 1 → fingerOf (putNode ring0_30 0
          { mkNode 0 [1, 1, 1, 1, 1, 0, 0, 0] 1 [] with next_finger_ := 2 }) 0 i =
          fingerOf ring0_30 0 i) ∧
      (∀ q, q ≠ 0 → (putNode ring0_30 0
          { mkNode 0 [1, 1, 1, 1, 1, 0, 0, 0] 1 [] with next_finger_ := 2 })[q]? =
          ring0_30[q]?) ∧
      (putNode ring0_30 0
          { mkNode 0 [1, 1, 1, 1, 1, 0, 0, 0] 1 [] with next_finger_ := 2 }).map Node.core =
        ring0_30.map Node.core) ∧
    ((∀ x ∈ [2, 3, 4, 5, 6, 7, 8, 1], 1 ≤ x ∧ x ≤ BITLENGTH) ∧
      ∃ mk, ring0_30[0]? = some mk ∧
        (1 ≤ 8 → 1 ≤ mk.next_finger_ ∧ mk.next_finger_ ≤ BITLENGTH)) ∧
    ((8 = BITLENGTH → (∀ i, 1 ≤ i → i ≤ BITLENGTH → [2, 3, 4, 5, 6, 7, 8, 1].count i = 1) ∧
        ((1 : Nat) = 1 → [2, 3, 4, 5, 6, 7, 8, 1] = [2, 3, 4, 5, 6, 7, 8, 1])) ∧
      ∀ id, (Node.new id).next_finger_ = 1)) :=
  ⟨⟨by decide, by decide, by decide, by decide⟩,
    fixFingers_cursor 2 0 8 ring0_30 _ ring0_30 (mkNode 0 [1, 1, 1, 1, 1, 0, 0, 0] 1 [])
      [2, 3, 4, 5, 6, 7, 8, 1] (by decide) (by decide) (by decide) (by decide)⟩

theorem mapFind_some_mem (m : List (Nat × Nat)) (k v : Nat) (h : mapFind m k = some v) :
    (k, v) ∈ m := by
  induction m with
  | nil => simp [mapFind] at h
  | cons a l ih =>
      obtain ⟨a1, a2⟩ := a
      unfold mapFind at h
      split_ifs at h with hk
      · cases h; subst hk; exact List.mem_cons_self _ _
      · exact List.mem_cons_of_mem _ (ih h)

theorem mapFind_ne_none_of_mem (m : List (Nat × Nat)) (k : Nat)
    (h : k ∈ m.map Prod.fst) : mapFind m k ≠ none := by
  induction m with
  | nil => simp at h
  | cons a l ih =>
      obtain ⟨a1, a2⟩ := a
      unfold mapFind
      split_ifs with hk
      · simp
      · simp only [List.map_cons, List.mem_cons] at h
        rcases h with h | h
        · exact absurd h.symm hk
        · exact ih h

theorem nodup_mapErase (m : List (Nat × Nat)) (k : Nat) (h : (m.map Prod.fst).Nodup) :
    ((mapErase m k).map Prod.fst).Nodup := by
  have hsub : ∀ (m : List (Nat × Nat)), List.Sublist (mapErase m k) m := by
    intro m
    induction m with
    | nil => exact List.Sublist.refl _
    | cons a l ih =>
        obtain ⟨a1, a2⟩ := a
        unfold mapErase
        split_ifs
        · exact List.sublist_cons_self _ _
        · exact ih.cons₂ _
  exact List.Nodup.sublist ((hsub m).map Prod.fst) h

theorem keysOf_congr {r r' : Ring} {q : Nat} (h : r'[q]? = r[q]?) : keysOf r' q = keysOf r q := by
  simp [keysOf, h]

theorem disjoint_of_stores {r : Ring} (hd : StoresDisjoint r) {p q k v : Nat} (hpq : p ≠ q)
    (h : mapFind (keysOf r p) k = some v) : mapFind (keysOf r q) k = none := by
  have hp : p < r.length := by
    by_contra hc
    have : keysOf r p = [] := by simp [keysOf, List.getElem?_eq_none (not_lt.1 hc)]
    rw [this] at h
    simp [mapFind] at h
  by_cases hq : q < r.length
  · exact hd p hp q hq hpq (k, v) (mapFind_some_mem _ _ _ h)
  · have : keysOf r q = [] := by simp [keysOf, List.getElem?_eq_none (not_lt.1 hq)]
    rw [this]; rfl

/-- What one transferKey call does to the two stores, for distinct nodes and a
source store without duplicate keys. -/
theorem transferKey_spec {r : Ring} {s t : Nat} (k : Nat) (hs : s < r.length)
    (ht : t < r.length) (hst : s ≠ t) (hnd : ((keysOf r s).map Prod.fst).Nodup) :
    ∃ r', transferKey r s k t = .ok r' ∧ r'.map Node.shell = r.map Node.shell ∧
      (∀ q, q ≠ s → q ≠ t → r'[q]? = r[q]?) ∧
      (∀ k', mapFind (keysOf r' s) k' = if k' = k then none else mapFind (keysOf r s) k') ∧
      (∀ k', mapFind (keysOf r' t) k' =
        if k' = k then
          (match mapFind (keysOf r s) k with
           | some v => some v
           | none => mapFind (keysOf r t) k)
        else mapFind (keysOf r t) k') ∧
      ((keysOf r' s).map Prod.fst).Nodup := by
  have es : r[s]? = some r[s] := List.getElem?_eq_getElem hs
  have et : r[t]? = some r[t] := List.getElem?_eq_getElem ht
  rw [keysOf_of_getElem? es] at hnd
  simp only [keysOf_of_getElem? es, keysOf_of_getElem? et]
  cases hk : mapFind r[s].localKeys_ k with
  | none =>
      refine ⟨r, ?_, rfl, fun _ _ _ => rfl, ?_, ?_, ?_⟩
      · unfold transferKey
        simp only [getNode_of_lt hs, hk, bind, Except.bind]
      · intro k'
        rw [keysOf_of_getElem? es]
        split_ifs with h
        · rw [h, hk]
        · rfl
      · intro k'
        rw [keysOf_of_getElem? et]
        split_ifs with h
        · rw [h]
        · rfl
      · rw [keysOf_of_getElem? es]; exact hnd
  | some v =>
      have hs1 : (putNode r t { r[t] with localKeys_ := mapSet r[t].localKeys_ k v })[s]? =
          some r[s] := by
        rw [getElem?_putNode_ne (Ne.symm hst), es]
      have e_s : (putNode (putNode r t { r[t] with localKeys_ := mapSet r[t].localKeys_ k v }) s
          { r[s] with localKeys_ := mapErase r[s].localKeys_ k })[s]? =
          some { r[s] with localKeys_ := mapErase r[s].localKeys_ k } :=
        getElem?_putNode_self hs1
      have e_t : (putNode (putNode r t { r[t] with localKeys_ := mapSet r[t].localKeys_ k v }) s
          { r[s] with localKeys_ := mapErase r[s].localKeys_ k })[t]? =
          some { r[t] with localKeys_ := mapSet r[t].localKeys_ k v } := by
        rw [getElem?_putNode_ne hst, getElem?_putNode_self et]
      have hrun : transferKey r s k t = .ok
          (putNode (putNode r t { r[t] with localKeys_ := mapSet r[t].localKeys_ k v }) s
            { r[s] with localKeys_ := mapErase r[s].localKeys_ k }) := by
        unfold transferKey
        simp only [getNode_of_lt hs, getNode_of_lt ht, getNode_eq_ok.2 hs1, hk, bind,
          Except.bind]
      refine ⟨_, hrun, transferKey_shell hrun, ?_, ?_, ?_, ?_⟩
      · intro q hqs hqt
        rw [getElem?_putNode_ne (Ne.symm hqs), getElem?_putNode_ne (Ne.symm hqt)]
      · intro k'
        rw [keysOf_of_getElem? e_s]
        split_ifs with h
        · rw [h]; exact mapFind_mapErase_self _ _ hnd
        · exact mapFind_mapErase_ne _ _ _ h
      · intro k'
        rw [keysOf_of_getElem? e_t, mapFind_mapSet]
        split_ifs with h1 h2 h2
        · rfl
        · exact absurd h1.symm h2
        · exact absurd h2.symm h1
        · rfl
      · rw [keysOf_of_getElem? e_s]; exact nodup_mapErase _ _ hnd

theorem length_of_shell {r r' : Ring} (h : r'.map Node.shell = r.map Node.shell) :
    r'.length = r.length := by
  simpa using congrArg List.length h

/-- What the transfer loop of moveKeys and checkAllNodesForKeys does to the two
stores, for distinct nodes and a source store without duplicate keys. -/
theorem transferKeys_spec {s t : Nat} (hst : s ≠ t) :
    ∀ (ks : List Nat) (r : Ring), s < r.length → t < r.length →
      ((keysOf r s).map Prod.fst).Nodup →
      ∃ r', transferKeys t s r ks = .ok r' ∧ r'.map Node.shell = r.map Node.shell ∧
        (∀ q, q ≠ s → q ≠ t → r'[q]? = r[q]?) ∧
        (∀ k', mapFind (keysOf r' s) k' = if k' ∈ ks then none else mapFind (keysOf r s) k') ∧
        (∀ k', mapFind (keysOf r' t) k' =
          if k' ∈ ks then
            (match mapFind (keysOf r s) k' with
             | some v => some v
             | none => mapFind (keysOf r t) k')
          else mapFind (keysOf r t) k') := by
  intro ks
  induction ks with
  | nil =>
      intro r _ _ _
      exact ⟨r, rfl, rfl, fun _ _ _ => rfl, fun _ => by simp, fun _ => by simp⟩
  | cons k ks ih =>
      intro r hs ht hnd
      obtain ⟨r1, hr1, hsh1, hoth1, hs1, ht1, hnd1⟩ := transferKey_spec k hs ht hst hnd
      have hl1 := length_of_shell hsh1
      obtain ⟨r2, hr2, hsh2, hoth2, hs2, ht2⟩ := ih r1 (by omega) (by omega) hnd1
      refine ⟨r2, ?_, hsh2.trans hsh1, ?_, ?_, ?_⟩
      · unfold transferKeys
        simp only [hr1, bind, Except.bind]
        exact hr2
      · intro q hqs hqt
        rw [hoth2 q hqs hqt, hoth1 q hqs hqt]
      · intro k'
        rw [hs2, hs1]
        by_cases h1 : k' = k
        · simp [h1]
        · simp [h1]
      · intro k'
        rw [ht2, hs1, ht1]
        by_cases h1 : k' = k
        · subst h1
          by_cases h2 : k' ∈ ks
          · simp [h2]
          · simp [h2]
        · simp [h1]

theorem keysToMove_eq {r : Ring} {n : Nat} {resp : Nat → Bool}
    (hresp : ∀ k, isResponsibleForKey r n k = .ok (resp k)) (m : List (Nat × Nat)) :
    keysToMove r n m = .ok ((m.map Prod.fst).filter resp) := by
  induction m with
  | nil => rfl
  | cons a l ih =>
      obtain ⟨a1, a2⟩ := a
      unfold keysToMove
      simp only [hresp, ih, bind, Except.bind, List.map_cons, List.filter_cons]

theorem isResponsibleForKey_congr {r r' : Ring} (h : r'.map Node.shell = r.map Node.shell)
    (n k : Nat) : isResponsibleForKey r' n k = isResponsibleForKey r n k := by
  have hq : ∀ q : Nat, (r'[q]?).map Node.shell = (r[q]?).map Node.shell := by
    intro q
    have := congrArg (fun l => l[q]?) h
    simpa only [List.getElem?_map] using this
  unfold isResponsibleForKey
  have hn := hq n
  cases h1 : r'[n]? with
  | none =>
      cases h2 : r[n]? with
      | none => simp [getNode, h1, h2, bind, Except.bind]
      | some b => simp [h1, h2] at hn
  | some a =>
      cases h2 : r[n]? with
      | none => simp [h1, h2] at hn
      | some b =>
          simp only [h1, h2, Option.map_some', Option.some.injEq, Node.shell,
            Prod.mk.injEq] at hn
          obtain ⟨hid, _, hpr, _⟩ := hn
          simp only [getNode, h1, h2, bind, Except.bind, hpr]
          split_ifs
          · rfl
          · cases hp : b.predecessor_ with
            | none => simp [deref]
            | some p =>
                have hp' := hq p
                simp only [deref, getNode]
                cases h3 : r'[p]? with
                | none =>
                    cases h4 : r[p]? with
                    | none => rfl
                    | some d => simp [h3, h4] at hp'
                | some c =>
                    cases h4 : r[p]? with
                    | none => simp [h3, h4] at hp'
                    | some d =>
                        simp only [h3, h4, Option.map_some', Option.some.injEq, Node.shell,
                          Prod.mk.injEq] at hp'
                        simp [hp'.1, hid]

/-- The visit of one more node c by checkAllNodesForKeys keeps the relation
`Collected`, with c added to the visited nodes. -/
theorem collected_step {r rc : Ring} {n c : Nat} {resp : Nat → Bool}
    {vis : List (Option Nat)} (hn : n < r.length) (hmaps : KeysUnique r)
    (hdisj : StoresDisjoint r) (hresp : ∀ k, isResponsibleForKey r n k = .ok (resp k))
    (hc : c < r.length) (hcn : c ≠ n) (hcv : some c ∉ vis) (hI : Collected r n resp rc vis) :
    ∃ cn ks r1, rc[c]? = some cn ∧ keysToMove rc n cn.localKeys_ = .ok ks ∧
      transferKeys n c rc ks = .ok r1 ∧ Collected r n resp r1 (some c :: vis) := by
  obtain ⟨hsh, hb, hcc, hd1, hd2⟩ := hI
  have hl := length_of_shell hsh
  have hcl : c < rc.length := by omega
  have hnl : n < rc.length := by omega
  have ec : rc[c]? = r[c]? := hcc c hcn hcv
  have ekc : keysOf rc c = keysOf r c := keysOf_congr ec
  have hndc : ((keysOf rc c).map Prod.fst).Nodup := by rw [ekc]; exact hmaps c hc
  have hresp' : ∀ k, isResponsibleForKey rc n k = .ok (resp k) := by
    intro k; rw [isResponsibleForKey_congr hsh]; exact hresp k
  have egc : rc[c]? = some rc[c] := List.getElem?_eq_getElem hcl
  have ekc' : rc[c].localKeys_ = keysOf r c := by rw [← ekc, keysOf_of_getElem? egc]
  obtain ⟨r1, hr1, hsh1, hoth1, hs1, ht1⟩ :=
    transferKeys_spec hcn ((rc[c].localKeys_.map Prod.fst).filter resp) rc hcl hnl hndc
  have hmem : ∀ k, k ∈ (rc[c].localKeys_.map Prod.fst).filter resp ↔
      mapFind (keysOf r c) k ≠ none ∧ resp k = true := by
    intro k
    rw [List.mem_filter, ekc']
    constructor
    · rintro ⟨h1, h2⟩
      exact ⟨mapFind_ne_none_of_mem _ _ h1, h2⟩
    · rintro ⟨h1, h2⟩
      refine ⟨?_, h2⟩
      by_contra hc
      exact h1 (mapFind_none_of_not_mem _ _ hc)
  refine ⟨rc[c], _, r1, egc, keysToMove_eq hresp' _, hr1, hsh1.trans hsh, ?_, ?_, ?_, ?_⟩
  · intro q hqn hqv k
    rcases List.mem_cons.1 hqv with h | h
    · cases h
      rw [hs1, ekc]
      by_cases hr : resp k = true
      · rw [if_pos hr]
        by_cases hm : mapFind (keysOf r c) k = none
        · rw [if_neg (fun h => ((hmem k).1 h).1 hm), hm]
        · rw [if_pos ((hmem k).2 ⟨hm, hr⟩)]
      · rw [if_neg hr, if_neg (fun h => hr ((hmem k).1 h).2)]
    · have hqc : q ≠ c := fun e => hcv (e ▸ h)
      rw [keysOf_congr (hoth1 q hqc hqn)]
      exact hb q hqn h k
  · intro q hqn hqv
    have hqc : q ≠ c := fun e => hqv (e ▸ List.mem_cons_self _ _)
    rw [hoth1 q hqc hqn]
    exact hcc q hqn (fun h => hqv (List.mem_cons_of_mem _ h))
  · intro k hr
    rw [ht1, if_neg (fun h => by rw [((hmem k).1 h).2] at hr; cases hr)]
    exact hd1 k hr
  · intro k v hr
    rw [ht1, ekc]
    cases hoc : mapFind (keysOf r c) k with
    | none =>
        rw [if_neg (fun h => ((hmem k).1 h).1 hoc), hd2 k v hr]
        constructor
        · rintro (h | ⟨q, hq1, hq2, hq3⟩)
          · exact Or.inl h
          · exact Or.inr ⟨q, hq1, List.mem_cons_of_mem _ hq2, hq3⟩
        · rintro (h | ⟨q, hq1, hq2, hq3⟩)
          · exact Or.inl h
          · rcases List.mem_cons.1 hq2 with h | h
            · cases h
              rw [hoc] at hq3
              cases hq3
            · exact Or.inr ⟨q, hq1, h, hq3⟩
    | some v' =>
        rw [if_pos ((hmem k).2 ⟨by rw [hoc]; simp, hr⟩)]
        simp only
        constructor
        · intro h
          cases h
          exact Or.inr ⟨c, hcn, List.mem_cons_self _ _, hoc⟩
        · rintro (h | ⟨q, hq1, hq2, hq3⟩)
          · rw [disjoint_of_stores hdisj hcn hoc] at h
            cases h
          · rcases List.mem_cons.1 hq2 with h | h
            · cases h
              rw [hoc] at hq3
              exact hq3
            · have hqc : c ≠ q := fun e => hcv (e ▸ h)
              rw [disjoint_of_stores hdisj hqc hoc] at hq3
              cases hq3

theorem visited_length_le {r : Ring} {vis : List (Option Nat)} (hnd : vis.Nodup)
    (hv : ∀ x ∈ vis, ∃ q, q < r.length ∧ x = some q) : vis.length ≤ r.length := by
  have hsub : vis ⊆ (List.range r.length).map some := by
    intro x hx
    obtain ⟨q, hq, rfl⟩ := hv x hx
    exact List.mem_map.2 ⟨q, List.mem_range.2 hq, rfl⟩
  have := (List.Nodup.subperm hnd hsub).length_le
  simpa using this

/-- The loop of checkAllNodesForKeys returns once the rounds left and the
number of nodes already visited together exceed the number of nodes; it ends
with a visited set closed under finger entry 1. -/
theorem checkAllNodesLoop_spec {r : Ring} {n : Nat} {resp : Nat → Bool}
    (hn : n < r.length) (hsucc : SuccessorsSet r) (hmaps : KeysUnique r)
    (hdisj : StoresDisjoint r) (hresp : ∀ k, isResponsibleForKey r n k = .ok (resp k)) :
    ∀ (fuel : Nat) (rc : Ring) (cur : Option Nat) (vis : List (Option Nat)),
      Collected r n resp rc vis → some n ∈ vis → vis.Nodup →
      (∀ x ∈ vis, ∃ q, q < r.length ∧ x = some q) →
      (∃ c, c < r.length ∧ cur = some c) →
      (∀ q, some q ∈ vis → ∃ s, fingerOf r q 1 = some s ∧ (some s ∈ vis ∨ cur = some s)) →
      r.length < fuel + vis.length →
      ∃ r' vis', checkAllNodesLoop n fuel rc cur vis = .ok r' ∧ Collected r n resp r' vis' ∧
        some n ∈ vis' ∧
        ∀ q, some q ∈ vis' → ∃ s, fingerOf r q 1 = some s ∧ some s ∈ vis' := by
  intro fuel
  induction fuel with
  | zero =>
      intro rc cur vis _ _ hnd hv _ _ hfuel
      have := visited_length_le hnd hv
      omega
  | succ fuel ih =>
      intro rc cur vis hI hnv hnd hv hcur hclo hfuel
      unfold checkAllNodesLoop
      by_cases hcond : cur ≠ some n ∧ cur ∉ vis
      · rw [if_pos hcond]
        obtain ⟨c, hc, rfl⟩ := hcur
        have hcn : c ≠ n := fun e => hcond.1 (by rw [e])
        obtain ⟨cn, ks, r1, hcn1, hks, hr1, hI1⟩ :=
          collected_step hn hmaps hdisj hresp hc hcn hcond.2 hI
        have hl1 : r1.length = r.length := length_of_shell hI1.1
        have hc1 : c < r1.length := by omega
        obtain ⟨s, hs, hfs⟩ := hsucc c hc
        have hptr : r1[c].getNodePtr 1 = some s := by
          rw [← fingerOf_of_lt hc1, (shell_eq_of_map hI1.1 c 1).2.1]; exact hfs
        simp only [nonNull, getNode_eq_ok.2 hcn1, hks, hr1, getNode_of_lt hc1, hptr, bind,
          Except.bind]
        refine ih r1 (some s) (some c :: vis) hI1 (List.mem_cons_of_mem _ hnv)
          (List.nodup_cons.2 ⟨hcond.2, hnd⟩) ?_ ⟨s, hs, rfl⟩ ?_ ?_
        · intro x hx
          rcases List.mem_cons.1 hx with h | h
          · exact ⟨c, hc, h⟩
          · exact hv x h
        · intro q hq
          rcases List.mem_cons.1 hq with h | h
          · cases h
            exact ⟨s, hfs, Or.inr rfl⟩
          · obtain ⟨s', hs1, hs2⟩ := hclo q h
            refine ⟨s', hs1, Or.inl ?_⟩
            rcases hs2 with h2 | h2
            · exact List.mem_cons_of_mem _ h2
            · rw [← h2]; exact List.mem_cons_self _ _
        · simp only [List.length_cons]; omega
      · rw [if_neg hcond]
        have hcv : cur ∈ vis := by
          by_contra hc
          exact hcond ⟨fun e => hc (e ▸ hnv), hc⟩
        refine ⟨rc, vis, rfl, hI, hnv, fun q hq => ?_⟩
        obtain ⟨s, hs1, hs2⟩ := hclo q hq
        refine ⟨s, hs1, ?_⟩
        rcases hs2 with h2 | h2
        · exact h2
        · rw [← h2]; exact hcv

theorem walk_in_closed {r : Ring} {vis : List (Option Nat)}
    (hclo : ∀ q, some q ∈ vis → ∃ s, fingerOf r q 1 = some s ∧ some s ∈ vis) :
    ∀ (j p : Nat), some p ∈ vis → ∀ x ∈ successorWalk r j p, x ∈ vis := by
  intro j
  induction j with
  | zero => intro p _ x hx; simp [successorWalk] at hx
  | succ j ih =>
      intro p hp x hx
      obtain ⟨s, hs1, hs2⟩ := hclo p hp
      simp only [successorWalk, hs1, List.mem_cons] at hx
      rcases hx with h | h
      · rw [h]; exact hs2
      · exact ih s hs2 x h

/-- C21 (as amended): in a ring state whose finger entries 1 all point at
nodes, whose key stores are maps and pairwise disjoint in keys, and in which n
has a predecessor, n.checkAllNodesForKeys() returns within as many rounds as
there are nodes (each round visits a node not visited before, never n), also
when the successor chain never returns to n; afterwards no node other than n
on the successor chain from n holds a key n is responsible for, every such key
a chain node held is in n's store with the value that node held, routing data
is untouched, and the set of key/value pairs held in the ring is the same. -/
theorem checkAllNodesForKeys_collects (r : Ring) (n : Nat) (hn : n < r.length)
    (hsucc : SuccessorsSet r) (hp : ∃ q, q < r.length ∧ predOf r n = some q)
    (hmaps : KeysUnique r) (hdisj : StoresDisjoint r) (fuel : Nat) (hfuel : r.length ≤ fuel) :
    ∃ r', checkAllNodesForKeys fuel r n = .ok r' ∧ r'.map Node.shell = r.map Node.shell ∧
      (∀ q j, some q ∈ successorWalk r j n → q ≠ n →
        ∀ k, isResponsibleForKey r n k = .ok true →
          mapFind (keysOf r' q) k = none ∧
          ∀ v, mapFind (keysOf r q) k = some v → mapFind (keysOf r' n) k = some v) ∧
      (∀ k v, (∃ q, mapFind (keysOf r q) k = some v) ↔
        ∃ q, mapFind (keysOf r' q) k = some v) := by
  obtain ⟨p, hpl, hpp⟩ := hp
  have hresp : ∀ k, isResponsibleForKey r n k =
      .ok ((fun k => if p = n then true else inRange k (idOf r p) (idOf r n)) k) :=
    fun k => isResponsibleForKey_eq r n p k hn hpl hpp
  generalize (fun k => if p = n then true else inRange k (idOf r p) (idOf r n)) = resp
    at hresp
  obtain ⟨s, hs, hfs⟩ := hsucc n hn
  have hI0 : Collected r n resp r [some n] := by
    refine ⟨rfl, ?_, fun _ _ _ => rfl, fun _ _ => rfl, fun k v _ => ⟨Or.inl, ?_⟩⟩
    · intro q hqn hq
      simp only [List.mem_singleton, Option.some.injEq] at hq
      exact absurd hq hqn
    · rintro (h | ⟨q, hqn, hq, _⟩)
      · exact h
      · simp only [List.mem_singleton, Option.some.injEq] at hq
        exact absurd hq hqn
  obtain ⟨r', vis', hrun, hI, hnv, hclo⟩ := checkAllNodesLoop_spec hn hsucc hmaps hdisj hresp
    fuel r (some s) [some n] hI0 (List.mem_singleton_self _) (List.nodup_singleton _)
    (fun x hx => ⟨n, hn, List.mem_singleton.1 hx⟩) ⟨s, hs, rfl⟩
    (fun q hq => ⟨s, by
      simp only [List.mem_singleton, Option.some.injEq] at hq
      rw [hq]; exact hfs, Or.inr rfl⟩)
    (by simp only [List.length_singleton]; omega)
  obtain ⟨hsh, hb, hcc, hd1, hd2⟩ := hI
  have hpr : r[n].predecessor_ = some p := by
    simpa [predOf, List.getElem?_eq_getElem hn] using hpp
  have hf1 : r[n].getNodePtr 1 = some s := by rw [← fingerOf_of_lt hn]; exact hfs
  refine ⟨r', ?_, hsh, ?_, ?_⟩
  · unfold checkAllNodesForKeys
    simp only [getNode_of_lt hn, hpr, hf1, bind, Except.bind]
    rw [if_neg (by simp)]
    exact hrun
  · intro q j hq hqn k hk
    have hqv : some q ∈ vis' := walk_in_closed hclo j n hnv _ hq
    have hr : resp k = true := by
      have := (hresp k).symm.trans hk
      exact Except.ok.inj this
    refine ⟨by rw [hb q hqn hqv k, if_pos hr], fun v hv => ?_⟩
    exact (hd2 k v hr).2 (Or.inr ⟨q, hqn, hqv, hv⟩)
  · intro k v
    constructor
    · rintro ⟨q, hq⟩
      by_cases hr : resp k = true
      · by_cases hqn : q = n
        · exact ⟨n, (hd2 k v hr).2 (Or.inl (hqn ▸ hq))⟩
        · by_cases hqv : some q ∈ vis'
          · exact ⟨n, (hd2 k v hr).2 (Or.inr ⟨q, hqn, hqv, hq⟩)⟩
          · exact ⟨q, by rw [keysOf_congr (hcc q hqn hqv)]; exact hq⟩
      · by_cases hqn : q = n
        · exact ⟨n, by rw [hd1 k (by simpa using hr)]; exact hqn ▸ hq⟩
        · by_cases hqv : some q ∈ vis'
          · exact ⟨q, by rw [hb q hqn hqv k, if_neg hr]; exact hq⟩
          · exact ⟨q, by rw [keysOf_congr (hcc q hqn hqv)]; exact hq⟩
    · rintro ⟨q, hq⟩
      by_cases hqn : q = n
      · subst hqn
        by_cases hr : resp k = true
        · rcases (hd2 k v hr).1 hq with h | ⟨q', _, _, h⟩
          · exact ⟨q, h⟩
          · exact ⟨q', h⟩
        · exact ⟨q, by rw [← hd1 k (by simpa using hr)]; exact hq⟩
      · by_cases hqv : some q ∈ vis'
        · rw [hb q hqn hqv k] at hq
          by_cases hr : resp k = true
          · rw [if_pos hr] at hq
            cases hq
          · rw [if_neg hr] at hq
            exact ⟨q, hq⟩
        · exact ⟨q, by rw [← keysOf_congr (hcc q hqn hqv)]; exact hq⟩

/-- Node 0 of the ring of main() is an instance of C21 as amended. -/
theorem checkAllNodesForKeys_collects_witness :
    (0 < ring7.length ∧ SuccessorsSet ring7 ∧ KeysUnique ring7 ∧ StoresDisjoint ring7 ∧
      ring7.length ≤ 7) ∧
    ∃ r', checkAllNodesForKeys 7 ring7 0 = .ok r' ∧
      r'.map Node.shell = ring7.map Node.shell ∧
      (∀ q j, some q ∈ successorWalk ring7 j 0 → q ≠ 0 →
        ∀ k, isResponsibleForKey ring7 0 k = .ok true →
          mapFind (keysOf r' q) k = none ∧
          ∀ v, mapFind (keysOf ring7 q) k = some v → mapFind (keysOf r' 0) k = some v) ∧
      (∀ k v, (∃ q, mapFind (keysOf ring7 q) k = some v) ↔
        ∃ q, mapFind (keysOf r' q) k = some v) :=
  ⟨by decide, checkAllNodesForKeys_collects ring7 0 (by decide) (by decide)
    ⟨5, by decide, by decide⟩ (by decide) (by decide) 7 (by decide)⟩

/-- C21 as stated fails when two stores share a key: in the two-node ring 0, 30
with every finger entry 1 set and both predecessors set, node 0 holds (200, 1)
and node 30 holds (200, 2); node 0 is responsible for 200, so
checkAllNodesForKeys on node 0 overwrites its own value with the one taken from
node 30, and the pair (200, 1) is in no store afterwards. -/
theorem checkAllNodesForKeys_overwrites :
    SuccessorsSet ring0_30_dup ∧ predOf ring0_30_dup 0 = some 1 ∧
    isResponsibleForKey ring0_30_dup 0 200 = .ok true ∧
    mapFind (keysOf ring0_30_dup 0) 200 = some 1 ∧
    (∀ fuel, checkAllNodesForKeys (fuel + 2) ring0_30_dup 0 =
      .ok [ mkNode 0 [1, 1, 1, 1, 1, 0, 0, 0] 1 [(200, 2)],
            mkNode 30 [0, 0, 0, 0, 0, 0, 0, 0] 0 [] ]) ∧
    ∀ q, q < 2 →
      mapFind (keysOf [ mkNode 0 [1, 1, 1, 1, 1, 0, 0, 0] 1 [(200, 2)],
            mkNode 30 [0, 0, 0, 0, 0, 0, 0, 0] 0 [] ] q) 200 ≠ some 1 :=
  ⟨by decide, by decide, by decide, by decide, fun _ => rfl, by decide⟩

/-- One round of the inner transfer loop of the space shuffle. -/
theorem shuffleMoveKeys_succ {h l b k v : Nat} {r : Ring} {hn ln hn1 : Node}
    {rest : List (Nat × Nat)} (eh : r[h]? = some hn) (hk : hn.localKeys_ = (k, v) :: rest)
    (el : r[l]? = some ln)
    (e1h : (putNode r l { ln with localKeys_ := mapSet ln.localKeys_ k v })[h]? = some hn1) :
    shuffleMoveKeys h l (b + 1) r =
      (shuffleMoveKeys h l b
        (putNode (putNode r l { ln with localKeys_ := mapSet ln.localKeys_ k v }) h
          { hn1 with localKeys_ := mapErase hn1.localKeys_ k })) >>=
        fun p => .ok (p.1 + 1, p.2) := by
  rw [shuffleMoveKeys]
  simp only [getNode_eq_ok.2 eh, bind, Except.bind]
  split
  · next heq => rw [hk] at heq; cases heq
  · next key value tl heq =>
      rw [hk] at heq
      cases heq
      simp only [getNode_eq_ok.2 el, getNode_eq_ok.2 e1h]

/-- What the inner transfer loop of the space shuffle does, for distinct nodes:
the first `budget` pairs of the heavy node's store move to the light node. -/
theorem shuffleMoveKeys_spec {h l : Nat} (hhl : h ≠ l) :
    ∀ (budget : Nat) (r : Ring), h < r.length → l < r.length →
      ∃ r', shuffleMoveKeys h l budget r =
          .ok ((((keysOf r h).take budget).length : Int), r') ∧
        r'.map Node.shell = r.map Node.shell ∧
        (∀ q, q ≠ h → q ≠ l → r'[q]? = r[q]?) ∧
        keysOf r' h = (keysOf r h).drop budget ∧
        keysOf r' l = mapSetAll (keysOf r l) ((keysOf r h).take budget) := by
  intro budget
  induction budget with
  | zero =>
      intro r _ _
      exact ⟨r, by simp [shuffleMoveKeys], rfl, fun _ _ _ => rfl, by simp, by simp [mapSetAll]⟩
  | succ b ih =>
      intro r hh hl
      have eh : r[h]? = some r[h] := List.getElem?_eq_getElem hh
      have el : r[l]? = some r[l] := List.getElem?_eq_getElem hl
      rw [keysOf_of_getElem? eh, keysOf_of_getElem? el]
      cases hk : r[h].localKeys_ with
      | nil =>
          refine ⟨r, ?_, rfl, fun _ _ _ => rfl, ?_, ?_⟩
          · unfold shuffleMoveKeys
            simp [getNode_of_lt hh, hk, bind, Except.bind]
          · rw [keysOf_of_getElem? eh, hk]; rfl
          · rw [keysOf_of_getElem? el]; simp [mapSetAll]
      | cons kv rest =>
          obtain ⟨k, v⟩ := kv
          have e1h : (putNode r l { r[l] with localKeys_ := mapSet r[l].localKeys_ k v })[h]? =
              some r[h] := by
            rw [getElem?_putNode_ne (Ne.symm hhl), eh]
          have e2h : (putNode (putNode r l
              { r[l] with localKeys_ := mapSet r[l].localKeys_ k v }) h
              { r[h] with localKeys_ := mapErase r[h].localKeys_ k })[h]? =
              some { r[h] with localKeys_ := mapErase r[h].localKeys_ k } :=
            getElem?_putNode_self e1h
          have e2l : (putNode (putNode r l
              { r[l] with localKeys_ := mapSet r[l].localKeys_ k v }) h
              { r[h] with localKeys_ := mapErase r[h].localKeys_ k })[l]? =
              some { r[l] with localKeys_ := mapSet r[l].localKeys_ k v } := by
            rw [getElem?_putNode_ne hhl, getElem?_putNode_self el]
          have hsh2 : (putNode (putNode r l
              { r[l] with localKeys_ := mapSet r[l].localKeys_ k v }) h
              { r[h] with localKeys_ := mapErase r[h].localKeys_ k }).map Node.shell =
              r.map Node.shell :=
            (map_putNode_same Node.shell
              (n := { r[h] with localKeys_ := mapErase r[h].localKeys_ k }) e1h rfl).trans
              (map_putNode_same Node.shell
                (n := { r[l] with localKeys_ := mapSet r[l].localKeys_ k v }) el rfl)
          obtain ⟨r', hrun, hsh, hoth, hkh, hkl⟩ := ih
            (putNode (putNode r l { r[l] with localKeys_ := mapSet r[l].localKeys_ k v }) h
              { r[h] with localKeys_ := mapErase r[h].localKeys_ k })
            (by rw [length_putNode, length_putNode]; exact hh)
            (by rw [length_putNode, length_putNode]; exact hl)
          have hkeys : keysOf (putNode (putNode r l
              { r[l] with localKeys_ := mapSet r[l].localKeys_ k v }) h
              { r[h] with localKeys_ := mapErase r[h].localKeys_ k }) h = rest := by
            rw [keysOf_of_getElem? e2h, hk]; simp [mapErase]
          rw [hkeys] at hrun hkh hkl
          rw [keysOf_of_getElem? e2l] at hkl
          refine ⟨r', ?_, hsh.trans hsh2, ?_, ?_, ?_⟩
          · rw [shuffleMoveKeys_succ eh hk el e1h, hrun]
            simp [bind, Except.bind]
          · intro q hqh hql
            rw [hoth q hqh hql, getElem?_putNode_ne (Ne.symm hqh),
              getElem?_putNode_ne (Ne.symm hql)]
          · rw [hkh]; rfl
          · rw [hkl]; rfl

theorem mapFind_append (a b : List (Nat × Nat)) (k : Nat) :
    mapFind (a ++ b) k =
      match mapFind a k with
      | some v => some v
      | none => mapFind b k := by
  induction a with
  | nil => rfl
  | cons x a ih =>
      obtain ⟨x1, x2⟩ := x
      simp only [List.cons_append, mapFind]
      split_ifs
      · rfl
      · exact ih

theorem mem_keys_mapSet (m : List (Nat × Nat)) (k v k' : Nat) :
    k' ∈ (mapSet m k v).map Prod.fst ↔ k' = k ∨ k' ∈ m.map Prod.fst := by
  induction m with
  | nil => simp [mapSet]
  | cons x m ih =>
      obtain ⟨x1, x2⟩ := x
      unfold mapSet
      split_ifs with h1 h2
      · subst h1; simp
      · simp
      · simp only [List.map_cons, List.mem_cons, ih]
        tauto

theorem length_mapSet (m : List (Nat × Nat)) (k v : Nat) (h : k ∉ m.map Prod.fst) :
    (mapSet m k v).length = m.length + 1 := by
  induction m with
  | nil => simp [mapSet]
  | cons x m ih =>
      obtain ⟨x1, x2⟩ := x
      simp only [List.map_cons, List.mem_cons, not_or] at h
      unfold mapSet
      rw [if_neg (fun e => h.1 e.symm)]
      split_ifs
      · simp
      · simp [ih h.2]

theorem length_mapSetAll (moved : List (Nat × Nat)) :
    ∀ (acc : List (Nat × Nat)), (moved.map Prod.fst).Nodup →
      (∀ k ∈ moved.map Prod.fst, k ∉ acc.map Prod.fst) →
      (mapSetAll acc moved).length = acc.length + moved.length := by
  induction moved with
  | nil => intro acc _ _; simp [mapSetAll]
  | cons x moved ih =>
      intro acc hnd hdis
      obtain ⟨x1, x2⟩ := x
      simp only [List.map_cons, List.nodup_cons] at hnd
      have hstep : mapSetAll acc ((x1, x2) :: moved) = mapSetAll (mapSet acc x1 x2) moved := rfl
      rw [hstep, ih (mapSet acc x1 x2) hnd.2 ?_, length_mapSet acc x1 x2
        (hdis x1 (by simp))]
      · simp only [List.length_cons]; omega
      · intro k hk hk'
        rw [mem_keys_mapSet] at hk'
        rcases hk' with h | h
        · subst h; exact hnd.1 hk
        · exact hdis k (by simp only [List.map_cons, List.mem_cons]; exact Or.inr hk) h

theorem mapFind_of_mem_nodup (m : List (Nat × Nat)) (k v : Nat) (hnd : (m.map Prod.fst).Nodup)
    (h : (k, v) ∈ m) : mapFind m k = some v := by
  induction m with
  | nil => simp at h
  | cons x m ih =>
      obtain ⟨x1, x2⟩ := x
      simp only [List.map_cons, List.nodup_cons] at hnd
      unfold mapFind
      rcases List.mem_cons.1 h with e | e
      · cases e; simp
      · have hne : x1 ≠ k := by
          intro e'
          subst e'
          exact hnd.1 (List.mem_map.2 ⟨(x1, v), e, rfl⟩)
        rw [if_neg hne]
        exact ih hnd.2 e

theorem mapFind_mem_keys (m : List (Nat × Nat)) (k v : Nat) (h : mapFind m k = some v) :
    k ∈ m.map Prod.fst :=
  List.mem_map.2 ⟨(k, v), mapFind_some_mem m k v h, rfl⟩

/-- In a store without duplicate keys a key is found either among the first t
pairs or among the others, never in both parts. -/
theorem mapFind_take_drop (m : List (Nat × Nat)) (t k : Nat) (hnd : (m.map Prod.fst).Nodup) :
    (∀ v, mapFind (m.take t) k = some v → mapFind m k = some v ∧ mapFind (m.drop t) k = none) ∧
    (∀ v, mapFind (m.drop t) k = some v → mapFind m k = some v ∧ mapFind (m.take t) k = none) ∧
    (mapFind m k = none → mapFind (m.take t) k = none ∧ mapFind (m.drop t) k = none) := by
  have hsplit := mapFind_append (m.take t) (m.drop t) k
  rw [List.take_append_drop] at hsplit
  have hnd' : ((m.take t).map Prod.fst ++ (m.drop t).map Prod.fst).Nodup := by
    rw [← List.map_append, List.take_append_drop]; exact hnd
  have hdis := (List.nodup_append.1 hnd').2.2
  refine ⟨fun v hv => ?_, fun v hv => ?_, fun hnone => ?_⟩
  · rw [hv] at hsplit
    refine ⟨hsplit, mapFind_none_of_not_mem _ _ (fun hc => ?_)⟩
    exact hdis (mapFind_mem_keys _ _ _ hv) hc
  · have ht : mapFind (m.take t) k = none :=
      mapFind_none_of_not_mem _ _ (fun hc => hdis hc (mapFind_mem_keys _ _ _ hv))
    rw [ht] at hsplit
    exact ⟨hsplit.trans hv, ht⟩
  · rw [hnone] at hsplit
    cases h1 : mapFind (m.take t) k with
    | none => rw [h1] at hsplit; exact ⟨rfl, hsplit.symm⟩
    | some v => rw [h1] at hsplit; cases hsplit

/-- The count the space shuffle computes for a pair, static_cast<int>((h - l) / 2)
with int division, used only when positive: it is (h - l) / 2 with truncated
subtraction, that is floor((h - l) / 2) when l ≤ h and 0 otherwise. -/
theorem keysToTransfer_eq (a b : Nat) :
    (Int.tdiv ((a : Int) - b) 2 > 0 → (Int.tdiv ((a : Int) - b) 2).toNat = (a - b) / 2) ∧
    (¬ Int.tdiv ((a : Int) - b) 2 > 0 → (a - b) / 2 = 0) := by
  by_cases hab : b ≤ a
  · have e1 : ((a : Int) - b) = ((a - b : Nat) : Int) := by rw [Nat.cast_sub hab]
    have e2 : Int.tdiv ((a : Int) - b) 2 = (((a - b) / 2 : Nat) : Int) := by
      rw [e1, Int.tdiv_eq_ediv (Int.ofNat_nonneg _) (by decide)]
      norm_cast
    rw [e2]
    constructor
    · intro _; exact Int.toNat_ofNat _
    · intro h; omega
  · have e0 : a - b = 0 := by omega
    have e1 : ((a : Int) - b) = -(((b - a : Nat)) : Int) := by
      rw [Nat.cast_sub (by omega)]; ring
    have e2 : Int.tdiv ((a : Int) - b) 2 ≤ 0 := by
      rw [e1, Int.neg_tdiv]
      have := Int.tdiv_nonneg (Int.ofNat_nonneg (b - a)) (by decide : (0 : Int) ≤ 2)
      omega
    constructor
    · intro h; omega
    · intro _; rw [e0]

theorem pairs_nodup_cons {h l : Nat} {rest : List (Nat × Nat)}
    (hnd : (((h, l) :: rest).map Prod.fst ++ ((h, l) :: rest).map Prod.snd).Nodup) :
    h ≠ l ∧ (∀ hl ∈ rest, h ≠ hl.1 ∧ h ≠ hl.2 ∧ l ≠ hl.1 ∧ l ≠ hl.2) ∧
      (rest.map Prod.fst ++ rest.map Prod.snd).Nodup := by
  simp only [List.map_cons, List.cons_append, List.nodup_cons, List.nodup_middle,
    List.mem_append, List.mem_cons, List.mem_map, not_or, not_exists, not_and] at hnd
  obtain ⟨⟨h1, hhl, h2⟩, ⟨l1, l2⟩, hrest⟩ := hnd
  refine ⟨hhl, fun hl hmem => ⟨?_, ?_, ?_, ?_⟩, hrest⟩
  · exact fun e => h1 hl hmem e.symm
  · exact fun e => h2 hl hmem e.symm
  · exact fun e => l1 hl hmem e.symm
  · exact fun e => l2 hl hmem e.symm

/-- What the outer loop of the space shuffle does when no node occurs twice
among the pairs and the counts are the store sizes: for each pair (h, l) the
first (|h| - |l|) / 2 pairs of h's store move to l, and nothing else changes. -/
theorem shufflePairs_spec :
    ∀ (ps : List (Nat × Nat)) (kd : Nat → Int) (r : Ring),
      (ps.map Prod.fst ++ ps.map Prod.snd).Nodup →
      (∀ hl ∈ ps, hl.1 < r.length ∧ hl.2 < r.length) →
      (∀ hl ∈ ps, kd hl.1 = ((keysOf r hl.1).length : Int) ∧
        kd hl.2 = ((keysOf r hl.2).length : Int)) →
      ∃ kd' r', shufflePairs ps kd r = .ok (kd', r') ∧
        r'.map Node.shell = r.map Node.shell ∧
        (∀ q, (∀ hl ∈ ps, q ≠ hl.1 ∧ q ≠ hl.2) → r'[q]? = r[q]?) ∧
        ∀ hl ∈ ps,
          keysOf r' hl.1 = (keysOf r hl.1).drop
            (((keysOf r hl.1).length - (keysOf r hl.2).length) / 2) ∧
          keysOf r' hl.2 = mapSetAll (keysOf r hl.2) ((keysOf r hl.1).take
            (((keysOf r hl.1).length - (keysOf r hl.2).length) / 2)) := by
  intro ps
  induction ps with
  | nil =>
      intro kd r _ _ _
      exact ⟨kd, r, rfl, rfl, fun _ _ => rfl, fun hl h => by simp at h⟩
  | cons p rest ih =>
      intro kd r hnd hval hkd
      obtain ⟨h, l⟩ := p
      obtain ⟨hhl, hfresh, hndr⟩ := pairs_nodup_cons hnd
      obtain ⟨hh, hl⟩ := hval (h, l) (List.mem_cons_self _ _)
      obtain ⟨hkh, hkl⟩ := hkd (h, l) (List.mem_cons_self _ _)
      simp only at hh hl hkh hkl
      obtain ⟨hpos, hneg⟩ := keysToTransfer_eq (keysOf r h).length (keysOf r l).length
      rw [shufflePairs, hkh, hkl]
      by_cases hc : Int.tdiv (((keysOf r h).length : Int) - (keysOf r l).length) 2 > 0
      · rw [if_pos hc, hpos hc]
        obtain ⟨r1, hrun1, hsh1, hoth1, hk1h, hk1l⟩ :=
          shuffleMoveKeys_spec hhl (((keysOf r h).length - (keysOf r l).length) / 2) r hh hl
        have hl1 := length_of_shell hsh1
        simp only [hrun1, bind, Except.bind]
        have key : ∀ kd2 : Nat → Int,
            (∀ hl' ∈ rest, kd2 hl'.1 = kd hl'.1 ∧ kd2 hl'.2 = kd hl'.2) →
            ∃ kd' r', shufflePairs rest kd2 r1 = .ok (kd', r') ∧
              r'.map Node.shell = r.map Node.shell ∧
              (∀ q, (∀ hl ∈ (h, l) :: rest, q ≠ hl.1 ∧ q ≠ hl.2) → r'[q]? = r[q]?) ∧
              ∀ hl ∈ (h, l) :: rest,
                keysOf r' hl.1 = (keysOf r hl.1).drop
                  (((keysOf r hl.1).length - (keysOf r hl.2).length) / 2) ∧
                keysOf r' hl.2 = mapSetAll (keysOf r hl.2) ((keysOf r hl.1).take
                  (((keysOf r hl.1).length - (keysOf r hl.2).length) / 2)) := by
          intro kd2 hagree
          obtain ⟨kd', r', hrun, hsh, hoth, hpairs⟩ := ih kd2 r1 hndr
            (fun hl' hm => by
              obtain ⟨a, b⟩ := hval hl' (List.mem_cons_of_mem _ hm)
              exact ⟨by omega, by omega⟩)
            (fun hl' hm => by
              obtain ⟨f1, f2, f3, f4⟩ := hfresh hl' hm
              obtain ⟨a, b⟩ := hkd hl' (List.mem_cons_of_mem _ hm)
              rw [(hagree hl' hm).1, (hagree hl' hm).2,
                keysOf_congr (hoth1 hl'.1 (Ne.symm f1) (Ne.symm f3)),
                keysOf_congr (hoth1 hl'.2 (Ne.symm f2) (Ne.symm f4))]
              exact ⟨a, b⟩)
          refine ⟨kd', r', hrun, hsh.trans hsh1, ?_, ?_⟩
          · intro q hq
            obtain ⟨q1, q2⟩ := hq (h, l) (List.mem_cons_self _ _)
            rw [hoth q (fun hl' hm => hq hl' (List.mem_cons_of_mem _ hm)), hoth1 q q1 q2]
          · intro hl' hm
            rcases List.mem_cons.1 hm with e | e
            · cases e
              rw [keysOf_congr (hoth h (fun hl' hm =>
                  ⟨(hfresh hl' hm).1, (hfresh hl' hm).2.1⟩)),
                keysOf_congr (hoth l (fun hl' hm =>
                  ⟨(hfresh hl' hm).2.2.1, (hfresh hl' hm).2.2.2⟩))]
              exact ⟨hk1h, hk1l⟩
            · obtain ⟨f1, f2, f3, f4⟩ := hfresh hl' e
              have := hpairs hl' e
              rw [keysOf_congr (hoth1 hl'.1 (Ne.symm f1) (Ne.symm f3)),
                keysOf_congr (hoth1 hl'.2 (Ne.symm f2) (Ne.symm f4))] at this
              exact this
        refine key _ (fun hl' hm => ?_)
        obtain ⟨f1, f2, f3, f4⟩ := hfresh hl' hm
        rw [Function.update_noteq (Ne.symm f3), Function.update_noteq (Ne.symm f1),
          Function.update_noteq (Ne.symm f4), Function.update_noteq (Ne.symm f2)]
        exact ⟨rfl, rfl⟩
      · rw [if_neg hc]
        obtain ⟨kd', r', hrun, hsh, hoth, hpairs⟩ := ih kd r hndr
          (fun hl' hm => hval hl' (List.mem_cons_of_mem _ hm))
          (fun hl' hm => hkd hl' (List.mem_cons_of_mem _ hm))
        refine ⟨kd', r', hrun, hsh, ?_, ?_⟩
        · intro q hq
          exact hoth q (fun hl' hm => hq hl' (List.mem_cons_of_mem _ hm))
        · intro hl' hm
          rcases List.mem_cons.1 hm with e | e
          · cases e
            rw [keysOf_congr (hoth h (fun hl' hm => ⟨(hfresh hl' hm).1, (hfresh hl' hm).2.1⟩)),
              keysOf_congr (hoth l (fun hl' hm =>
                ⟨(hfresh hl' hm).2.2.1, (hfresh hl' hm).2.2.2⟩)), hneg hc]
            simp [mapSetAll]
          · exact hpairs hl' e

/-- The collection loop of the space shuffle returns when the finger-1 chain
from `cur` reaches `n` within the rounds left; the nodes collected are nodes of
the arena and the successor of each is collected too or is `n`. -/
theorem collectAllNodes_ok {r : Ring} {n : Nat} (hsucc : SuccessorsSet r) :
    ∀ (j cur fuel : Nat), cur < r.length → some n ∈ successorWalk r j cur → j ≤ fuel →
      ∃ all, collectAllNodes r n fuel (some cur) = .ok all ∧ cur ∈ all ∧
        (∀ q ∈ all, q < r.length) ∧
        ∀ q ∈ all, ∃ s, fingerOf r q 1 = some s ∧ (s ∈ all ∨ s = n) := by
  intro j
  induction j with
  | zero => intro cur fuel _ h _; simp [successorWalk] at h
  | succ j ih =>
      intro cur fuel hcur hwalk hfuel
      obtain ⟨f, rfl⟩ : ∃ f, fuel = f + 1 := ⟨fuel - 1, by omega⟩
      obtain ⟨s, hs, hfs⟩ := hsucc cur hcur
      have hptr : r[cur].getNodePtr 1 = some s := by rw [← fingerOf_of_lt hcur]; exact hfs
      rw [collectAllNodes]
      simp only [nonNull, getNode_of_lt hcur, hptr, bind, Except.bind]
      by_cases hsn : some s ≠ some n
      · rw [if_pos hsn]
        simp only [successorWalk, hfs, List.mem_cons] at hwalk
        rcases hwalk with h | h
        · exact absurd h.symm hsn
        · obtain ⟨rest, hrun, hmem, hval, hclo⟩ := ih s f hs h (by omega)
          rw [hrun]
          refine ⟨cur :: rest, rfl, List.mem_cons_self _ _, ?_, ?_⟩
          · intro q hq
            rcases List.mem_cons.1 hq with e | e
            · rw [e]; exact hcur
            · exact hval q e
          · intro q hq
            rcases List.mem_cons.1 hq with e | e
            · rw [e]; exact ⟨s, hfs, Or.inl (List.mem_cons_of_mem _ hmem)⟩
            · obtain ⟨s', h1, h2⟩ := hclo q e
              refine ⟨s', h1, ?_⟩
              rcases h2 with h2 | h2
              · exact Or.inl (List.mem_cons_of_mem _ h2)
              · exact Or.inr h2
      · rw [if_neg hsn]
        have hsn' : s = n := by
          by_contra hc
          exact hsn (fun e => hc (Option.some.inj e))
        refine ⟨[cur], rfl, List.mem_singleton_self _, ?_, ?_⟩
        · intro q hq
          rw [List.mem_singleton.1 hq]; exact hcur
        · intro q hq
          rw [List.mem_singleton.1 hq]
          exact ⟨s, hfs, Or.inr hsn'⟩

theorem countKeys_ok {r : Ring} :
    ∀ (all : List Nat) (kd : Nat → Int), (∀ q ∈ all, q < r.length) →
      ∃ kd', countKeys r all kd = .ok kd' ∧
        (∀ q ∈ all, kd' q = ((keysOf r q).length : Int)) ∧
        ∀ q, q ∉ all → kd' q = kd q := by
  intro all
  induction all with
  | nil => intro kd _; exact ⟨kd, rfl, fun q h => by simp at h, fun _ _ => rfl⟩
  | cons x rest ih =>
      intro kd hval
      have hx : x < r.length := hval x (List.mem_cons_self _ _)
      obtain ⟨kd', hrun, hin, hout⟩ :=
        ih (Function.update kd x (r[x].localKeys_.length : Int))
          (fun q hq => hval q (List.mem_cons_of_mem _ hq))
      refine ⟨kd', ?_, ?_, ?_⟩
      · rw [countKeys]
        simp only [getNode_of_lt hx, bind, Except.bind]
        exact hrun
      · intro q hq
        by_cases hqr : q ∈ rest
        · exact hin q hqr
        · rcases List.mem_cons.1 hq with e | e
          · rw [hout q hqr, e, Function.update_same,
              keysOf_of_getElem? (List.getElem?_eq_getElem hx)]
          · exact absurd e hqr
      · intro q hq
        simp only [List.mem_cons, not_or] at hq
        rw [hout q hq.2, Function.update_noteq hq.1]

theorem zip_keys_sublist :
    ∀ (a b : List Nat), List.Sublist ((a.zip b).map Prod.fst) a ∧
      List.Sublist ((a.zip b).map Prod.snd) b := by
  intro a
  induction a with
  | nil => intro b; simp
  | cons x a ih =>
      intro b
      cases b with
      | nil => simp
      | cons y b =>
          simp only [List.zip_cons_cons, List.map_cons]
          exact ⟨(ih b).1.cons₂ _, (ih b).2.cons₂ _⟩

/-- The first t pairs of a store: their keys are distinct and, when the stores
are disjoint, none of them is a key of another node's store. -/
theorem moved_keys_fresh {r : Ring} (hmaps : KeysUnique r) (hdisj : StoresDisjoint r)
    {h l : Nat} (hh : h < r.length) (hhl : h ≠ l) (t : Nat) :
    (((keysOf r h).take t).map Prod.fst).Nodup ∧
    (∀ k, mapFind ((keysOf r h).take t) k ≠ none → mapFind (keysOf r l) k = none) ∧
    ∀ k ∈ ((keysOf r h).take t).map Prod.fst, k ∉ (keysOf r l).map Prod.fst := by
  have hnd := hmaps h hh
  have hsub : List.Sublist (((keysOf r h).take t).map Prod.fst) ((keysOf r h).map Prod.fst) :=
    (List.take_sublist t _).map Prod.fst
  have hfound : ∀ k, mapFind ((keysOf r h).take t) k ≠ none → mapFind (keysOf r l) k = none := by
    intro k hk
    cases hv : mapFind ((keysOf r h).take t) k with
    | none => exact absurd hv hk
    | some v =>
        exact disjoint_of_stores hdisj hhl (((mapFind_take_drop _ t k hnd).1 v hv).1)
  refine ⟨hnd.sublist hsub, hfound, fun k hk hk' => ?_⟩
  exact mapFind_ne_none_of_mem _ _ hk' (hfound k (mapFind_ne_none_of_mem _ _ hk))

/-- From the store-by-store description of the state after the space shuffle
to the counts of keys moved and the preservation of the key/value pairs. -/
theorem shuffle_result_facts {r r' : Ring} {ps : List (Nat × Nat)} (hmaps : KeysUnique r)
    (hdisj : StoresDisjoint r) (hval : ∀ hl ∈ ps, hl.1 < r.length ∧ hl.2 < r.length)
    (hne : ∀ hl ∈ ps, hl.1 ≠ hl.2)
    (hoth : ∀ q, (∀ hl ∈ ps, q ≠ hl.1 ∧ q ≠ hl.2) → r'[q]? = r[q]?)
    (hpairs : ∀ hl ∈ ps,
      keysOf r' hl.1 = (keysOf r hl.1).drop
        (((keysOf r hl.1).length - (keysOf r hl.2).length) / 2) ∧
      keysOf r' hl.2 = mapSetAll (keysOf r hl.2) ((keysOf r hl.1).take
        (((keysOf r hl.1).length - (keysOf r hl.2).length) / 2))) :
    (∀ hl ∈ ps,
      (keysOf r' hl.1).length = (keysOf r hl.1).length -
        ((keysOf r hl.1).length - (keysOf r hl.2).length) / 2 ∧
      (keysOf r' hl.2).length = (keysOf r hl.2).length +
        ((keysOf r hl.1).length - (keysOf r hl.2).length) / 2 ∧
      (∀ kv ∈ (keysOf r hl.1).take (((keysOf r hl.1).length - (keysOf r hl.2).length) / 2),
        mapFind (keysOf r' hl.2) kv.1 = some kv.2) ∧
      ∀ k v, mapFind (keysOf r hl.2) k = some v → mapFind (keysOf r' hl.2) k = some v) ∧
    ∀ k v, (∃ q, mapFind (keysOf r q) k = some v) ↔ ∃ q, mapFind (keysOf r' q) k = some v := by
  have hlight : ∀ hl ∈ ps, ∀ k, mapFind (keysOf r' hl.2) k =
      match mapFind ((keysOf r hl.1).take
        (((keysOf r hl.1).length - (keysOf r hl.2).length) / 2)) k with
      | some v => some v
      | none => mapFind (keysOf r hl.2) k := by
    intro hl hm k
    rw [(hpairs hl hm).2]
    exact mapFind_mapSetAll _ _ k
      (moved_keys_fresh hmaps hdisj (hval hl hm).1 (hne hl hm) _).1
  constructor
  · intro hl hm
    obtain ⟨hnd, hfound, hfresh⟩ := moved_keys_fresh hmaps hdisj (hval hl hm).1 (hne hl hm)
      (((keysOf r hl.1).length - (keysOf r hl.2).length) / 2)
    refine ⟨?_, ?_, ?_, ?_⟩
    · rw [(hpairs hl hm).1, List.length_drop]
    · rw [(hpairs hl hm).2, length_mapSetAll _ _ hnd hfresh, List.length_take]
      omega
    · intro kv hkv
      rw [hlight hl hm, mapFind_of_mem_nodup _ kv.1 kv.2 hnd hkv]
    · intro k v hk
      rw [hlight hl hm]
      cases hmv : mapFind ((keysOf r hl.1).take
          (((keysOf r hl.1).length - (keysOf r hl.2).length) / 2)) k with
      | none => exact hk
      | some v' =>
          have := hfound k (by rw [hmv]; simp)
          rw [this] at hk
          cases hk
  · intro k v
    constructor
    · rintro ⟨q, hq⟩
      by_cases h1 : ∃ hl ∈ ps, q = hl.1
      · obtain ⟨hl, hm, rfl⟩ := h1
        have hsplit := mapFind_append ((keysOf r hl.1).take
          (((keysOf r hl.1).length - (keysOf r hl.2).length) / 2)) ((keysOf r hl.1).drop
          (((keysOf r hl.1).length - (keysOf r hl.2).length) / 2)) k
        rw [List.take_append_drop, hq] at hsplit
        cases hmv : mapFind ((keysOf r hl.1).take
            (((keysOf r hl.1).length - (keysOf r hl.2).length) / 2)) k with
        | none =>
            rw [hmv] at hsplit
            exact ⟨hl.1, by rw [(hpairs hl hm).1]; exact hsplit.symm⟩
        | some v' =>
            rw [hmv] at hsplit
            exact ⟨hl.2, by rw [hlight hl hm, hmv]; exact hsplit.symm⟩
      · by_cases h2 : ∃ hl ∈ ps, q = hl.2
        · obtain ⟨hl, hm, rfl⟩ := h2
          have hfound := (moved_keys_fresh hmaps hdisj (hval hl hm).1 (hne hl hm)
            (((keysOf r hl.1).length - (keysOf r hl.2).length) / 2)).2.1
          refine ⟨hl.2, ?_⟩
          rw [hlight hl hm]
          cases hmv : mapFind ((keysOf r hl.1).take
              (((keysOf r hl.1).length - (keysOf r hl.2).length) / 2)) k with
          | none => exact hq
          | some v' =>
              have := hfound k (by rw [hmv]; simp)
              rw [this] at hq
              cases hq
        · refine ⟨q, ?_⟩
          rw [keysOf_congr (hoth q (fun hl hm =>
            ⟨fun e => h1 ⟨hl, hm, e⟩, fun e => h2 ⟨hl, hm, e⟩⟩))]
          exact hq
    · rintro ⟨q, hq⟩
      by_cases h1 : ∃ hl ∈ ps, q = hl.1
      · obtain ⟨hl, hm, rfl⟩ := h1
        rw [(hpairs hl hm).1] at hq
        exact ⟨hl.1, ((mapFind_take_drop _ _ k (hmaps hl.1 (hval hl hm).1)).2.1 v hq).1⟩
      · by_cases h2 : ∃ hl ∈ ps, q = hl.2
        · obtain ⟨hl, hm, rfl⟩ := h2
          rw [hlight hl hm] at hq
          cases hmv : mapFind ((keysOf r hl.1).take
              (((keysOf r hl.1).length - (keysOf r hl.2).length) / 2)) k with
          | none =>
              rw [hmv] at hq
              exact ⟨hl.2, hq⟩
          | some v' =>
              rw [hmv] at hq
              cases hq
              exact ⟨hl.1, ((mapFind_take_drop _ _ k (hmaps hl.1 (hval hl hm).1)).1 _ hmv).1⟩
        · refine ⟨q, ?_⟩
          rw [← keysOf_congr (hoth q (fun hl hm =>
            ⟨fun e => h1 ⟨hl, hm, e⟩, fun e => h2 ⟨hl, hm, e⟩⟩))]
          exact hq

/-- C23: in a ring whose finger entries 1 point at nodes, whose finger-1 chain
from the invoking node n returns to n, and whose key stores are maps pairwise
disjoint in keys, for every outcome of the classification and the shuffles
(lists of heavy and of light nodes on the chain, no node twice),
spaceShuffleOptimization returns, and for each index-aligned pair of a heavy
node with h keys and a light node with l keys it moves the first (h - l) / 2
pairs of the heavy node's store (truncated subtraction; floor((h - l) / 2) as
l ≤ h) to the light node, which keeps what it had; every unpaired node is
unchanged, routing data is unchanged, and the set of key/value pairs held in
the ring is the same. -/
theorem spaceShuffle_moves_half (r : Ring) (n j fuel : Nat) (heavyNodes lightNodes : List Nat)
    (hn : n < r.length) (hsucc : SuccessorsSet r) (hcyc : some n ∈ successorWalk r j n)
    (hfuel : j ≤ fuel) (hmaps : KeysUnique r) (hdisj : StoresDisjoint r)
    (hnd : (heavyNodes ++ lightNodes).Nodup)
    (hon : ∀ x ∈ heavyNodes ++ lightNodes, ∃ i, some x ∈ successorWalk r i n) :
    ∃ r', spaceShuffleOptimization fuel r n heavyNodes lightNodes = .ok r' ∧
      r'.map Node.shell = r.map Node.shell ∧
      (∀ hl ∈ heavyNodes.zip lightNodes,
        keysOf r' hl.1 = (keysOf r hl.1).drop
          (((keysOf r hl.1).length - (keysOf r hl.2).length) / 2) ∧
        (keysOf r' hl.1).length = (keysOf r hl.1).length -
          ((keysOf r hl.1).length - (keysOf r hl.2).length) / 2 ∧
        (keysOf r' hl.2).length = (keysOf r hl.2).length +
          ((keysOf r hl.1).length - (keysOf r hl.2).length) / 2 ∧
        (∀ kv ∈ (keysOf r hl.1).take (((keysOf r hl.1).length - (keysOf r hl.2).length) / 2),
          mapFind (keysOf r' hl.2) kv.1 = some kv.2) ∧
        ∀ k v, mapFind (keysOf r hl.2) k = some v → mapFind (keysOf r' hl.2) k = some v) ∧
      (∀ q, (∀ hl ∈ heavyNodes.zip lightNodes, q ≠ hl.1 ∧ q ≠ hl.2) → r'[q]? = r[q]?) ∧
      ∀ k v, (∃ q, mapFind (keysOf r q) k = some v) ↔
        ∃ q, mapFind (keysOf r' q) k = some v := by
  obtain ⟨all, hrunall, hmemn, hval, hclo⟩ := collectAllNodes_ok hsucc j n fuel hn hcyc hfuel
  have hclo' : ∀ q, some q ∈ all.map some →
      ∃ s, fingerOf r q 1 = some s ∧ some s ∈ all.map some := by
    intro q hq
    have hq' : q ∈ all := by simpa using hq
    obtain ⟨s, h1, h2⟩ := hclo q hq'
    refine ⟨s, h1, ?_⟩
    rcases h2 with h2 | h2
    · simpa using h2
    · rw [h2]; simpa using hmemn
  have hall : ∀ x ∈ heavyNodes ++ lightNodes, x ∈ all := by
    intro x hx
    obtain ⟨i, hi⟩ := hon x hx
    have := walk_in_closed hclo' i n (by simpa using hmemn) _ hi
    simpa using this
  obtain ⟨kd, hrunkd, hin, _⟩ := countKeys_ok all (fun _ => 0) hval
  have hzip : ∀ hl ∈ heavyNodes.zip lightNodes, hl.1 ∈ heavyNodes ∧ hl.2 ∈ lightNodes := by
    intro hl hm
    exact List.of_mem_zip (a := hl.1) (b := hl.2) hm
  have hvalp : ∀ hl ∈ heavyNodes.zip lightNodes, hl.1 < r.length ∧ hl.2 < r.length := by
    intro hl hm
    exact ⟨hval _ (hall _ (List.mem_append_left _ (hzip hl hm).1)),
      hval _ (hall _ (List.mem_append_right _ (hzip hl hm).2))⟩
  have hnep : ∀ hl ∈ heavyNodes.zip lightNodes, hl.1 ≠ hl.2 := by
    intro hl hm e
    exact (List.nodup_append.1 hnd).2.2 (hzip hl hm).1 (e ▸ (hzip hl hm).2)
  have hndp : (((heavyNodes.zip lightNodes).map Prod.fst) ++
      ((heavyNodes.zip lightNodes).map Prod.snd)).Nodup :=
    hnd.sublist ((zip_keys_sublist heavyNodes lightNodes).1.append
      (zip_keys_sublist heavyNodes lightNodes).2)
  obtain ⟨kd', r', hrun, hsh, hoth, hpairs⟩ := shufflePairs_spec (heavyNodes.zip lightNodes)
    kd r hndp hvalp (fun hl hm =>
      ⟨hin _ (hall _ (List.mem_append_left _ (hzip hl hm).1)),
        hin _ (hall _ (List.mem_append_right _ (hzip hl hm).2))⟩)
  obtain ⟨hfacts, hsame⟩ := shuffle_result_facts hmaps hdisj hvalp hnep hoth hpairs
  refine ⟨r', ?_, hsh, fun hl hm => ⟨(hpairs hl hm).1, hfacts hl hm⟩, hoth, hsame⟩
  unfold spaceShuffleOptimization
  simp only [hrunall, hrunkd, bind, Except.bind]
  by_cases hne : heavyNodes ≠ [] ∧ lightNodes ≠ []
  · rw [if_pos hne, hrun]
  · rw [if_neg hne]
    have hz : heavyNodes.zip lightNodes = [] := by
      by_cases h1 : heavyNodes = []
      · rw [h1]; simp
      · have h2 : lightNodes = [] := by
          by_contra hc
          exact hne ⟨h1, hc⟩
        rw [h2]; simp
    rw [hz] at hrun
    simp only [shufflePairs, Except.ok.injEq, Prod.mk.injEq] at hrun
    rw [hrun.2]

/-- The ring of main() with node 65 (three keys) as the heavy node paired with
node 160 (one key), invoked on node 0, is an instance of C23: one key moves. -/
theorem spaceShuffle_moves_half_witness :
    (0 < ring7.length ∧ SuccessorsSet ring7 ∧ some 0 ∈ successorWalk ring7 7 0 ∧
      KeysUnique ring7 ∧ StoresDisjoint ring7 ∧ ([2] ++ [4, 1, 5]).Nodup ∧
      ∀ x ∈ [2] ++ [4, 1, 5], some x ∈ successorWalk ring7 7 0) ∧
    ∃ r', spaceShuffleOptimization 7 ring7 0 [2] [4, 1, 5] = .ok r' ∧
      r'.map Node.shell = ring7.map Node.shell ∧
      (∀ hl ∈ [2].zip [4, 1, 5],
        keysOf r' hl.1 = (keysOf ring7 hl.1).drop
          (((keysOf ring7 hl.1).length - (keysOf ring7 hl.2).length) / 2) ∧
        (keysOf r' hl.1).length = (keysOf ring7 hl.1).length -
          ((keysOf ring7 hl.1).length - (keysOf ring7 hl.2).length) / 2 ∧
        (keysOf r' hl.2).length = (keysOf ring7 hl.2).length +
          ((keysOf ring7 hl.1).length - (keysOf ring7 hl.2).length) / 2 ∧
        (∀ kv ∈ (keysOf ring7 hl.1).take
            (((keysOf ring7 hl.1).length - (keysOf ring7 hl.2).length) / 2),
          mapFind (keysOf r' hl.2) kv.1 = some kv.2) ∧
        ∀ k v, mapFind (keysOf ring7 hl.2) k = some v →
          mapFind (keysOf r' hl.2) k = some v) ∧
      (∀ q, (∀ hl ∈ [2].zip [4, 1, 5], q ≠ hl.1 ∧ q ≠ hl.2) → r'[q]? = ring7[q]?) ∧
      ∀ k v, (∃ q, mapFind (keysOf ring7 q) k = some v) ↔
        ∃ q, mapFind (keysOf r' q) k = some v :=
  ⟨by decide, spaceShuffle_moves_half ring7 0 7 7 [2] [4, 1, 5] (by decide) (by decide)
    (by decide) (by decide) (by decide) (by decide) (by decide)
    (fun x hx => ⟨7, (by decide : ∀ x ∈ [2] ++ [4, 1, 5],
      some x ∈ successorWalk ring7 7 0) x hx⟩)⟩

end Chord
